import Mathlib

/-!
Verification of the gopogo cache core against its specification.

The development shallowly embeds the Go sources:
  * `internal/cache/types.go`     — `Entry`, `Bucket`, `Map`, `Shard`, `Cache`
  * the Robin-Hood map operations (`insertInternal`, `lookup`, `delete`,
    `insert`, `get`, `resize`, `randomEntries`)
  * the cache operations file (`Store`, `Load`, `Delete`, `CompareAndSwap`,
    `Increment`, `Clear`, `evictIfNeeded`).  The repository snapshot contains
    two versions of this file; the embedding follows the one that carries the
    per-entry evicted bit, the `maxMemory <= 0` eviction guard and the
    expired-first eviction priority, which is the version the repository's
    tests, README and specification describe.  Where the other (older) version
    differs it is noted at the definition.
  * `internal/protocol/redis.go` — `matchPattern`.

Byte strings are modelled as `List Nat` (each element a byte value), machine
integers as `Nat`/`Int` with explicit `% 2 ^ 64` where wraparound is
reachable, and the xxhash64 key hash as an arbitrary function parameter
`hash : Key → Nat` (the map and cache algorithms use the hash only through
`% capacity` / `% numShards` and equality, so every theorem quantifies over
all hash functions and in particular holds for xxhash64).
-/

namespace Gopogo

/-- Byte strings (Go `[]byte` / `string`): a list of byte values. -/
abbrev Key := List Nat

/-! ## int64 codecs (operations.go, `int64ToBytes` / `bytesToInt64`)

Go `int64` values are modelled as `Int`.  Lean's `Int` `/` and `%` are
Euclidean (remainder in `[0, 256)` for divisor `256`), which coincides with
Go's `byte(n)` (low 8 bits) and `n >>= 8` (arithmetic shift) on `int64`. -/

/-- Helper for `int64ToBytes`: the Go loop `for i := 7; i >= 0; i--` writing
`b[i] = byte(n); n >>= 8` fills the slice from the right; `int64ToBytesAux t n`
produces the last `t` bytes. -/
def int64ToBytesAux : Nat → Int → List Nat
  | 0, _ => []
  | t + 1, n => int64ToBytesAux t (n / 256) ++ [(n % 256).toNat]

/-- The function `int64ToBytes` of operations.go: 8-byte big-endian
two's-complement encoding of an int64. -/
def int64ToBytes (n : Int) : List Nat := int64ToBytesAux 8 n

/-- Two's-complement reading of a 64-bit pattern, used to express the final
value of the Go `int64` accumulator of `bytesToInt64`. -/
def toSigned64 (r : Nat) : Int := if r < 2 ^ 63 then (r : Int) else (r : Int) - 2 ^ 64

/-- The function `bytesToInt64` of operations.go: `0` when the length is not
8, otherwise the loop `n = (n << 8) | int64(b[i])` over the 8 bytes.  The
accumulated bit pattern is the base-256 value of the bytes (below `2 ^ 64`,
so the int64 wraparound only shows in the final two's-complement reading,
rendered by `toSigned64`). -/
def bytesToInt64 (b : List Nat) : Int :=
  if b.length ≠ 8 then 0
  else toSigned64 (b.foldl (fun n x => n * 256 + x) 0)

/-- Wraparound of Go `int64` addition (`currentVal + delta`). -/
def wrap64 (n : Int) : Int := (n + 2 ^ 63) % 2 ^ 64 - 2 ^ 63

/-- Base-256 (big-endian) value of a byte string. -/
def bytesVal (b : List Nat) : Nat := b.foldl (fun n x => n * 256 + x) 0

theorem bytesVal_append_singleton (b : List Nat) (x : Nat) :
    bytesVal (b ++ [x]) = bytesVal b * 256 + x := by
  simp [bytesVal, List.foldl_append]

theorem length_int64ToBytesAux (t : Nat) (n : Int) :
    (int64ToBytesAux t n).length = t := by
  induction t generalizing n with
  | zero => rfl
  | succ t ih => simp [int64ToBytesAux, ih]

theorem length_int64ToBytes (n : Int) : (int64ToBytes n).length = 8 :=
  length_int64ToBytesAux 8 n

theorem emod_nonneg_of_pos (n : Int) {m : Int} (h : 0 < m) : 0 ≤ n % m :=
  Int.emod_nonneg n (by omega)

/-- The digit decomposition `n % 256^(t+1) = (n / 256 % 256^t) * 256 + n % 256`. -/
theorem emod_pow_succ (n : Int) (t : Nat) :
    n % (256 : Int) ^ (t + 1) = (n / 256 % (256 : Int) ^ t) * 256 + n % 256 := by
  have h256 : (0 : Int) < 256 := by norm_num
  have hpow : (0 : Int) < (256 : Int) ^ t := by positivity
  have hdecomp : n = 256 * (n / 256) + n % 256 := (Int.ediv_add_emod n 256).symm
  have hmul : (256 : Int) ^ (t + 1) = 256 * (256 : Int) ^ t := by ring
  calc n % (256 : Int) ^ (t + 1)
      = (256 * (n / 256) + n % 256) % (256 * (256 : Int) ^ t) := by
        rw [← hdecomp, ← hmul]
    _ = (256 * (n / 256) % (256 * (256 : Int) ^ t) + n % 256) % (256 * (256 : Int) ^ t) :=
        (Int.emod_add_emod _ _ _).symm
    _ = (256 * (n / 256 % (256 : Int) ^ t) + n % 256) % (256 * (256 : Int) ^ t) := by
        rw [Int.mul_emod_mul_of_pos _ _ h256]
    _ = 256 * (n / 256 % (256 : Int) ^ t) + n % 256 := by
        apply Int.emod_eq_of_lt
        · have h1 : 0 ≤ n / 256 % (256 : Int) ^ t := emod_nonneg_of_pos _ hpow
          have h2 : 0 ≤ n % 256 := emod_nonneg_of_pos _ h256
          omega
        · have h1 : n / 256 % (256 : Int) ^ t ≤ (256 : Int) ^ t - 1 := by
            have := Int.emod_lt_of_pos (n / 256) hpow
            omega
          have h2 : n % 256 < 256 := Int.emod_lt_of_pos _ h256
          nlinarith
    _ = (n / 256 % (256 : Int) ^ t) * 256 + n % 256 := by ring

/-- The bytes produced by `int64ToBytesAux t n` have base-256 value
`n % 256^t`. -/
theorem bytesVal_int64ToBytesAux (t : Nat) (n : Int) :
    (bytesVal (int64ToBytesAux t n) : Int) = n % (256 : Int) ^ t := by
  induction t generalizing n with
  | zero => simp [int64ToBytesAux, bytesVal]
  | succ t ih =>
    have h256 : (0 : Int) < 256 := by norm_num
    rw [int64ToBytesAux, bytesVal_append_singleton, emod_pow_succ]
    push_cast
    rw [ih]
    have hle : 0 ≤ n % 256 := emod_nonneg_of_pos _ h256
    rw [Int.toNat_of_nonneg hle]

theorem int64ToBytesAux_of_bytesVal (b : List Nat) (hb : ∀ x ∈ b, x < 256) :
    int64ToBytesAux b.length (bytesVal b) = b := by
  induction b using List.reverseRecOn with
  | nil => simp [int64ToBytesAux, bytesVal]
  | append_singleton b x ih =>
    have hx : x < 256 := by
      have := hb x (by simp)
      exact this
    have hb' : ∀ y ∈ b, y < 256 := fun y hy => hb y (by simp [hy])
    rw [List.length_append, List.length_singleton, bytesVal_append_singleton,
      int64ToBytesAux]
    have hdiv : ((bytesVal b * 256 + x : Nat) : Int) / 256 = (bytesVal b : Int) := by
      push_cast
      rw [add_comm, Int.add_mul_ediv_right _ _ (by norm_num : (256 : Int) ≠ 0)]
      rw [Int.ediv_eq_zero_of_lt (by positivity) (by exact_mod_cast hx)]
      ring
    have hmod : ((bytesVal b * 256 + x : Nat) : Int) % 256 = (x : Int) := by
      push_cast
      rw [add_comm, Int.add_mul_emod_self]
      exact Int.emod_eq_of_lt (by positivity) (by exact_mod_cast hx)
    rw [hdiv, hmod, ih hb']
    simp

/-- Values of 8-byte strings are below `2 ^ 64`. -/
theorem bytesVal_lt (b : List Nat) (hb : ∀ x ∈ b, x < 256) :
    bytesVal b < 256 ^ b.length := by
  induction b using List.reverseRecOn with
  | nil => simp [bytesVal]
  | append_singleton b x ih =>
    have hx : x < 256 := hb x (by simp)
    have hb' : ∀ y ∈ b, y < 256 := fun y hy => hb y (by simp [hy])
    have := ih hb'
    rw [bytesVal_append_singleton, List.length_append, List.length_singleton,
      pow_succ]
    nlinarith

theorem toSigned64_bytesVal_int64ToBytes (n : Int) :
    bytesToInt64 (int64ToBytes n) = toSigned64 (n % (2 : Int) ^ 64).toNat := by
  have hlen : (int64ToBytes n).length = 8 := length_int64ToBytes n
  rw [bytesToInt64, if_neg (by rw [hlen]; trivial)]
  have h := bytesVal_int64ToBytesAux 8 n
  have h2 : ((256 : Int) ^ 8) = (2 : Int) ^ 64 := by norm_num
  rw [h2] at h
  have h3 : (bytesVal (int64ToBytes n) : Int) = n % (2 : Int) ^ 64 := h
  have h4 : bytesVal (int64ToBytes n) = (n % (2 : Int) ^ 64).toNat := by
    omega
  show toSigned64 ((int64ToBytes n).foldl (fun n x => n * 256 + x) 0) = _
  rw [show (int64ToBytes n).foldl (fun n x => n * 256 + x) 0 = bytesVal (int64ToBytes n) from rfl, h4]

/-- Round trip: decoding the encoding of an int64 recovers it, including
negative values. -/
theorem bytesToInt64_int64ToBytes (n : Int) (h1 : -2 ^ 63 ≤ n) (h2 : n < 2 ^ 63) :
    bytesToInt64 (int64ToBytes n) = n := by
  rw [toSigned64_bytesVal_int64ToBytes]
  rcases le_or_lt 0 n with hn | hn
  · have hmod : n % (2 : Int) ^ 64 = n := Int.emod_eq_of_lt hn (by omega)
    rw [hmod, toSigned64, if_pos]
    · omega
    · omega
  · have hmod : n % (2 : Int) ^ 64 = n + 2 ^ 64 := by
      have : (n + 2 ^ 64) % (2 : Int) ^ 64 = n % (2 : Int) ^ 64 := by
        omega
      rw [← this]
      exact Int.emod_eq_of_lt (by omega) (by omega)
    rw [hmod, toSigned64, if_neg]
    · omega
    · omega

/-- The encoder only depends on the input modulo `256^t`. -/
theorem int64ToBytesAux_congr (t : Nat) (m m' : Int)
    (h : m % (256 : Int) ^ t = m' % (256 : Int) ^ t) :
    int64ToBytesAux t m = int64ToBytesAux t m' := by
  induction t generalizing m m' with
  | zero => rfl
  | succ t ih =>
    have e := emod_pow_succ m t
    have e' := emod_pow_succ m' t
    have h256 : (0 : Int) < 256 := by norm_num
    have hpow : (0 : Int) < (256 : Int) ^ t := by positivity
    have hm1 : 0 ≤ m % 256 := emod_nonneg_of_pos _ h256
    have hm2 : m % 256 < 256 := Int.emod_lt_of_pos _ h256
    have hm1' : 0 ≤ m' % 256 := emod_nonneg_of_pos _ h256
    have hm2' : m' % 256 < 256 := Int.emod_lt_of_pos _ h256
    have heq : (m / 256 % (256 : Int) ^ t) * 256 + m % 256 =
        (m' / 256 % (256 : Int) ^ t) * 256 + m' % 256 := by
      rw [← e, ← e', h]
    have hbyte : m % 256 = m' % 256 := by omega
    have hrest : m / 256 % (256 : Int) ^ t = m' / 256 % (256 : Int) ^ t := by omega
    rw [int64ToBytesAux, int64ToBytesAux, ih _ _ hrest, hbyte]

/-- Round trip in the other direction: encoding the decoding of an 8-byte
string recovers the bytes. -/
theorem int64ToBytes_bytesToInt64 (b : List Nat) (hlen : b.length = 8)
    (hb : ∀ x ∈ b, x < 256) : int64ToBytes (bytesToInt64 b) = b := by
  have hval : bytesVal b < 2 ^ 64 := by
    have := bytesVal_lt b hb
    rw [hlen] at this
    norm_num at this
    omega
  rw [bytesToInt64, if_neg (by rw [hlen]; trivial)]
  show int64ToBytes (toSigned64 (bytesVal b)) = b
  have hcong : int64ToBytesAux 8 (toSigned64 (bytesVal b)) =
      int64ToBytesAux 8 ((bytesVal b : Int)) := by
    apply int64ToBytesAux_congr
    have h2 : ((256 : Int) ^ 8) = (2 : Int) ^ 64 := by norm_num
    rw [h2, toSigned64]
    split
    · rfl
    · omega
  rw [int64ToBytes, hcong]
  have := int64ToBytesAux_of_bytesVal b hb
  rw [hlen] at this
  exact this

/-- Claim C10: for every int64 value `n`, `int64ToBytes n` has length exactly
8 and `bytesToInt64 (int64ToBytes n) = n`; conversely on 8-byte strings
`int64ToBytes (bytesToInt64 b) = b`, so counter storage is lossless,
including for negative `n`. -/
theorem c10_int64_bytes_roundtrip (n : Int) (b : List Nat)
    (hn1 : -2 ^ 63 ≤ n) (hn2 : n < 2 ^ 63)
    (hlen : b.length = 8) (hb : ∀ x ∈ b, x < 256) :
    (int64ToBytes n).length = 8 ∧
    bytesToInt64 (int64ToBytes n) = n ∧
    int64ToBytes (bytesToInt64 b) = b :=
  ⟨length_int64ToBytes n, bytesToInt64_int64ToBytes n hn1 hn2,
    int64ToBytes_bytesToInt64 b hlen hb⟩

/-- Witness for C10 at `n = -5` and `b` the encoding of 300. -/
theorem c10_witness :
    (int64ToBytes (-5)).length = 8 ∧
    bytesToInt64 (int64ToBytes (-5)) = -5 ∧
    int64ToBytes (bytesToInt64 [0, 0, 0, 0, 0, 0, 1, 44]) = [0, 0, 0, 0, 0, 0, 1, 44] :=
  c10_int64_bytes_roundtrip (-5) [0, 0, 0, 0, 0, 0, 1, 44]
    (by norm_num) (by norm_num) (by rfl) (by decide)

/-! ## Glob matcher (`matchPattern`, internal/protocol/redis.go:491)

Pattern and key are Go strings indexed byte by byte; `42` is `*` and `63` is
`?`.  The Go function first returns true when the whole pattern is `"*"`,
then scans with indices `i`, `j` while both remain in range: at `*` not in
last position it recursively tries `matchPattern(pattern[i+1:], key[j:])` for
every `j` up to `len(key)-1` (the nonempty suffixes); at `?` or an equal byte
it advances both; otherwise it returns false.  After the loop it skips
trailing `*`s and requires both strings exhausted.  The loop advancing
`(i, j)` is rendered as recursion on the suffix pair; continuing the loop
through `matchPattern` (instead of a bare loop body) is behaviour-preserving
because on a suffix pair whose pattern is exactly `"*"` the fast path returns
`true`, exactly what the loop computes there. -/

/-- Fuelled body of matchPattern.  Every recursive call of the Go function
has a strictly shorter pattern, so fuel `pattern.length + 1` is exact at
every call and the out-of-fuel branch is unreachable; the fuel makes the
recursion structural (and hence evaluable).  The inner `for j < len(key)`
loop of the `*` case tries the rest of the pattern against `key[j:]` for
every `j < len(key)`; those are exactly the nonempty suffixes of the key, in
order, rendered by `tails.dropLast`. -/
def matchPatternF : Nat → List Nat → List Nat → Bool
  | 0, _, _ => false
  | fuel + 1, p, k =>
    if p = [42] then true
    else
      match p, k with
      | a :: p', b :: k' =>
        if a = 42 then
          if p' = [] then true
          else ((b :: k').tails.dropLast).any (fun s => matchPatternF fuel p' s)
        else if a = 63 || a = b then matchPatternF fuel p' k'
        else false
      | p, k => (p.dropWhile (· == 42)).isEmpty && k.isEmpty

/-- matchPattern of redis.go. -/
def matchPattern (p k : List Nat) : Bool := matchPatternF (p.length + 1) p k

/-- Specification-side glob semantics, following the spec's words: `*`
matches any (possibly empty) run of characters, `?` matches exactly one
character, and any other pattern byte matches only the identical key byte;
the pattern must cover the whole key. -/
inductive GlobMatches : List Nat → List Nat → Prop
  | mnil : GlobMatches [] []
  | mqmark (a : Nat) (p k : List Nat) : GlobMatches p k →
      GlobMatches (63 :: p) (a :: k)
  | mlit (a : Nat) (p k : List Nat) : a ≠ 42 → a ≠ 63 → GlobMatches p k →
      GlobMatches (a :: p) (a :: k)
  | mstar (p u v : List Nat) : GlobMatches p v → GlobMatches (42 :: p) (u ++ v)

/-- Executable rendering of the glob semantics, the bridge between
`matchPattern` and `GlobMatches`. -/
def globMatch : List Nat → List Nat → Bool
  | [], [] => true
  | [], _ :: _ => false
  | a :: p, [] => a == 42 && globMatch p []
  | a :: p, b :: k =>
    if a = 42 then globMatch p (b :: k) || globMatch (42 :: p) k
    else (a == 63 || a == b) && globMatch p k
termination_by p k => (p.length, k.length)

theorem globMatch_nil_right (p : List Nat) : globMatch p [] = p.all (· == 42) := by
  induction p with
  | nil => simp [globMatch]
  | cons a p ih => simp [globMatch, ih]

theorem globMatch_allStars (p : List Nat) (hp : p ≠ []) (hall : ∀ x ∈ p, x = 42) :
    ∀ k, globMatch p k = true := by
  induction p with
  | nil => exact absurd rfl hp
  | cons a p ih =>
    have ha : a = 42 := hall a (by simp)
    subst ha
    intro k
    induction k with
    | nil =>
      rw [globMatch_nil_right]
      simp only [List.all_eq_true, beq_iff_eq]
      exact hall
    | cons b k' ihk =>
      rcases eq_or_ne p [] with hp' | hp'
      · subst hp'
        simp [globMatch, ihk]
      · have : globMatch p (b :: k') = true :=
          ih hp' (fun x hx => hall x (by simp [hx])) (b :: k')
        simp [globMatch, this]

theorem tailsDropLast_cons (b : Nat) (k' : List Nat) :
    ((b :: k').tails.dropLast) = (b :: k') :: (k'.tails.dropLast) := by
  rw [List.tails_cons]
  cases h : k'.tails with
  | nil =>
    exfalso
    cases k' with
    | nil => exact absurd h (by rw [show ([] : List Nat).tails = [[]] from rfl]; simp)
    | cons a l => rw [List.tails_cons] at h; exact absurd h (by simp)
  | cons t ts => simp [List.dropLast]

theorem anyNonemptySuffix_iff (f : List Nat → Bool) (l : List Nat) :
    ((l.tails.dropLast).any f = true) ↔ ∃ j, j < l.length ∧ f (l.drop j) = true := by
  induction l with
  | nil =>
    rw [show ([] : List Nat).tails = [[]] from rfl]
    simp
  | cons b k' ih =>
    rw [tailsDropLast_cons]
    simp only [List.any_cons, Bool.or_eq_true, ih]
    constructor
    · rintro (h | ⟨j, hj, hf⟩)
      · exact ⟨0, by simp, h⟩
      · exact ⟨j + 1, by simpa using hj, by simpa using hf⟩
    · rintro ⟨j, hj, hf⟩
      cases j with
      | zero => exact Or.inl (by simpa using hf)
      | succ j => exact Or.inr ⟨j, by simpa using hj, by simpa using hf⟩

theorem glob_star_iff (k p : List Nat) :
    globMatch (42 :: p) k = true ↔ ∃ j, j ≤ k.length ∧ globMatch p (k.drop j) = true := by
  induction k with
  | nil =>
    simp only [globMatch]
    constructor
    · intro h
      exact ⟨0, by simp, by simpa using h⟩
    · rintro ⟨j, hj, hf⟩
      have hj0 : j = 0 := by simpa using hj
      subst hj0
      simpa using hf
  | cons b k' ih =>
    have hstep : globMatch (42 :: p) (b :: k') =
        (globMatch p (b :: k') || globMatch (42 :: p) k') := by
      simp [globMatch]
    rw [hstep]
    simp only [Bool.or_eq_true, ih]
    constructor
    · rintro (h | ⟨j, hj, hf⟩)
      · exact ⟨0, by simp, by simpa using h⟩
      · exact ⟨j + 1, by simpa using hj, by simpa using hf⟩
    · rintro ⟨j, hj, hf⟩
      cases j with
      | zero => exact Or.inl (by simpa using hf)
      | succ j => exact Or.inr ⟨j, by simpa using hj, by simpa using hf⟩

theorem bool_eq_of_iff {a b : Bool} (h : a = true ↔ b = true) : a = b := by
  cases a <;> cases b <;> simp_all

theorem matchPatternF_eq_globMatch (fuel : Nat) :
    ∀ p k, p.length < fuel → matchPatternF fuel p k = globMatch p k := by
  induction fuel with
  | zero => intro p k h; omega
  | succ fuel ih =>
    intro p k hlen
    cases p with
    | nil =>
      cases k with
      | nil => simp [matchPatternF, globMatch]
      | cons b k' => simp [matchPatternF, globMatch]
    | cons a p' =>
      by_cases hp : a :: p' = [42]
      · rw [show matchPatternF (fuel + 1) (a :: p') k = true by simp [matchPatternF, hp]]
        rw [hp]
        exact (globMatch_allStars [42] (by simp) (by simp) k).symm
      · cases k with
        | nil =>
          rw [show matchPatternF (fuel + 1) (a :: p') [] =
              (((a :: p').dropWhile (· == 42)).isEmpty && true) by
            simp [matchPatternF, hp]]
          rw [globMatch_nil_right]
          apply bool_eq_of_iff
          rw [Bool.and_eq_true]
          simp only [List.isEmpty_iff, List.dropWhile_eq_nil_iff, List.all_eq_true]
          simp
        | cons b k' =>
          by_cases ha : a = 42
          · subst ha
            have hp' : p' ≠ [] := fun h => hp (by rw [h])
            rw [show matchPatternF (fuel + 1) (42 :: p') (b :: k') =
                ((b :: k').tails.dropLast).any (fun s => matchPatternF fuel p' s) by
              simp [matchPatternF, hp, hp']]
            apply bool_eq_of_iff
            rw [anyNonemptySuffix_iff, glob_star_iff]
            have ihp' : ∀ s, matchPatternF fuel p' s = globMatch p' s := by
              intro s
              apply ih
              simp at hlen
              omega
            constructor
            · rintro ⟨j, hj, hf⟩
              exact ⟨j, by omega, by rw [← ihp']; exact hf⟩
            · rintro ⟨j, hj, hf⟩
              rcases lt_or_eq_of_le hj with hj' | hj'
              · exact ⟨j, hj', by rw [ihp']; exact hf⟩
              · subst hj'
                rw [List.drop_length] at hf
                have hall : ∀ x ∈ p', x = 42 := by
                  rw [globMatch_nil_right] at hf
                  simpa using hf
                refine ⟨0, by simp, ?_⟩
                rw [ihp']
                simpa using globMatch_allStars p' hp' hall (b :: k')
          · have hstep : matchPatternF (fuel + 1) (a :: p') (b :: k') =
                if a = 63 ∨ a = b then matchPatternF fuel p' k' else false := by
              simp [matchPatternF, hp, ha]
            have hglob : globMatch (a :: p') (b :: k') =
                if a = 63 ∨ a = b then globMatch p' k' else false := by
              rw [globMatch]
              rw [if_neg ha]
              split <;> rename_i hcond
              · have : (a == 63 || a == b) = true := by
                  rcases hcond with h | h <;> simp [h]
                rw [this, Bool.true_and]
              · have : (a == 63 || a == b) = false := by
                  push_neg at hcond
                  simp [hcond.1, hcond.2]
                rw [this, Bool.false_and]
            rw [hstep, hglob]
            split
            · apply ih
              simp at hlen
              omega
            · rfl

/-- matchPattern agrees with the executable glob semantics. -/
theorem matchPattern_eq_globMatch (p k : List Nat) : matchPattern p k = globMatch p k :=
  matchPatternF_eq_globMatch (p.length + 1) p k (Nat.lt_succ_self _)

theorem globMatch_of_GlobMatches {p k : List Nat} (h : GlobMatches p k) :
    globMatch p k = true := by
  induction h with
  | mnil => simp [globMatch]
  | mqmark a p k _ ih => simp [globMatch, ih]
  | mlit a p k ha hq _ ih => simp [globMatch, ha, hq, ih]
  | mstar p u v _ ih =>
    induction u with
    | nil =>
      cases v with
      | nil => simpa [globMatch] using ih
      | cons b v' => simp [globMatch, ih]
    | cons c u' ihu => simp [globMatch, ihu]

theorem GlobMatches_of_globMatch :
    ∀ p k, globMatch p k = true → GlobMatches p k := by
  intro p
  induction p with
  | nil =>
    intro k h
    cases k with
    | nil => exact GlobMatches.mnil
    | cons b k' => simp [globMatch] at h
  | cons a p' ih =>
    intro k
    by_cases ha : a = 42
    · subst ha
      induction k with
      | nil =>
        intro h
        rw [globMatch_nil_right] at h
        simp at h
        have := GlobMatches.mstar p' [] [] (by
          have h0 : globMatch p' [] = true := by
            rw [globMatch_nil_right]
            simpa using h
          exact ih [] h0)
        simpa using this
      | cons b k' ihk =>
        intro h
        rw [show globMatch (42 :: p') (b :: k') =
            (globMatch p' (b :: k') || globMatch (42 :: p') k') by simp [globMatch]] at h
        rcases Bool.or_eq_true _ _ |>.mp h with h1 | h2
        · have := GlobMatches.mstar p' [] (b :: k') (ih _ h1)
          simpa using this
        · have hmk := ihk h2
          cases hmk
          next hc hq hm => exact absurd rfl hc
          next u v hv =>
            have := GlobMatches.mstar p' (b :: u) v hv
            simpa using this
    · intro h
      cases k with
      | nil =>
        rw [globMatch_nil_right] at h
        simp [ha] at h
      | cons b k' =>
        rw [show globMatch (a :: p') (b :: k') =
            ((a == 63 || a == b) && globMatch p' k') by simp [globMatch, ha]] at h
        rw [Bool.and_eq_true, Bool.or_eq_true] at h
        obtain ⟨hab, hrest⟩ := h
        by_cases hq : a = 63
        · subst hq
          exact GlobMatches.mqmark b p' k' (ih _ hrest)
        · have hab' : a = b := by
            rcases hab with h1 | h1
            · exact absurd (by simpa using h1) hq
            · simpa using h1
          subst hab'
          exact GlobMatches.mlit a p' k' ha hq (ih _ hrest)

/-- Claim C9: for every pattern and key, `matchPattern` returns true exactly
when the pattern matches the whole key under the glob semantics (`*` any
possibly-empty run, `?` exactly one character, any other byte only itself);
in particular over the keys {a, ab, abc}, pattern `a*` matches all three and
pattern `a?` matches only `ab` (bytes: a=97, b=98, c=99, *=42, ?=63). -/
theorem c9_matchPattern :
    (∀ p k : List Nat, matchPattern p k = true ↔ GlobMatches p k) ∧
    matchPattern [97, 42] [97] = true ∧
    matchPattern [97, 42] [97, 98] = true ∧
    matchPattern [97, 42] [97, 98, 99] = true ∧
    matchPattern [97, 63] [97] = false ∧
    matchPattern [97, 63] [97, 98] = true ∧
    matchPattern [97, 63] [97, 98, 99] = false := by
  refine ⟨fun p k => ?_, by decide, by decide, by decide, by decide, by decide, by decide⟩
  rw [matchPattern_eq_globMatch]
  exact ⟨fun h => GlobMatches_of_globMatch p k h, fun h => globMatch_of_GlobMatches h⟩

/-! ## Data model (types.go)

Key hashing (`hashKey`, xxhash64 of the key bytes) is an external library
function; all definitions below take it as a parameter `hashKey : Key → Nat`.
The algorithms use hashes only through equality and reduction modulo a
power of two, so the theorems hold for every hash function, xxhash64
included. -/

/-- The Entry of types.go: key, value, expire timestamp (ns; 0 = none),
flags, cas counter, and the evicted bit (`IsEvicted`/`SetEvicted`, present in
the operations-file version with the eviction guard; the other version never
touches it).  The unused `metadata unsafe.Pointer` field is omitted. -/
structure Entry where
  key : Key
  value : Key
  expireAt : Int
  flags : Nat
  cas : Nat
  evicted : Bool
deriving DecidableEq

/-- Entry.Size of types.go: `int64(len(e.key) + len(e.value) + 24)`. -/
def Entry.Size (e : Entry) : Int := (e.key.length : Int) + (e.value.length : Int) + 24

/-- Entry.IsExpired of types.go: `expireAt > 0 && expireAt < time.Now()`;
the current time is passed explicitly as `now`. -/
def Entry.IsExpired (e : Entry) (now : Int) : Bool := e.expireAt > 0 && e.expireAt < now

/-- Entry.IncrementCAS of types.go: uint64 increment (wraps at `2 ^ 64`). -/
def Entry.IncrementCAS (e : Entry) : Entry := { e with cas := (e.cas + 1) % 2 ^ 64 }

/-- An occupied Bucket of types.go: entry pointer, cached 64-bit hash, probe
distance.  A Go Bucket whose entry pointer is nil is `none` here; its
hash/distance fields are never read by the operations.  The distance field
is a `uint16` in Go: the field itself is carried as a `Nat` holding the
uint16's value, and the `W`-suffixed operations below perform every
distance increment modulo `2 ^ 16` exactly as Go does.  The unsuffixed
operations use unbounded increments; they are proved equal to the `W`
operations on every table of capacity at most `2 ^ 15` (within which no
probe chain reaches length `2 ^ 16`), and on larger tables the wrap is
real and observable (see the C1 counterexample). -/
structure BucketE where
  entry : Entry
  hash : Nat
  distance : Nat
deriving DecidableEq

/-- A bucket slot (`entry == nil` is `none`). -/
abbrev Bucket := Option BucketE

/-- The Map of types.go: bucket array, live count, mask, grow/shrink
thresholds. -/
structure Map where
  buckets : List Bucket
  numItems : Nat
  mask : Nat
  growAt : Nat
  shrinkAt : Nat
deriving DecidableEq

/-- Doubling loop of NewMap (`for size < initialSize { size *= 2 }`),
fuelled to keep it structural; fuel `initialSize + 1` is more than the
number of doublings from 16. -/
def newMapSizeLoop : Nat → Nat → Nat → Nat
  | 0, size, _ => size
  | fuel + 1, size, initial =>
    if size < initial then newMapSizeLoop fuel (size * 2) initial else size

/-- NewMap of types.go.  `int(float64(size) * 0.75)` equals `size * 3 / 4`
exactly and `int(float64(size) * 0.10)` equals `size / 10` exactly for every
power-of-two size the map can reach (the float products are exact,
respectively off by less than the distance to the next integer). -/
def NewMap (initialSize : Nat) : Map :=
  let size := newMapSizeLoop (initialSize + 1) 16 initialSize
  { buckets := List.replicate size none
    numItems := 0
    mask := size - 1
    growAt := size * 3 / 4
    shrinkAt := size / 10 }

/-- Read `m.buckets[idx]`. -/
def Map.bucketAt (m : Map) (i : Nat) : Bucket := m.buckets.getD i none

/-- Go `hash & m.mask`: the invariants keep `mask = capacity - 1` with the
capacity a power of two, so the bitwise AND is reduction modulo the
capacity, which is how it is modelled. -/
def Map.maskIdx (m : Map) (h : Nat) : Nat := h % m.buckets.length

/-! ## Map operations (the Robin-Hood hash file)

The Go loops walk the bucket array until a stopping condition; each is
rendered with explicit fuel (one unit per iteration) to keep the recursion
structural, with fuel `capacity`.  The invariant section below proves each
loop stops within `capacity` iterations — there the fuel-exhausted branch
(which returns the state unchanged) is unreachable.  `(idx + 1) & m.mask` is
modelled as `(idx + 1) % capacity`.

The probe distances these unsuffixed operations carry are unbounded `Nat`s,
abstracting Go's wrapping `uint16` arithmetic; the `W`-suffixed operations
further down perform the exact modulo-`2 ^ 16` arithmetic and are proved
equal to these on every table of capacity at most `2 ^ 15`. -/

/-- Loop of Map.insertInternal: walk from the home bucket carrying
`(entry, hash, distance)`; place the carried triple at the first empty
bucket; swap with any resident whose distance is strictly smaller than the
carried distance (Robin Hood), continuing with the displaced resident. -/
def insertLoop : Nat → List Bucket → Entry → Nat → Nat → Nat → List Bucket
  | 0, bs, _, _, _, _ => bs
  | fuel + 1, bs, entry, hash, distance, idx =>
    match bs.getD idx none with
    | none => bs.set idx (some ⟨entry, hash, distance⟩)
    | some b =>
      if b.distance < distance then
        insertLoop fuel (bs.set idx (some ⟨entry, hash, distance⟩))
          b.entry b.hash (b.distance + 1) ((idx + 1) % bs.length)
      else
        insertLoop fuel bs entry hash (distance + 1) ((idx + 1) % bs.length)

/-- Map.insertInternal: run the placement walk from the home bucket and
count the new item.  (In Go `numItems++` happens at placement inside the
loop; the loop always places, as proved below, so counting here is the
same.) -/
def Map.insertInternal (m : Map) (entry : Entry) (hash : Nat) : Map :=
  { m with
    buckets := insertLoop m.buckets.length m.buckets entry hash 0 (m.maskIdx hash)
    numItems := m.numItems + 1 }

/-- Loop of Map.lookup: return a miss at an empty bucket or when the
resident's distance drops below the searcher's; a hit needs an equal cached
hash and byte-equal key (Go compares the length and then the bytes; list
equality is the same). -/
def lookupLoop (hash : Nat) (key : Key) : Nat → List Bucket → Nat → Nat → Option (Entry × Nat)
  | 0, _, _, _ => none
  | fuel + 1, bs, idx, distance =>
    match bs.getD idx none with
    | none => none
    | some b =>
      if b.distance < distance then none
      else if b.hash = hash ∧ b.entry.key = key then some (b.entry, idx)
      else lookupLoop hash key fuel bs ((idx + 1) % bs.length) (distance + 1)

/-- Map.lookup: walk from the home bucket of `hash`. -/
def Map.lookup (m : Map) (key : Key) (hash : Nat) : Option (Entry × Nat) :=
  lookupLoop hash key m.buckets.length m.buckets (m.maskIdx hash) 0

/-- Backward-shift loop of Map.delete: while the next bucket is occupied
with distance > 0, move it one slot back decrementing its distance; the
hole advances. -/
def shiftLoop : Nat → List Bucket → Nat → List Bucket
  | 0, bs, _ => bs
  | fuel + 1, bs, idx =>
    let nextIdx := (idx + 1) % bs.length
    match bs.getD nextIdx none with
    | none => bs
    | some b =>
      if b.distance > 0 then
        shiftLoop fuel ((bs.set idx (some { b with distance := b.distance - 1 })).set nextIdx none) nextIdx
      else bs

/-- Map.resize: fresh bucket array of the requested size, thresholds
recomputed, every live entry reinserted with its cached hash. -/
def Map.resize (m : Map) (newSize : Nat) : Map :=
  let init : Map :=
    { buckets := List.replicate newSize none
      numItems := 0
      mask := newSize - 1
      growAt := newSize * 3 / 4
      shrinkAt := newSize / 10 }
  m.buckets.foldl
    (fun acc b =>
      match b with
      | none => acc
      | some be => acc.insertInternal be.entry be.hash)
    init

/-- Map.delete: lookup; on a hit clear the bucket, decrement the count,
backward-shift, and halve the capacity when `numItems < shrinkAt` and the
capacity exceeds 16.  Returns the removed entry. -/
def Map.delete (m : Map) (key : Key) (hash : Nat) : Map × Option Entry :=
  match m.lookup key hash with
  | none => (m, none)
  | some (entry, idx) =>
    let bs := m.buckets.set idx none
    let bs' := shiftLoop bs.length bs idx
    let m' : Map := { m with buckets := bs', numItems := m.numItems - 1 }
    let m'' := if m'.numItems < m'.shrinkAt ∧ m'.buckets.length > 16
      then m'.resize (m'.buckets.length / 2) else m'
    (m'', some entry)

/-- Update the entry stored in bucket `idx`, modelling a Go field assignment
through the entry pointer obtained from a lookup. -/
def updateBucketEntry (bs : List Bucket) (idx : Nat) (f : Entry → Entry) : List Bucket :=
  match bs.getD idx none with
  | none => bs
  | some b => bs.set idx (some { b with entry := f b.entry })

/-- Map.insert: when the key exists, update value/expireAt/flags in place,
increment cas, and return the previous entry snapshot (`oldEntry := *existing`
is taken before the mutation); otherwise grow when `numItems >= growAt` and
run insertInternal. -/
def Map.insert (hashKey : Key → Nat) (m : Map) (entry : Entry) : Map × Option Entry :=
  let hash := hashKey entry.key
  match m.lookup entry.key hash with
  | some (existing, idx) =>
    ({ m with
        buckets := updateBucketEntry m.buckets idx (fun ex =>
          Entry.IncrementCAS
            { ex with value := entry.value, expireAt := entry.expireAt, flags := entry.flags }) },
      some existing)
  | none =>
    let m' := if m.numItems ≥ m.growAt then m.resize (m.buckets.length * 2) else m
    (m'.insertInternal entry hash, none)

/-- Map.get: the entry of a lookup with the key's hash. -/
def Map.get (hashKey : Key → Nat) (m : Map) (key : Key) : Option Entry :=
  (m.lookup key (hashKey key)).map (·.1)

/-- Walk of Map.randomEntries: scan the buckets in order while fewer than
`n` entries are collected; every occupied bucket whose running `seen`
counter is divisible by the stride is taken. -/
def randomEntriesLoop (n stride : Nat) : List Bucket → Nat → List Entry → List Entry
  | [], _, acc => acc
  | b :: bs, seen, acc =>
    if acc.length < n then
      match b with
      | none => randomEntriesLoop n stride bs seen acc
      | some be =>
        if seen % stride = 0 then randomEntriesLoop n stride bs (seen + 1) (acc ++ [be.entry])
        else randomEntriesLoop n stride bs (seen + 1) acc
    else acc

/-- Map.randomEntries with stride `numItems/n + 1` (Go `n <= 0` is `n = 0`
for the `Nat`-modelled int argument, which is only ever called with 2). -/
def Map.randomEntries (m : Map) (n : Nat) : List Entry :=
  if n = 0 ∨ m.numItems = 0 then []
  else randomEntriesLoop n (m.numItems / n + 1) m.buckets 0 []

/-! ## Map operations with the exact uint16 distance arithmetic

The probe distance is a `uint16` in Go (`distance uint16` in types.go and in
the locals of insertInternal/lookup), so every `distance++` wraps at
`2 ^ 16`.  The `W`-suffixed operations below render that wrap exactly:
each increment of a carried or searching distance is reduced modulo
`2 ^ 16`.  (The backward shift of delete only ever computes
`distance - 1` under a `distance > 0` test, so it has no wrapping site and
`shiftLoop` above is already exact.)  The agreement theorems further down
prove the `W` operations equal to the unsuffixed ones on every table of
capacity at most `2 ^ 15`, where no probe chain can reach length `2 ^ 16`;
the claims whose truth the wrap can change (C1 and C2) are settled against
the `W` operations. -/

/-- Go uint16 arithmetic: reduction modulo `2 ^ 16`. -/
def wrap16 (n : Nat) : Nat := n % 65536

/-- Loop of Map.insertInternal with the uint16 `distance++`. -/
def insertLoopW : Nat → List Bucket → Entry → Nat → Nat → Nat → List Bucket
  | 0, bs, _, _, _, _ => bs
  | fuel + 1, bs, entry, hash, distance, idx =>
    match bs.getD idx none with
    | none => bs.set idx (some ⟨entry, hash, distance⟩)
    | some b =>
      if b.distance < distance then
        insertLoopW fuel (bs.set idx (some ⟨entry, hash, distance⟩))
          b.entry b.hash (wrap16 (b.distance + 1)) ((idx + 1) % bs.length)
      else
        insertLoopW fuel bs entry hash (wrap16 (distance + 1)) ((idx + 1) % bs.length)

/-- Map.insertInternal over the uint16 walk. -/
def Map.insertInternalW (m : Map) (entry : Entry) (hash : Nat) : Map :=
  { m with
    buckets := insertLoopW m.buckets.length m.buckets entry hash 0 (m.maskIdx hash)
    numItems := m.numItems + 1 }

/-- Loop of Map.lookup with the uint16 `distance++`. -/
def lookupLoopW (hash : Nat) (key : Key) :
    Nat → List Bucket → Nat → Nat → Option (Entry × Nat)
  | 0, _, _, _ => none
  | fuel + 1, bs, idx, distance =>
    match bs.getD idx none with
    | none => none
    | some b =>
      if b.distance < distance then none
      else if b.hash = hash ∧ b.entry.key = key then some (b.entry, idx)
      else lookupLoopW hash key fuel bs ((idx + 1) % bs.length) (wrap16 (distance + 1))

/-- Map.lookup over the uint16 walk. -/
def Map.lookupW (m : Map) (key : Key) (hash : Nat) : Option (Entry × Nat) :=
  lookupLoopW hash key m.buckets.length m.buckets (m.maskIdx hash) 0

/-- The loop body of Map.resize over the uint16 walk. -/
def resizeStepW (a : Map) (b : Bucket) : Map :=
  match b with
  | none => a
  | some be => a.insertInternalW be.entry be.hash

/-- Map.resize over the uint16 walk. -/
def Map.resizeW (m : Map) (newSize : Nat) : Map :=
  List.foldl resizeStepW
    { buckets := List.replicate newSize none
      numItems := 0
      mask := newSize - 1
      growAt := newSize * 3 / 4
      shrinkAt := newSize / 10 } m.buckets

/-- Map.delete over the uint16 walk (the backward shift itself is exact,
see above). -/
def Map.deleteW (m : Map) (key : Key) (hash : Nat) : Map × Option Entry :=
  match m.lookupW key hash with
  | none => (m, none)
  | some (entry, idx) =>
    let bs := m.buckets.set idx none
    let bs' := shiftLoop bs.length bs idx
    let m' : Map := { m with buckets := bs', numItems := m.numItems - 1 }
    let m'' := if m'.numItems < m'.shrinkAt ∧ m'.buckets.length > 16
      then m'.resizeW (m'.buckets.length / 2) else m'
    (m'', some entry)

/-- Map.insert over the uint16 walk. -/
def Map.insertW (hashKey : Key → Nat) (m : Map) (entry : Entry) : Map × Option Entry :=
  let hash := hashKey entry.key
  match m.lookupW entry.key hash with
  | some (existing, idx) =>
    ({ m with
        buckets := updateBucketEntry m.buckets idx (fun ex =>
          Entry.IncrementCAS
            { ex with value := entry.value, expireAt := entry.expireAt, flags := entry.flags }) },
      some existing)
  | none =>
    let m' := if m.numItems ≥ m.growAt then m.resizeW (m.buckets.length * 2) else m
    (m'.insertInternalW entry hash, none)

/-- Map.get over the uint16 walk. -/
def Map.getW (hashKey : Key → Nat) (m : Map) (key : Key) : Option Entry :=
  (m.lookupW key (hashKey key)).map (·.1)

/-! ## Shard and Cache (types.go) -/

/-- The Shard of types.go: one map, memory accounting, the per-shard limit,
and the five operation counters.  Counters are uint64 in Go; they count
operations one at a time, so their wraparound (first reachable after 2^64
operations) is not modelled. -/
structure Shard where
  m : Map
  memUsed : Int
  maxMemory : Int
  numOps : Nat
  numHits : Nat
  numMisses : Nat
  numEvicted : Nat
  numExpired : Nat
deriving DecidableEq

/-- NewShard of types.go. -/
def NewShard (maxMemory : Int) : Shard :=
  { m := NewMap 16, memUsed := 0, maxMemory := maxMemory
    numOps := 0, numHits := 0, numMisses := 0, numEvicted := 0, numExpired := 0 }

/-- The Cache of types.go. -/
structure Cache where
  shards : List Shard
  numShards : Nat
  maxMemory : Int
deriving DecidableEq

/-- New of types.go: `numShards <= 0` falls back to 16, and the memory limit
is split evenly (`maxMemory / int64(numShards)`; Go division truncates toward
zero, which agrees with the Euclidean division used here on the nonnegative
limits the server passes in). -/
def Cache.New (numShards : Nat) (maxMemory : Int) : Cache :=
  let n := if numShards = 0 then 16 else numShards
  let shardMax := maxMemory / (n : Int)
  { shards := List.replicate n (NewShard shardMax), numShards := n, maxMemory := maxMemory }

/-- Index of the shard for a key (`getShard`: `hashKey(key) % numShards`). -/
def Cache.getShardIdx (hashKey : Key → Nat) (c : Cache) (key : Key) : Nat :=
  hashKey key % c.numShards

/-- Read shard `i` (in range for every reachable cache). -/
def Cache.shardAt (c : Cache) (i : Nat) : Shard := c.shards.getD i (NewShard 0)

/-- Write shard `i`. -/
def Cache.setShard (c : Cache) (i : Nat) (sh : Shard) : Cache :=
  { c with shards := c.shards.set i sh }

/-! ## Cache operations

Embedded from the operations-file version with the eviction guard, the
per-entry evicted bit and the expired-first two-random priority (the
version the tests, README and specification describe; see the eviction and
CompareAndSwap definitions for the differences to the other version).
`time.Now().UnixNano()` is the explicit parameter `now`; `rand.Intn(2)`
draws are the explicit `coins` list (head = next draw, `true` meaning the
draw was 0, picking the first sample). -/

/-- The StoreOptions of the operations file. -/
structure StoreOptions where
  ttl : Int
  flags : Nat
  cas : Nat
deriving DecidableEq

/-- The expireAt computed from options: `now + TTL` when `TTL > 0`, else 0. -/
def optExpireAt (opts : Option StoreOptions) (now : Int) : Int :=
  match opts with
  | some o => if o.ttl > 0 then now + o.ttl else 0
  | none => 0

/-- The flags taken from options (zero value without options). -/
def optFlags (opts : Option StoreOptions) : Nat :=
  match opts with
  | some o => o.flags
  | none => 0

/-- The initial cas taken from options by Store (zero value without
options). -/
def optCas (opts : Option StoreOptions) : Nat :=
  match opts with
  | some o => o.cas
  | none => 0

/-- Victim choice of evictIfNeeded on a two-entry sample, in the version
with the expired-first priority: an expired entry over a live one; of two
expired the earlier `expireAt`; of two live ones both with a TTL the earlier
`expireAt`; otherwise the coin (`rand.Intn(2) == 0` picks the first). -/
def chooseVictim (e0 e1 : Entry) (now : Int) (coin : Bool) : Entry :=
  if e0.IsExpired now && !(e1.IsExpired now) then e0
  else if !(e0.IsExpired now) && e1.IsExpired now then e1
  else if e0.IsExpired now && e1.IsExpired now then
    if e0.expireAt < e1.expireAt then e0 else e1
  else if e0.expireAt > 0 && e1.expireAt > 0 then
    if e0.expireAt < e1.expireAt then e0 else e1
  else if coin then e0 else e1

/-- The `toEvict.SetEvicted(true)` write through the sampled entry pointer,
rendered as updating the bucket found by looking the victim's key up (keys
are unique, so this is the bucket the pointer refers into). -/
def Map.setEvicted (hashKey : Key → Nat) (m : Map) (key : Key) : Map :=
  match m.lookup key (hashKey key) with
  | none => m
  | some (_, idx) =>
    { m with buckets := updateBucketEntry m.buckets idx (fun e => { e with evicted := true }) }

/-- One round of the eviction loop: sample two entries, choose the victim,
mark it evicted, subtract its size, count it.  Fuel bounds the rounds; every
round lowers `memUsed` by at least 24, so the fuel chosen in `evictIfNeeded`
is never exhausted. -/
def evictLoop (hashKey : Key → Nat) : Nat → Shard → Int → Int → List Bool → Shard
  | 0, sh, _, _, _ => sh
  | fuel + 1, sh, requiredSpace, now, coins =>
    if sh.memUsed + requiredSpace > sh.maxMemory ∧ sh.m.numItems > 0 then
      match sh.m.randomEntries 2 with
      | [] => sh
      | [e] =>
        evictLoop hashKey fuel
          { sh with m := sh.m.setEvicted hashKey e.key, memUsed := sh.memUsed - e.Size
                    numEvicted := sh.numEvicted + 1 }
          requiredSpace now coins
      | e0 :: e1 :: _ =>
        let v := chooseVictim e0 e1 now (coins.headD true)
        evictLoop hashKey fuel
          { sh with m := sh.m.setEvicted hashKey v.key, memUsed := sh.memUsed - v.Size
                    numEvicted := sh.numEvicted + 1 }
          requiredSpace now coins.tail
    else sh

/-- evictIfNeeded of the guarded version: a no-op whenever
`maxMemory <= 0`; otherwise the two-random loop while
`memUsed + requiredSpace > maxMemory` and the shard is non-empty.
(The other version of the operations file lacks the guard and deletes the
victim instead of marking it.) -/
def Cache.evictIfNeeded (hashKey : Key → Nat) (sh : Shard) (requiredSpace now : Int)
    (coins : List Bool) : Shard :=
  if sh.maxMemory ≤ 0 then sh
  else evictLoop hashKey ((sh.memUsed + requiredSpace - sh.maxMemory).toNat + 1)
    sh requiredSpace now coins

/-- Store of the operations file: build the entry from key/value/options,
count the op, evict if needed, insert, adjust `memUsed` by the entry size
minus a replaced entry's size. -/
def Cache.Store (hashKey : Key → Nat) (c : Cache) (key value : Key)
    (opts : Option StoreOptions) (now : Int) (coins : List Bool) : Cache :=
  let i := c.getShardIdx hashKey key
  let sh := c.shardAt i
  let entry : Entry :=
    { key := key, value := value, expireAt := optExpireAt opts now
      flags := optFlags opts, cas := optCas opts, evicted := false }
  let sh := { sh with numOps := sh.numOps + 1 }
  let sh := Cache.evictIfNeeded hashKey sh entry.Size now coins
  let res := sh.m.insert hashKey entry
  let sh := { sh with m := res.1 }
  let sh := match res.2 with
    | some old => { sh with memUsed := sh.memUsed - old.Size }
    | none => sh
  let sh := { sh with memUsed := sh.memUsed + entry.Size }
  c.setShard i sh

/-- Delete of the operations file. -/
def Cache.Delete (hashKey : Key → Nat) (c : Cache) (key : Key) : Bool × Cache :=
  let i := c.getShardIdx hashKey key
  let sh := c.shardAt i
  let sh := { sh with numOps := sh.numOps + 1 }
  let res := sh.m.delete key (hashKey key)
  match res.2 with
  | none => (false, c.setShard i { sh with m := res.1 })
  | some e => (true, c.setShard i { sh with m := res.1, memUsed := sh.memUsed - e.Size })

/-- Load of the operations file (the version with the evicted check): a map
miss counts a miss; an entry with the evicted bit is deleted (through
`c.Delete`, which counts its own op) and counts a miss; an expired entry is
deleted and counts both an expiry and a miss; otherwise a hit. -/
def Cache.Load (hashKey : Key → Nat) (c : Cache) (key : Key) (now : Int) :
    Option Entry × Cache :=
  let i := c.getShardIdx hashKey key
  let sh := c.shardAt i
  let entry := sh.m.get hashKey key
  let c1 := c.setShard i { sh with numOps := sh.numOps + 1 }
  match entry with
  | none =>
    (none, c1.setShard i { c1.shardAt i with numMisses := (c1.shardAt i).numMisses + 1 })
  | some e =>
    if e.evicted then
      let c2 := (c1.Delete hashKey key).2
      (none, c2.setShard i { c2.shardAt i with numMisses := (c2.shardAt i).numMisses + 1 })
    else if e.IsExpired now then
      let c2 := (c1.Delete hashKey key).2
      let c3 := c2.setShard i { c2.shardAt i with numExpired := (c2.shardAt i).numExpired + 1 }
      (none, c3.setShard i { c3.shardAt i with numMisses := (c3.shardAt i).numMisses + 1 })
    else
      (some e, c1.setShard i { c1.shardAt i with numHits := (c1.shardAt i).numHits + 1 })

/-- CompareAndSwap of the operations file (the version computing the size
delta before the mutation): a missing key or a cas mismatch returns false and
changes nothing but the op counter; otherwise the new expiry/flags are
computed, `sizeDelta = len(value) - len(existing.value)`, eviction runs for
the delta, the entry is updated in place with cas incremented, and `memUsed`
moves by the delta.  (The other version of the operations file subtracts
`existing.Size()` only after overwriting the value, so its delta is always
zero.) -/
def Cache.CompareAndSwap (hashKey : Key → Nat) (c : Cache) (key value : Key)
    (cas : Nat) (opts : Option StoreOptions) (now : Int) (coins : List Bool) :
    Bool × Cache :=
  let i := c.getShardIdx hashKey key
  let sh := c.shardAt i
  let sh := { sh with numOps := sh.numOps + 1 }
  match sh.m.lookup key (hashKey key) with
  | none => (false, c.setShard i sh)
  | some (existing, idx) =>
    if existing.cas ≠ cas then (false, c.setShard i sh)
    else
      let newExpireAt := optExpireAt opts now
      let newFlags := optFlags opts
      let sizeDelta : Int := (value.length : Int) - (existing.value.length : Int)
      let sh := Cache.evictIfNeeded hashKey sh sizeDelta now coins
      let m' : Map := { sh.m with
        buckets := updateBucketEntry sh.m.buckets idx (fun ex =>
          Entry.IncrementCAS { ex with value := value, expireAt := newExpireAt, flags := newFlags }) }
      (true, c.setShard i { sh with m := m', memUsed := sh.memUsed + sizeDelta })

/-- Increment of the operations file: an absent key inserts the 8-byte
big-endian encoding of delta and returns delta; a present key re-encodes
`bytesToInt64(value) + delta` (int64 addition, hence `wrap64`), bumps cas,
and adjusts `memUsed` by the size change. -/
def Cache.Increment (hashKey : Key → Nat) (c : Cache) (key : Key) (delta : Int)
    (now : Int) (coins : List Bool) : Int × Cache :=
  let i := c.getShardIdx hashKey key
  let sh := c.shardAt i
  let sh := { sh with numOps := sh.numOps + 1 }
  match sh.m.lookup key (hashKey key) with
  | none =>
    let val := delta
    let entry : Entry :=
      { key := key, value := int64ToBytes val, expireAt := 0, flags := 0, cas := 0
        evicted := false }
    let sh := Cache.evictIfNeeded hashKey sh entry.Size now coins
    let res := sh.m.insert hashKey entry
    (val, c.setShard i { sh with m := res.1, memUsed := sh.memUsed + entry.Size })
  | some (entry, idx) =>
    let currentVal := bytesToInt64 entry.value
    let newVal := wrap64 (currentVal + delta)
    let oldSize := entry.Size
    let updated := Entry.IncrementCAS { entry with value := int64ToBytes newVal }
    let newSize := updated.Size
    let upd := fun ex => Entry.IncrementCAS { ex with value := int64ToBytes newVal }
    let m' : Map := { sh.m with buckets := updateBucketEntry sh.m.buckets idx upd }
    (newVal, c.setShard i { sh with m := m', memUsed := sh.memUsed + (newSize - oldSize) })

/-- Clear of the operations file: every shard gets a fresh 16-bucket map and
`memUsed = 0`.  (The operation counters are not touched.) -/
def Cache.Clear (c : Cache) : Cache :=
  { c with shards := c.shards.map (fun sh => { sh with m := NewMap 16, memUsed := 0 }) }

/-- Stats field `num_items`: sum of the live counts (`Cache.NumItems`). -/
def Cache.NumItems (c : Cache) : Nat := (c.shards.map (·.m.numItems)).sum

/-- Stats field `mem_used` (`Cache.MemUsed`). -/
def Cache.MemUsed (c : Cache) : Int := (c.shards.map (·.memUsed)).sum

/-- Stats field `num_ops`. -/
def Cache.statsOps (c : Cache) : Nat := (c.shards.map (·.numOps)).sum

/-- Stats field `num_hits`. -/
def Cache.statsHits (c : Cache) : Nat := (c.shards.map (·.numHits)).sum

/-- Stats field `num_misses`. -/
def Cache.statsMisses (c : Cache) : Nat := (c.shards.map (·.numMisses)).sum

/-- Stats field `num_evicted`. -/
def Cache.statsEvicted (c : Cache) : Nat := (c.shards.map (·.numEvicted)).sum

/-- Stats field `num_expired`. -/
def Cache.statsExpired (c : Cache) : Nat := (c.shards.map (·.numExpired)).sum

/-! ## Cache operations over the uint16 walk

The wrapped-distance (`W`) renderings of the cache operations claim C1
ranges over (Store, Load, Delete): identical to the versions above except
that every map access goes through the `W` map operations.  They are proved
equal to the unsuffixed versions while every shard map's capacity stays at
most `2 ^ 15`. -/

/-- `SetEvicted` through a pointer from a `W` lookup. -/
def Map.setEvictedW (hashKey : Key → Nat) (m : Map) (key : Key) : Map :=
  match m.lookupW key (hashKey key) with
  | none => m
  | some (_, idx) =>
    { m with buckets := updateBucketEntry m.buckets idx (fun e => { e with evicted := true }) }

/-- The eviction loop over the uint16 walk. -/
def evictLoopW (hashKey : Key → Nat) : Nat → Shard → Int → Int → List Bool → Shard
  | 0, sh, _, _, _ => sh
  | fuel + 1, sh, requiredSpace, now, coins =>
    if sh.memUsed + requiredSpace > sh.maxMemory ∧ sh.m.numItems > 0 then
      match sh.m.randomEntries 2 with
      | [] => sh
      | [e] =>
        evictLoopW hashKey fuel
          { sh with m := sh.m.setEvictedW hashKey e.key, memUsed := sh.memUsed - e.Size
                    numEvicted := sh.numEvicted + 1 }
          requiredSpace now coins
      | e0 :: e1 :: _ =>
        let v := chooseVictim e0 e1 now (coins.headD true)
        evictLoopW hashKey fuel
          { sh with m := sh.m.setEvictedW hashKey v.key, memUsed := sh.memUsed - v.Size
                    numEvicted := sh.numEvicted + 1 }
          requiredSpace now coins.tail
    else sh

/-- evictIfNeeded over the uint16 walk. -/
def Cache.evictIfNeededW (hashKey : Key → Nat) (sh : Shard) (requiredSpace now : Int)
    (coins : List Bool) : Shard :=
  if sh.maxMemory ≤ 0 then sh
  else evictLoopW hashKey ((sh.memUsed + requiredSpace - sh.maxMemory).toNat + 1)
    sh requiredSpace now coins

/-- Store over the uint16 walk. -/
def Cache.StoreW (hashKey : Key → Nat) (c : Cache) (key value : Key)
    (opts : Option StoreOptions) (now : Int) (coins : List Bool) : Cache :=
  let i := c.getShardIdx hashKey key
  let sh := c.shardAt i
  let entry : Entry :=
    { key := key, value := value, expireAt := optExpireAt opts now
      flags := optFlags opts, cas := optCas opts, evicted := false }
  let sh := { sh with numOps := sh.numOps + 1 }
  let sh := Cache.evictIfNeededW hashKey sh entry.Size now coins
  let res := sh.m.insertW hashKey entry
  let sh := { sh with m := res.1 }
  let sh := match res.2 with
    | some old => { sh with memUsed := sh.memUsed - old.Size }
    | none => sh
  let sh := { sh with memUsed := sh.memUsed + entry.Size }
  c.setShard i sh

/-- Delete over the uint16 walk. -/
def Cache.DeleteW (hashKey : Key → Nat) (c : Cache) (key : Key) : Bool × Cache :=
  let i := c.getShardIdx hashKey key
  let sh := c.shardAt i
  let sh := { sh with numOps := sh.numOps + 1 }
  let res := sh.m.deleteW key (hashKey key)
  match res.2 with
  | none => (false, c.setShard i { sh with m := res.1 })
  | some e => (true, c.setShard i { sh with m := res.1, memUsed := sh.memUsed - e.Size })

/-- Load over the uint16 walk. -/
def Cache.LoadW (hashKey : Key → Nat) (c : Cache) (key : Key) (now : Int) :
    Option Entry × Cache :=
  let i := c.getShardIdx hashKey key
  let sh := c.shardAt i
  let entry := sh.m.getW hashKey key
  let c1 := c.setShard i { sh with numOps := sh.numOps + 1 }
  match entry with
  | none =>
    (none, c1.setShard i { c1.shardAt i with numMisses := (c1.shardAt i).numMisses + 1 })
  | some e =>
    if e.evicted then
      let c2 := (c1.DeleteW hashKey key).2
      (none, c2.setShard i { c2.shardAt i with numMisses := (c2.shardAt i).numMisses + 1 })
    else if e.IsExpired now then
      let c2 := (c1.DeleteW hashKey key).2
      let c3 := c2.setShard i { c2.shardAt i with numExpired := (c2.shardAt i).numExpired + 1 }
      (none, c3.setShard i { c3.shardAt i with numMisses := (c3.shardAt i).numMisses + 1 })
    else
      (some e, c1.setShard i { c1.shardAt i with numHits := (c1.shardAt i).numHits + 1 })

/-! ## Operation sequences -/

/-- One public cache operation with its external inputs (the clock value and
the random draws it may consume). -/
inductive CacheOp where
  | opStore (key value : Key) (opts : Option StoreOptions) (now : Int) (coins : List Bool)
  | opLoad (key : Key) (now : Int)
  | opDelete (key : Key)
  | opIncrement (key : Key) (delta : Int) (now : Int) (coins : List Bool)
  | opCAS (key value : Key) (cas : Nat) (opts : Option StoreOptions) (now : Int) (coins : List Bool)
deriving DecidableEq

/-- Run one operation for its state effect. -/
def Cache.runOp (hashKey : Key → Nat) (c : Cache) : CacheOp → Cache
  | .opStore k v o now coins => c.Store hashKey k v o now coins
  | .opLoad k now => (c.Load hashKey k now).2
  | .opDelete k => (c.Delete hashKey k).2
  | .opIncrement k d now coins => (c.Increment hashKey k d now coins).2
  | .opCAS k v cas o now coins => (c.CompareAndSwap hashKey k v cas o now coins).2

/-- Run a sequence of operations. -/
def Cache.runOps (hashKey : Key → Nat) (c : Cache) (ops : List CacheOp) : Cache :=
  ops.foldl (Cache.runOp hashKey) c

/-- Claim C8: in every eviction round of Store/Increment/CompareAndSwap
(`evictLoop`, reached through `Cache.evictIfNeeded`), a two-entry sample's
victim is `chooseVictim`, which follows the priority rule: exactly one
expired → the expired one; both expired → the earlier `expireAt`; neither
expired but both with TTLs set → the one expiring soonest; otherwise the
random draw decides, and the victim is always one of the two samples. -/
theorem c8_eviction_priority (e0 e1 : Entry) (now : Int) (coin : Bool) :
    (e0.IsExpired now = true ∧ e1.IsExpired now = false →
      chooseVictim e0 e1 now coin = e0) ∧
    (e0.IsExpired now = false ∧ e1.IsExpired now = true →
      chooseVictim e0 e1 now coin = e1) ∧
    (e0.IsExpired now = true ∧ e1.IsExpired now = true ∧ e0.expireAt < e1.expireAt →
      chooseVictim e0 e1 now coin = e0) ∧
    (e0.IsExpired now = true ∧ e1.IsExpired now = true ∧ e1.expireAt < e0.expireAt →
      chooseVictim e0 e1 now coin = e1) ∧
    (e0.IsExpired now = false ∧ e1.IsExpired now = false ∧
      e0.expireAt > 0 ∧ e1.expireAt > 0 ∧ e0.expireAt < e1.expireAt →
      chooseVictim e0 e1 now coin = e0) ∧
    (e0.IsExpired now = false ∧ e1.IsExpired now = false ∧
      e0.expireAt > 0 ∧ e1.expireAt > 0 ∧ e1.expireAt < e0.expireAt →
      chooseVictim e0 e1 now coin = e1) ∧
    (chooseVictim e0 e1 now coin = e0 ∨ chooseVictim e0 e1 now coin = e1) := by
  refine ⟨?_, ?_, ?_, ?_, ?_, ?_, ?_⟩
  · rintro ⟨h0, h1⟩
    simp [chooseVictim, h0, h1]
  · rintro ⟨h0, h1⟩
    simp [chooseVictim, h0, h1]
  · rintro ⟨h0, h1, hlt⟩
    simp [chooseVictim, h0, h1, hlt]
  · rintro ⟨h0, h1, hlt⟩
    have : ¬(e0.expireAt < e1.expireAt) := by omega
    simp [chooseVictim, h0, h1, this]
  · rintro ⟨h0, h1, hp0, hp1, hlt⟩
    simp [chooseVictim, h0, h1, hp0, hp1, hlt]
  · rintro ⟨h0, h1, hp0, hp1, hlt⟩
    have : ¬(e0.expireAt < e1.expireAt) := by omega
    simp [chooseVictim, h0, h1, hp0, hp1, this]
  · unfold chooseVictim
    split_ifs <;> simp

/-! ## Lookup congruence

In-place writes through an entry pointer (CAS, Increment, the insert update
path, eviction marking) change neither keys nor cached hashes nor distances,
so they do not disturb any probe path.  `BucketSim` captures that shape
equality; lookups through similar bucket arrays walk the same path and stop
at the same index. -/

/-- Slotwise similarity: equal occupancy, hash, distance, and stored key. -/
def RelB : Bucket → Bucket → Prop
  | none, none => True
  | some b, some b' => b'.hash = b.hash ∧ b'.distance = b.distance ∧ b'.entry.key = b.entry.key
  | _, _ => False

/-- Similar bucket arrays: same length, slotwise similar. -/
def BucketSim (bs bs' : List Bucket) : Prop :=
  bs'.length = bs.length ∧ ∀ i, RelB (bs.getD i none) (bs'.getD i none)

theorem relB_refl (b : Bucket) : RelB b b := by
  cases b <;> simp [RelB]

theorem bucketSim_refl (bs : List Bucket) : BucketSim bs bs :=
  ⟨rfl, fun _ => relB_refl _⟩

theorem relB_trans {a b c : Bucket} (h1 : RelB a b) (h2 : RelB b c) : RelB a c := by
  cases a <;> cases b <;> cases c <;> simp_all [RelB]

theorem bucketSim_trans {a b c : List Bucket} (h1 : BucketSim a b) (h2 : BucketSim b c) :
    BucketSim a c :=
  ⟨h2.1.trans h1.1, fun i => relB_trans (h1.2 i) (h2.2 i)⟩

theorem length_set_eq {α} (l : List α) (i : Nat) (a : α) : (l.set i a).length = l.length :=
  List.length_set l i a

theorem getD_set_self {α} (l : List α) (i : Nat) (a d : α) (h : i < l.length) :
    (l.set i a).getD i d = a := by
  induction l generalizing i with
  | nil => simp at h
  | cons x xs ih =>
    cases i with
    | zero => simp [List.set, List.getD]
    | succ i =>
      simp only [List.set, List.getD_cons_succ]
      exact ih i (by simpa using h)

theorem getD_set_ne {α} (l : List α) (i j : Nat) (a d : α) (h : i ≠ j) :
    (l.set i a).getD j d = l.getD j d := by
  induction l generalizing i j with
  | nil => simp [List.set]
  | cons x xs ih =>
    cases i with
    | zero =>
      cases j with
      | zero => exact absurd rfl h
      | succ j => simp [List.set]
    | succ i =>
      cases j with
      | zero => simp [List.set]
      | succ j =>
        simp only [List.set, List.getD_cons_succ]
        exact ih i j (by omega)

theorem length_updateBucketEntry (bs : List Bucket) (j : Nat) (f : Entry → Entry) :
    (updateBucketEntry bs j f).length = bs.length := by
  unfold updateBucketEntry
  cases bs.getD j none <;> simp

/-- An entry rewrite that keeps the key produces a similar bucket array. -/
theorem updateBucketEntry_sim (bs : List Bucket) (j : Nat) (f : Entry → Entry)
    (hf : ∀ e, (f e).key = e.key) : BucketSim bs (updateBucketEntry bs j f) := by
  constructor
  · exact length_updateBucketEntry bs j f
  · intro i
    unfold updateBucketEntry
    cases hj : bs.getD j none with
    | none => exact relB_refl _
    | some b =>
      rcases eq_or_ne i j with rfl | hne
      · have hjlt : i < bs.length := by
          by_contra hge
          rw [List.getD_eq_default] at hj
          · exact absurd hj (by simp)
          · omega
        rw [getD_set_self _ _ _ _ hjlt, hj]
        simp [RelB, hf]
      · rw [getD_set_ne _ _ _ _ _ (by omega)]
        exact relB_refl _

/-- Unfolding step of lookupLoop at an empty bucket. -/
theorem lookupLoop_step_none (hash : Nat) (key : Key) (fuel : Nat) (bs : List Bucket)
    (idx dist : Nat) (hb : bs.getD idx none = none) :
    lookupLoop hash key (fuel + 1) bs idx dist = none := by
  rw [lookupLoop, hb]

/-- Unfolding step of lookupLoop at an occupied bucket. -/
theorem lookupLoop_step_some (hash : Nat) (key : Key) (fuel : Nat) (bs : List Bucket)
    (idx dist : Nat) (b : BucketE) (hb : bs.getD idx none = some b) :
    lookupLoop hash key (fuel + 1) bs idx dist =
      if b.distance < dist then none
      else if b.hash = hash ∧ b.entry.key = key then some (b.entry, idx)
      else lookupLoop hash key fuel bs ((idx + 1) % bs.length) (dist + 1) := by
  rw [lookupLoop, hb]

/-- Lookups through similar bucket arrays walk the same path; on a hit the
index agrees and the entry is the one the similar array stores there. -/
theorem lookupLoop_sim (hash : Nat) (key : Key) (bs bs' : List Bucket)
    (hsim : BucketSim bs bs') :
    ∀ fuel idx dist, lookupLoop hash key fuel bs' idx dist =
      (lookupLoop hash key fuel bs idx dist).map
        (fun p => (((bs'.getD p.2 none).map (·.entry)).getD p.1, p.2)) := by
  intro fuel
  induction fuel with
  | zero => intro idx dist; simp [lookupLoop]
  | succ fuel ih =>
    intro idx dist
    have hrel := hsim.2 idx
    cases hb : bs.getD idx none with
    | none =>
      rw [hb] at hrel
      cases hb' : bs'.getD idx none with
      | none => rw [lookupLoop_step_none _ _ _ _ _ _ hb, lookupLoop_step_none _ _ _ _ _ _ hb']; rfl
      | some b' => rw [hb'] at hrel; exact absurd hrel (by simp [RelB])
    | some b =>
      rw [hb] at hrel
      cases hb' : bs'.getD idx none with
      | none => rw [hb'] at hrel; exact absurd hrel (by simp [RelB])
      | some b' =>
        rw [hb'] at hrel
        obtain ⟨hh, hd, hk⟩ := hrel
        rw [lookupLoop_step_some _ _ _ _ _ _ _ hb, lookupLoop_step_some _ _ _ _ _ _ _ hb']
        rw [hh, hd, hk]
        split
        · simp
        · split
          · simp only [Option.map_some']
            rw [show ((bs'.getD idx none).map (fun x => x.entry)).getD b.entry = b'.entry by
              rw [hb']; rfl]
          · rw [ih, hsim.1]

/-- A lookup hit returns the queried key's entry, stored at the returned
index with the queried hash cached. -/
theorem lookupLoop_found (hash : Nat) (key : Key) :
    ∀ fuel bs idx dist e i, lookupLoop hash key fuel bs idx dist = some (e, i) →
      e.key = key ∧ ∃ b, bs.getD i none = some b ∧ b.entry = e ∧ b.hash = hash := by
  intro fuel
  induction fuel with
  | zero => intro bs idx dist e i h; simp [lookupLoop] at h
  | succ fuel ih =>
    intro bs idx dist e i h
    cases hb : bs.getD idx none with
    | none => rw [lookupLoop_step_none _ _ _ _ _ _ hb] at h; simp at h
    | some b =>
      rw [lookupLoop_step_some _ _ _ _ _ _ _ hb] at h
      split at h
      · simp at h
      · split at h
        · rename_i hcond
          obtain ⟨h1, h2⟩ := Prod.mk.injEq .. ▸ Option.some_inj.mp h
          subst h2
          refine ⟨by rw [← h1]; exact hcond.2, b, hb, h1, hcond.1⟩
        · exact ih bs _ _ e i h

/-- Entries equal in every field except possibly the evicted bit. -/
def EntryEvOnly (e e' : Entry) : Prop :=
  e'.key = e.key ∧ e'.value = e.value ∧ e'.expireAt = e.expireAt ∧
  e'.flags = e.flags ∧ e'.cas = e.cas

/-- Slotwise equality except for evicted bits. -/
def RelEv : Bucket → Bucket → Prop
  | none, none => True
  | some b, some b' => b'.hash = b.hash ∧ b'.distance = b.distance ∧ EntryEvOnly b.entry b'.entry
  | _, _ => False

/-- Bucket arrays equal except for evicted bits. -/
def BucketsEvOnly (bs bs' : List Bucket) : Prop :=
  bs'.length = bs.length ∧ ∀ i, RelEv (bs.getD i none) (bs'.getD i none)

theorem relEv_refl (b : Bucket) : RelEv b b := by
  cases b <;> simp [RelEv, EntryEvOnly]

theorem relEv_trans {a b c : Bucket} (h1 : RelEv a b) (h2 : RelEv b c) : RelEv a c := by
  cases a <;> cases b <;> cases c <;> simp_all [RelEv, EntryEvOnly]

theorem RelEv.toRelB {a b : Bucket} (h : RelEv a b) : RelB a b := by
  cases a <;> cases b <;> simp_all [RelEv, RelB, EntryEvOnly]

theorem bucketsEvOnly_refl (bs : List Bucket) : BucketsEvOnly bs bs :=
  ⟨rfl, fun _ => relEv_refl _⟩

theorem bucketsEvOnly_trans {a b c : List Bucket} (h1 : BucketsEvOnly a b)
    (h2 : BucketsEvOnly b c) : BucketsEvOnly a c :=
  ⟨h2.1.trans h1.1, fun i => relEv_trans (h1.2 i) (h2.2 i)⟩

theorem BucketsEvOnly.toSim {a b : List Bucket} (h : BucketsEvOnly a b) : BucketSim a b :=
  ⟨h.1, fun i => (h.2 i).toRelB⟩

/-- An entry rewrite leaving all fields but the evicted bit alone relates the
arrays by `BucketsEvOnly`. -/
theorem updateBucketEntry_evOnly (bs : List Bucket) (j : Nat) (f : Entry → Entry)
    (hf : ∀ e, EntryEvOnly e (f e)) : BucketsEvOnly bs (updateBucketEntry bs j f) := by
  constructor
  · exact length_updateBucketEntry bs j f
  · intro i
    unfold updateBucketEntry
    cases hj : bs.getD j none with
    | none => exact relEv_refl _
    | some b =>
      rcases eq_or_ne i j with rfl | hne
      · have hjlt : i < bs.length := by
          by_contra hge
          rw [List.getD_eq_default] at hj
          · exact absurd hj (by simp)
          · omega
        rw [getD_set_self _ _ _ _ hjlt, hj]
        exact ⟨rfl, rfl, hf b.entry⟩
      · rw [getD_set_ne _ _ _ _ _ (by omega)]
        exact relEv_refl _

/-- setEvicted only flips evicted bits and changes no other map field. -/
theorem setEvicted_spec (hashKey : Key → Nat) (m : Map) (k : Key) :
    BucketsEvOnly m.buckets ((m.setEvicted hashKey k).buckets) ∧
    (m.setEvicted hashKey k).numItems = m.numItems ∧
    (m.setEvicted hashKey k).mask = m.mask ∧
    (m.setEvicted hashKey k).growAt = m.growAt ∧
    (m.setEvicted hashKey k).shrinkAt = m.shrinkAt := by
  unfold Map.setEvicted
  cases m.lookup k (hashKey k) with
  | none => exact ⟨bucketsEvOnly_refl _, rfl, rfl, rfl, rfl⟩
  | some p =>
    obtain ⟨e, idx⟩ := p
    exact ⟨updateBucketEntry_evOnly m.buckets idx (fun e => { e with evicted := true })
      (fun e => ⟨rfl, rfl, rfl, rfl, rfl⟩), rfl, rfl, rfl, rfl⟩

/-- The eviction loop only flips evicted bits in the map, keeps the live
count and thresholds, and touches no shard field other than the map,
`memUsed` and `numEvicted`. -/
theorem evictLoop_spec (hashKey : Key → Nat) :
    ∀ fuel sh req now coins,
      BucketsEvOnly sh.m.buckets ((evictLoop hashKey fuel sh req now coins).m.buckets) ∧
      (evictLoop hashKey fuel sh req now coins).m.numItems = sh.m.numItems ∧
      (evictLoop hashKey fuel sh req now coins).m.mask = sh.m.mask ∧
      (evictLoop hashKey fuel sh req now coins).m.growAt = sh.m.growAt ∧
      (evictLoop hashKey fuel sh req now coins).m.shrinkAt = sh.m.shrinkAt ∧
      (evictLoop hashKey fuel sh req now coins).maxMemory = sh.maxMemory ∧
      (evictLoop hashKey fuel sh req now coins).numOps = sh.numOps ∧
      (evictLoop hashKey fuel sh req now coins).numHits = sh.numHits ∧
      (evictLoop hashKey fuel sh req now coins).numMisses = sh.numMisses ∧
      (evictLoop hashKey fuel sh req now coins).numExpired = sh.numExpired := by
  intro fuel
  induction fuel with
  | zero =>
    intro sh req now coins
    exact ⟨bucketsEvOnly_refl _, rfl, rfl, rfl, rfl, rfl, rfl, rfl, rfl, rfl⟩
  | succ fuel ih =>
    intro sh req now coins
    rw [evictLoop]
    split
    · cases hr : sh.m.randomEntries 2 with
      | nil => exact ⟨bucketsEvOnly_refl _, rfl, rfl, rfl, rfl, rfl, rfl, rfl, rfl, rfl⟩
      | cons e0 rest =>
        cases rest with
        | nil =>
          have hset := setEvicted_spec hashKey sh.m e0.key
          have hrec := ih { sh with m := sh.m.setEvicted hashKey e0.key
                                    memUsed := sh.memUsed - e0.Size
                                    numEvicted := sh.numEvicted + 1 } req now coins
          exact ⟨bucketsEvOnly_trans hset.1 hrec.1,
            hrec.2.1.trans hset.2.1, hrec.2.2.1.trans hset.2.2.1,
            hrec.2.2.2.1.trans hset.2.2.2.1, hrec.2.2.2.2.1.trans hset.2.2.2.2,
            hrec.2.2.2.2.2.1, hrec.2.2.2.2.2.2.1, hrec.2.2.2.2.2.2.2.1,
            hrec.2.2.2.2.2.2.2.2.1, hrec.2.2.2.2.2.2.2.2.2⟩
        | cons e1 rest' =>
          have hset := setEvicted_spec hashKey sh.m (chooseVictim e0 e1 now (coins.headD true)).key
          have hrec := ih { sh with
              m := sh.m.setEvicted hashKey (chooseVictim e0 e1 now (coins.headD true)).key
              memUsed := sh.memUsed - (chooseVictim e0 e1 now (coins.headD true)).Size
              numEvicted := sh.numEvicted + 1 } req now coins.tail
          exact ⟨bucketsEvOnly_trans hset.1 hrec.1,
            hrec.2.1.trans hset.2.1, hrec.2.2.1.trans hset.2.2.1,
            hrec.2.2.2.1.trans hset.2.2.2.1, hrec.2.2.2.2.1.trans hset.2.2.2.2,
            hrec.2.2.2.2.2.1, hrec.2.2.2.2.2.2.1, hrec.2.2.2.2.2.2.2.1,
            hrec.2.2.2.2.2.2.2.2.1, hrec.2.2.2.2.2.2.2.2.2⟩
    · exact ⟨bucketsEvOnly_refl _, rfl, rfl, rfl, rfl, rfl, rfl, rfl, rfl, rfl⟩

/-- evictIfNeeded has the same footprint as the loop. -/
theorem evictIfNeeded_spec (hashKey : Key → Nat) (sh : Shard) (req now : Int)
    (coins : List Bool) :
    BucketsEvOnly sh.m.buckets ((Cache.evictIfNeeded hashKey sh req now coins).m.buckets) ∧
    (Cache.evictIfNeeded hashKey sh req now coins).m.numItems = sh.m.numItems ∧
    (Cache.evictIfNeeded hashKey sh req now coins).maxMemory = sh.maxMemory ∧
    (Cache.evictIfNeeded hashKey sh req now coins).numOps = sh.numOps := by
  unfold Cache.evictIfNeeded
  split
  · exact ⟨bucketsEvOnly_refl _, rfl, rfl, rfl⟩
  · have := evictLoop_spec hashKey ((sh.memUsed + req - sh.maxMemory).toNat + 1) sh req now coins
    exact ⟨this.1, this.2.1, this.2.2.2.2.2.1, this.2.2.2.2.2.2.1⟩

theorem shardAt_setShard (c : Cache) (i j : Nat) (sh : Shard) (hi : i < c.shards.length) :
    (c.setShard i sh).shardAt j = if j = i then sh else c.shardAt j := by
  unfold Cache.setShard Cache.shardAt
  rcases eq_or_ne j i with rfl | hne
  · rw [if_pos rfl]
    exact getD_set_self _ _ _ _ hi
  · rw [if_neg hne]
    exact getD_set_ne _ _ _ _ _ (by omega)

theorem getShardIdx_setShard (hashKey : Key → Nat) (c : Cache) (i : Nat) (sh : Shard)
    (k : Key) : (c.setShard i sh).getShardIdx hashKey k = c.getShardIdx hashKey k := rfl

/-- A fixed concrete hash function used by concrete instances below. -/
def hashHead : Key → Nat := fun k => k.headD 0

/-- Reduction of CompareAndSwap on an absent key. -/
theorem cas_reduce_none (hashKey : Key → Nat) (c : Cache) (key value : Key) (cas : Nat)
    (opts : Option StoreOptions) (now : Int) (coins : List Bool)
    (hlk : (c.shardAt (c.getShardIdx hashKey key)).m.lookup key (hashKey key) = none) :
    c.CompareAndSwap hashKey key value cas opts now coins =
      (false, c.setShard (c.getShardIdx hashKey key)
        { c.shardAt (c.getShardIdx hashKey key) with
          numOps := (c.shardAt (c.getShardIdx hashKey key)).numOps + 1 }) := by
  simp only [Cache.CompareAndSwap, hlk]

/-- Reduction of CompareAndSwap on a cas mismatch. -/
theorem cas_reduce_mismatch (hashKey : Key → Nat) (c : Cache) (key value : Key) (cas : Nat)
    (opts : Option StoreOptions) (now : Int) (coins : List Bool) (e : Entry) (idx : Nat)
    (hlk : (c.shardAt (c.getShardIdx hashKey key)).m.lookup key (hashKey key) = some (e, idx))
    (hne : e.cas ≠ cas) :
    c.CompareAndSwap hashKey key value cas opts now coins =
      (false, c.setShard (c.getShardIdx hashKey key)
        { c.shardAt (c.getShardIdx hashKey key) with
          numOps := (c.shardAt (c.getShardIdx hashKey key)).numOps + 1 }) := by
  simp only [Cache.CompareAndSwap, hlk]
  rw [if_pos hne]

/-- Reduction of CompareAndSwap on a cas match. -/
theorem cas_reduce_success (hashKey : Key → Nat) (c : Cache) (key value : Key) (cas : Nat)
    (opts : Option StoreOptions) (now : Int) (coins : List Bool) (e : Entry) (idx : Nat)
    (hlk : (c.shardAt (c.getShardIdx hashKey key)).m.lookup key (hashKey key) = some (e, idx))
    (heq : e.cas = cas) :
    c.CompareAndSwap hashKey key value cas opts now coins =
      (true, c.setShard (c.getShardIdx hashKey key)
        (let sh1 : Shard := { c.shardAt (c.getShardIdx hashKey key) with
          numOps := (c.shardAt (c.getShardIdx hashKey key)).numOps + 1 }
         let sh2 : Shard := Cache.evictIfNeeded hashKey sh1
           ((value.length : Int) - (e.value.length : Int)) now coins
         { sh2 with
           m := { sh2.m with buckets := updateBucketEntry sh2.m.buckets idx (fun ex =>
             Entry.IncrementCAS { ex with value := value, expireAt := optExpireAt opts now
                                          flags := optFlags opts }) }
           memUsed := sh2.memUsed + ((value.length : Int) - (e.value.length : Int)) })) := by
  simp only [Cache.CompareAndSwap, hlk]
  rw [if_neg (by simp [heq])]

/-- Looking up `key` after an in-place entry rewrite at its bucket — possibly
after eviction marking (`BucketsEvOnly`) — hits the same bucket and returns
the rewritten entry. -/
theorem get_after_update (hashKey : Key → Nat) (m m2 : Map) (key : Key) (e : Entry)
    (idx : Nat) (f : Entry → Entry) (hf : ∀ x, (f x).key = x.key)
    (hlk : m.lookup key (hashKey key) = some (e, idx))
    (hev : BucketsEvOnly m.buckets m2.buckets) :
    ∃ b2 : BucketE, m2.buckets.getD idx none = some b2 ∧ EntryEvOnly e b2.entry ∧
      Map.get hashKey { m2 with buckets := updateBucketEntry m2.buckets idx f } key =
        some (f b2.entry) := by
  obtain ⟨hkeq, b, hbidx, hbe, hbh⟩ := lookupLoop_found (hashKey key) key
    m.buckets.length m.buckets (m.maskIdx (hashKey key)) 0 e idx hlk
  have hrel2 := hev.2 idx
  rw [hbidx] at hrel2
  cases hb2 : m2.buckets.getD idx none with
  | none => rw [hb2] at hrel2; exact absurd hrel2 (by simp [RelEv])
  | some b2 =>
    rw [hb2] at hrel2
    obtain ⟨hh2, hd2, hev2⟩ := hrel2
    have hidxlt2 : idx < m2.buckets.length := by
      by_contra hge
      rw [List.getD_eq_default _ _ (by omega)] at hb2
      exact absurd hb2 (by simp)
    refine ⟨b2, rfl, by rw [← hbe]; exact hev2, ?_⟩
    have hsim : BucketSim m.buckets (updateBucketEntry m2.buckets idx f) :=
      bucketSim_trans hev.toSim (updateBucketEntry_sim _ _ _ hf)
    have hlen2 : (updateBucketEntry m2.buckets idx f).length = m.buckets.length := by
      rw [length_updateBucketEntry, hev.1]
    have hbfin : (updateBucketEntry m2.buckets idx f).getD idx none =
        some { b2 with entry := f b2.entry } := by
      unfold updateBucketEntry
      rw [hb2]
      exact getD_set_self _ _ _ _ hidxlt2
    have hmap := lookupLoop_sim (hashKey key) key m.buckets
      (updateBucketEntry m2.buckets idx f) hsim m.buckets.length (m.maskIdx (hashKey key)) 0
    unfold Map.get Map.lookup Map.maskIdx
    show ((lookupLoop (hashKey key) key (updateBucketEntry m2.buckets idx f).length
      (updateBucketEntry m2.buckets idx f)
      (hashKey key % (updateBucketEntry m2.buckets idx f).length) 0).map (·.1)) = _
    rw [hlen2]
    rw [show hashKey key % m.buckets.length = m.maskIdx (hashKey key) from rfl]
    rw [hmap]
    rw [show lookupLoop (hashKey key) key m.buckets.length m.buckets
      (m.maskIdx (hashKey key)) 0 = some (e, idx) from hlk]
    simp only [Option.map_some']
    rw [show ((updateBucketEntry m2.buckets idx f).getD idx none).map (fun x => x.entry) =
      some (f b2.entry) by rw [hbfin]; rfl]
    rfl

/-- Claim C5 (amended): CompareAndSwap on an absent key or a mismatching
cas returns false and leaves every shard's map and memory accounting, and
hence every entry, unchanged; on a match it returns true, installs the new
value/flags/expiry on the entry, and sets the entry's cas to
`(old + 1) % 2 ^ 64` — a strict increase whenever the old cas is not
`2 ^ 64 - 1`. -/
theorem c5_cas_contract (hashKey : Key → Nat) (c : Cache) (key value : Key) (cas : Nat)
    (opts : Option StoreOptions) (now : Int) (coins : List Bool)
    (hi : c.getShardIdx hashKey key < c.shards.length) :
    ((c.shardAt (c.getShardIdx hashKey key)).m.get hashKey key = none →
      (c.CompareAndSwap hashKey key value cas opts now coins).1 = false ∧
      ∀ j, ((c.CompareAndSwap hashKey key value cas opts now coins).2.shardAt j).m =
          (c.shardAt j).m ∧
        ((c.CompareAndSwap hashKey key value cas opts now coins).2.shardAt j).memUsed =
          (c.shardAt j).memUsed) ∧
    (∀ e, (c.shardAt (c.getShardIdx hashKey key)).m.get hashKey key = some e → e.cas ≠ cas →
      (c.CompareAndSwap hashKey key value cas opts now coins).1 = false ∧
      ∀ j, ((c.CompareAndSwap hashKey key value cas opts now coins).2.shardAt j).m =
          (c.shardAt j).m ∧
        ((c.CompareAndSwap hashKey key value cas opts now coins).2.shardAt j).memUsed =
          (c.shardAt j).memUsed) ∧
    (∀ e, (c.shardAt (c.getShardIdx hashKey key)).m.get hashKey key = some e → e.cas = cas →
      (c.CompareAndSwap hashKey key value cas opts now coins).1 = true ∧
      ∃ e', ((c.CompareAndSwap hashKey key value cas opts now coins).2.shardAt
          (c.getShardIdx hashKey key)).m.get hashKey key = some e' ∧
        e'.value = value ∧ e'.expireAt = optExpireAt opts now ∧ e'.flags = optFlags opts ∧
        e'.cas = (e.cas + 1) % 2 ^ 64 ∧
        (e.cas + 1 < 2 ^ 64 → e.cas < e'.cas)) := by
  refine ⟨?_, ?_, ?_⟩
  · intro hget
    have hlk : (c.shardAt (c.getShardIdx hashKey key)).m.lookup key (hashKey key) = none :=
      Option.map_eq_none'.mp hget
    rw [cas_reduce_none hashKey c key value cas opts now coins hlk]
    refine ⟨rfl, fun j => ?_⟩
    rw [shardAt_setShard _ _ _ _ hi]
    split
    · rename_i hj
      subst hj
      exact ⟨rfl, rfl⟩
    · exact ⟨rfl, rfl⟩
  · intro e hget hne
    obtain ⟨⟨e0, idx⟩, hlk, he0⟩ := Option.map_eq_some'.mp hget
    simp only at he0
    rw [he0] at hlk
    rw [cas_reduce_mismatch hashKey c key value cas opts now coins e idx hlk hne]
    refine ⟨rfl, fun j => ?_⟩
    rw [shardAt_setShard _ _ _ _ hi]
    split
    · rename_i hj
      subst hj
      exact ⟨rfl, rfl⟩
    · exact ⟨rfl, rfl⟩
  · intro e hget heq
    obtain ⟨⟨e0, idx⟩, hlk, he0⟩ := Option.map_eq_some'.mp hget
    simp only at he0
    rw [he0] at hlk
    rw [cas_reduce_success hashKey c key value cas opts now coins e idx hlk heq]
    refine ⟨rfl, ?_⟩
    rw [shardAt_setShard _ _ _ _ hi, if_pos rfl]
    have hsh2 := evictIfNeeded_spec hashKey
      { c.shardAt (c.getShardIdx hashKey key) with
        numOps := (c.shardAt (c.getShardIdx hashKey key)).numOps + 1 }
      ((value.length : Int) - (e.value.length : Int)) now coins
    obtain ⟨b2, hb2, hev2, hgetfin⟩ := get_after_update hashKey
      (c.shardAt (c.getShardIdx hashKey key)).m
      (Cache.evictIfNeeded hashKey
        { c.shardAt (c.getShardIdx hashKey key) with
          numOps := (c.shardAt (c.getShardIdx hashKey key)).numOps + 1 }
        ((value.length : Int) - (e.value.length : Int)) now coins).m
      key e idx
      (fun ex => Entry.IncrementCAS { ex with value := value, expireAt := optExpireAt opts now
                                              flags := optFlags opts })
      (fun ex => rfl) hlk hsh2.1
    refine ⟨_, hgetfin, rfl, rfl, rfl, ?_, ?_⟩
    · show (b2.entry.cas + 1) % 2 ^ 64 = (e.cas + 1) % 2 ^ 64
      rw [hev2.2.2.2.2]
    · intro hlt
      show e.cas < (b2.entry.cas + 1) % 2 ^ 64
      rw [hev2.2.2.2.2, Nat.mod_eq_of_lt hlt]
      omega

/-- Counterexample to C5 as stated: Store can seed an entry's cas with
`2 ^ 64 - 1` (the uint64 `StoreOptions.CAS` is caller-controlled); a
successful CompareAndSwap then wraps the uint64 counter to 0, so the cas
does not strictly increase. -/
theorem c5_counterexample :
    ((((Cache.New 1 0).Store hashHead [7] [1] (some ⟨0, 0, 2 ^ 64 - 1⟩) 0 []).CompareAndSwap
        hashHead [7] [2] (2 ^ 64 - 1) none 0 []).1 = true) ∧
    (((((Cache.New 1 0).Store hashHead [7] [1] (some ⟨0, 0, 2 ^ 64 - 1⟩) 0 []).CompareAndSwap
        hashHead [7] [2] (2 ^ 64 - 1) none 0 []).2.shardAt 0).m.get hashHead [7]).map (·.cas) =
      some 0 ∧
    ¬((0 : Nat) > 2 ^ 64 - 1) := by
  exact ⟨by decide, by decide, by decide⟩

/-- Witness for C5 at a one-shard cache holding `[7] ↦ [1, 2]` with cas 0. -/
theorem c5_witness :
    (((Cache.New 1 0).Store hashHead [7] [1, 2] none 0 []).CompareAndSwap
      hashHead [7] [9] 0 none 0 []).1 = true := by
  have h := c5_cas_contract hashHead ((Cache.New 1 0).Store hashHead [7] [1, 2] none 0 [])
    [7] [9] 0 none 0 [] (by decide)
  exact (h.2.2 ⟨[7], [1, 2], 0, 0, 0, false⟩ (by decide) rfl).1

theorem getD_replicate_none (n i : Nat) :
    (List.replicate n (none : Bucket)).getD i none = none := by
  induction n generalizing i with
  | zero => simp
  | succ n ih =>
    cases i with
    | zero => simp [List.replicate]
    | succ i =>
      simp only [List.replicate, List.getD_cons_succ]
      exact ih i

/-- Every lookup in a freshly built map misses. -/
theorem lookup_NewMap (s : Nat) (k : Key) (h : Nat) : (NewMap s).lookup k h = none := by
  unfold Map.lookup
  cases hfuel : (NewMap s).buckets.length with
  | zero => rfl
  | succ fuel =>
    exact lookupLoop_step_none _ _ _ _ _ _ (getD_replicate_none _ _)

/-- After Clear every shard holds a fresh 16-bucket map with zero memory. -/
theorem clear_shardAt (c : Cache) (i : Nat) :
    ((c.Clear).shardAt i).m = NewMap 16 ∧ ((c.Clear).shardAt i).memUsed = 0 ∧
    ((c.Clear).shardAt i).numOps = (c.shardAt i).numOps := by
  unfold Cache.Clear Cache.shardAt
  by_cases h : i < c.shards.length
  · rw [List.getD_eq_getElem _ _ (by simpa using h), List.getD_eq_getElem _ _ h]
    simp
  · rw [List.getD_eq_default _ _ (by simpa using h), List.getD_eq_default _ _ (by omega)]
    exact ⟨rfl, rfl, rfl⟩

/-- Claim C7 (amended): after Clear every Load misses, `num_items` and
`mem_used` are zero, and the operation counters are left unchanged (they
are not reset). -/
theorem c7_clear (hashKey : Key → Nat) (c : Cache) (key : Key) (now : Int) :
    ((c.Clear).Load hashKey key now).1 = none ∧
    (c.Clear).NumItems = 0 ∧
    (c.Clear).MemUsed = 0 ∧
    (c.Clear).statsOps = c.statsOps ∧
    (c.Clear).statsHits = c.statsHits ∧
    (c.Clear).statsMisses = c.statsMisses ∧
    (c.Clear).statsEvicted = c.statsEvicted ∧
    (c.Clear).statsExpired = c.statsExpired := by
  refine ⟨?_, ?_, ?_, ?_, ?_, ?_, ?_, ?_⟩
  · have hget : ((c.Clear).shardAt ((c.Clear).getShardIdx hashKey key)).m.get hashKey key =
        none := by
      rw [(clear_shardAt c _).1]
      unfold Map.get
      rw [lookup_NewMap]
      rfl
    simp only [Cache.Load, hget]
  · unfold Cache.NumItems Cache.Clear
    rw [List.map_map]
    apply List.sum_eq_zero
    intro x hx
    obtain ⟨sh, _, hsh⟩ := List.mem_map.mp hx
    rw [← hsh]
    rfl
  · unfold Cache.MemUsed Cache.Clear
    rw [List.map_map]
    apply List.sum_eq_zero
    intro x hx
    obtain ⟨sh, _, hsh⟩ := List.mem_map.mp hx
    rw [← hsh]
    rfl
  · unfold Cache.statsOps Cache.Clear
    rw [List.map_map]
    rfl
  · unfold Cache.statsHits Cache.Clear
    rw [List.map_map]
    rfl
  · unfold Cache.statsMisses Cache.Clear
    rw [List.map_map]
    rfl
  · unfold Cache.statsEvicted Cache.Clear
    rw [List.map_map]
    rfl
  · unfold Cache.statsExpired Cache.Clear
    rw [List.map_map]
    rfl

/-- Counterexample to C7 as stated: one Store, then Clear; Stats reports
`num_ops = 1`, not 0 — Clear does not reset the operation counters. -/
theorem c7_counterexample :
    ((((Cache.New 1 0).Store hashHead [7] [1] none 0 []).Clear).statsOps) = 1 ∧
    ((((Cache.New 1 0).Store hashHead [7] [1] none 0 []).Clear).statsOps) ≠ 0 := by
  exact ⟨by decide, by decide⟩

/-! ## Robin-Hood invariants

The per-bucket invariants are stated over bare bucket arrays so they apply
to the intermediate states inside the loops:
  * `HashOk` — every cached hash is the hash of the stored key;
  * `DistOk` — every stored distance is below the capacity and equals the
    (wrapped) offset from the entry's home bucket, i.e. the claim's
    `distance = (i - (hash & mask)) mod capacity`;
  * `ChainOk` — a bucket with positive distance has an occupied predecessor
    whose distance is at least one less (the local form of the Robin-Hood
    ordering; `chain_global` below derives from it the scan property:
    walking forward from a stored key's home bucket, every bucket before
    the key is occupied with distance at least the scan offset, so a search
    can stop early only where absence is certain);
  * `KeysUniq` — distinct occupied buckets hold distinct keys. -/

/-- Cached hashes are the hashes of the stored keys. -/
def HashOk (hashKey : Key → Nat) (bs : List Bucket) : Prop :=
  ∀ i b, bs.getD i none = some b → b.hash = hashKey b.entry.key

/-- Stored distances are the wrapped offsets from the home bucket. -/
def DistOk (bs : List Bucket) : Prop :=
  ∀ i b, i < bs.length → bs.getD i none = some b →
    b.distance < bs.length ∧ (b.hash % bs.length + b.distance) % bs.length = i

/-- Local Robin-Hood ordering: positive distance forces an occupied
predecessor at distance at least one less. -/
def ChainOk (bs : List Bucket) : Prop :=
  ∀ i b, i < bs.length → bs.getD i none = some b → 0 < b.distance →
    ∃ b', bs.getD ((i + bs.length - 1) % bs.length) none = some b' ∧
      b.distance - 1 ≤ b'.distance

/-- Distinct occupied buckets hold distinct keys. -/
def KeysUniq (bs : List Bucket) : Prop :=
  ∀ i j bi bj, i < bs.length → j < bs.length → bs.getD i none = some bi →
    bs.getD j none = some bj → i ≠ j → bi.entry.key ≠ bj.entry.key

/-- All per-bucket invariants. -/
def TableOk (hashKey : Key → Nat) (bs : List Bucket) : Prop :=
  HashOk hashKey bs ∧ DistOk bs ∧ ChainOk bs ∧ KeysUniq bs

/-- The multiset of entries stored in a bucket array. -/
def bucketEntries (bs : List Bucket) : Multiset Entry :=
  ↑(bs.filterMap (fun b => b.map (·.entry)))

/-- The contribution of one bucket slot. -/
def entryOf (b : Bucket) : Multiset Entry :=
  match b with
  | none => 0
  | some be => {be.entry}

theorem bucketEntries_nil : bucketEntries [] = 0 := rfl

theorem bucketEntries_cons (b : Bucket) (bs : List Bucket) :
    bucketEntries (b :: bs) = entryOf b + bucketEntries bs := by
  cases b with
  | none => simp [bucketEntries, entryOf]
  | some be =>
    simp only [bucketEntries, entryOf, List.filterMap_cons, Option.map_some']
    rfl

/-- Writing one slot exchanges its contribution. -/
theorem bucketEntries_set (bs : List Bucket) (i : Nat) (v : Bucket) (h : i < bs.length) :
    bucketEntries (bs.set i v) + entryOf (bs.getD i none) =
      bucketEntries bs + entryOf v := by
  induction bs generalizing i with
  | nil => simp at h
  | cons x xs ih =>
    cases i with
    | zero =>
      simp only [List.set, List.getD_cons_zero, bucketEntries_cons]
      ac_rfl
    | succ i =>
      simp only [List.set, List.getD_cons_succ, bucketEntries_cons]
      have h2 := ih i (by simpa using h)
      calc entryOf x + bucketEntries (xs.set i v) + entryOf (xs.getD i none)
          = entryOf x + (bucketEntries (xs.set i v) + entryOf (xs.getD i none)) := by ac_rfl
        _ = entryOf x + (bucketEntries xs + entryOf v) := by rw [h2]
        _ = entryOf x + bucketEntries xs + entryOf v := by ac_rfl

/-- Sum of entry sizes of a bucket array (used by the memory accounting). -/
def sizeSum (bs : List Bucket) : Int := ((bucketEntries bs).map Entry.Size).sum

theorem sizeSum_set (bs : List Bucket) (i : Nat) (v : Bucket) (h : i < bs.length) :
    sizeSum (bs.set i v) + ((entryOf (bs.getD i none)).map Entry.Size).sum =
      sizeSum bs + ((entryOf v).map Entry.Size).sum := by
  have hq := bucketEntries_set bs i v h
  have := congrArg (fun s : Multiset Entry => (s.map Entry.Size).sum) hq
  simpa [sizeSum, Multiset.map_add, Multiset.sum_add] using this

/-- Occupancy count as the card of the contents. -/
theorem card_bucketEntries_set (bs : List Bucket) (i : Nat) (v : Bucket) (h : i < bs.length) :
    Multiset.card (bucketEntries (bs.set i v)) + Multiset.card (entryOf (bs.getD i none)) =
      Multiset.card (bucketEntries bs) + Multiset.card (entryOf v) := by
  have hq := bucketEntries_set bs i v h
  have := congrArg Multiset.card hq
  simpa [Multiset.card_add] using this

/-- Membership: an occupied bucket's entry is in the contents. -/
theorem mem_bucketEntries_of_getD (bs : List Bucket) (i : Nat) (b : BucketE)
    (hb : bs.getD i none = some b) : b.entry ∈ bucketEntries bs := by
  induction bs generalizing i with
  | nil => simp [List.getD] at hb
  | cons x xs ih =>
    cases i with
    | zero =>
      rw [List.getD_cons_zero] at hb
      subst hb
      rw [bucketEntries_cons]
      simp [entryOf]
    | succ i =>
      rw [List.getD_cons_succ] at hb
      rw [bucketEntries_cons]
      rcases x with _ | xb
      · simpa [entryOf] using ih i hb
      · simp only [entryOf, Multiset.mem_add]
        exact Or.inr (ih i hb)

/-- Conversely, every member of the contents sits in some bucket. -/
theorem getD_of_mem_bucketEntries (bs : List Bucket) (e : Entry)
    (he : e ∈ bucketEntries bs) : ∃ i b, i < bs.length ∧ bs.getD i none = some b ∧
      b.entry = e := by
  induction bs with
  | nil => simp [bucketEntries_nil] at he
  | cons x xs ih =>
    rw [bucketEntries_cons] at he
    rcases x with _ | xb
    · simp only [entryOf, zero_add] at he
      obtain ⟨i, b, hi, hb, hbe⟩ := ih he
      exact ⟨i + 1, b, by simpa using hi, by simpa using hb, hbe⟩
    · rw [Multiset.mem_add] at he
      rcases he with he | he
      · simp only [entryOf, Multiset.mem_singleton] at he
        exact ⟨0, xb, by simp, by simp, he.symm⟩
      · obtain ⟨i, b, hi, hb, hbe⟩ := ih he
        exact ⟨i + 1, b, by simpa using hi, by simpa using hb, hbe⟩

/-- Splitting a `% n` of a sum below `2n`. -/
theorem mod_cases (x n : Nat) (_hn : 0 < n) (hx : x < 2 * n) :
    x % n = if x < n then x else x - n := by
  split
  · exact Nat.mod_eq_of_lt (by omega)
  · rw [Nat.mod_eq_sub_mod (by omega)]
    exact Nat.mod_eq_of_lt (by omega)

/-- Stepping an index forward then back returns it. -/
theorem succ_pred_mod (x n : Nat) (hn : 0 < n) :
    ((x + 1) % n + n - 1) % n = x % n := by
  have h1 : (x + 1) % n + n - 1 = (x + 1) % n + (n - 1) := by omega
  rw [h1, Nat.mod_add_mod, show x + 1 + (n - 1) = x + n by omega, Nat.add_mod_right]

/-- Distinct offsets below the capacity land on distinct slots. -/
theorem mod_add_ne (home t s n : Nat) (hn : 0 < n) (ht : t < n) (hs : s < n) (hne : t ≠ s) :
    (home + t) % n ≠ (home + s) % n := by
  intro h
  have e1 : (home + t) % n = (home % n + t) % n := (Nat.mod_add_mod home n t).symm
  have e2 : (home + s) % n = (home % n + s) % n := (Nat.mod_add_mod home n s).symm
  have hh : home % n < n := Nat.mod_lt _ hn
  rw [e1, e2, mod_cases (home % n + t) n hn (by omega),
    mod_cases (home % n + s) n hn (by omega)] at h
  split at h <;> split at h <;> omega

/-- The scan property derived from the local chain invariant: from the home
bucket of an entry stored at distance `d`, every offset `t ≤ d` lands on an
occupied bucket of distance at least `t`. -/
theorem chain_global (bs : List Bucket) (hd : DistOk bs) (hc : ChainOk bs)
    (i : Nat) (b : BucketE) (hi : i < bs.length) (hb : bs.getD i none = some b) :
    ∀ t, t ≤ b.distance →
      ∃ b', bs.getD ((b.hash % bs.length + t) % bs.length) none = some b' ∧
        t ≤ b'.distance := by
  have hn : 0 < bs.length := by omega
  obtain ⟨hdlt, hpos⟩ := hd i b hi hb
  -- downward induction on the gap to the entry's own distance
  suffices H : ∀ s t, t + s = b.distance →
      ∃ b', bs.getD ((b.hash % bs.length + t) % bs.length) none = some b' ∧
        t ≤ b'.distance by
    intro t ht
    exact H (b.distance - t) t (by omega)
  intro s
  induction s with
  | zero =>
    intro t ht
    rw [Nat.add_zero] at ht
    subst ht
    rw [hpos]
    exact ⟨b, hb, le_rfl⟩
  | succ s ih =>
    intro t ht
    obtain ⟨b', hb', hbd'⟩ := ih (t + 1) (by omega)
    have hpos' : 0 < b'.distance := by omega
    have hlt' : (b.hash % bs.length + (t + 1)) % bs.length < bs.length :=
      Nat.mod_lt _ hn
    obtain ⟨b'', hb'', hbd''⟩ := hc _ b' hlt' hb' hpos'
    rw [show b.hash % bs.length + (t + 1) = b.hash % bs.length + t + 1 by omega] at hb''
    rw [succ_pred_mod _ _ hn] at hb''
    exact ⟨b'', hb'', by omega⟩

theorem getD_some_lt (bs : List Bucket) (i : Nat) (b : BucketE)
    (h : bs.getD i none = some b) : i < bs.length := by
  by_contra hge
  rw [List.getD_eq_default _ _ (by omega)] at h
  exact absurd h (by simp)

/-- The slot before `j` is `idx` exactly when `j` is the slot after `idx`. -/
theorem pred_eq_iff (j idx n : Nat) (hn : 0 < n) (hj : j < n) (hidx : idx < n) :
    (j + n - 1) % n = idx ↔ j = (idx + 1) % n := by
  constructor
  · intro h
    have h2 := congrArg (fun x => (x + 1) % n) h
    simp only at h2
    rw [Nat.mod_add_mod, show j + n - 1 + 1 = j + n by omega, Nat.add_mod_right,
      Nat.mod_eq_of_lt hj] at h2
    exact h2
  · intro h
    subst h
    rw [succ_pred_mod _ _ hn]
    exact Nat.mod_eq_of_lt hidx

/-- A walk covering every offset forces full occupancy, so a carried
distance is below the capacity as soon as one bucket is empty. -/
theorem carried_dist_lt (bs : List Bucket) (home d : Nat)
    (hchain : ∀ t, t < d → ∃ b', bs.getD ((home % bs.length + t) % bs.length) none = some b' ∧
      t ≤ b'.distance)
    (hempty : ∃ z, z < bs.length ∧ bs.getD z none = none) : d < bs.length := by
  obtain ⟨z, hzlt, hz⟩ := hempty
  have hn : 0 < bs.length := by omega
  by_contra hge
  have hh : home % bs.length < bs.length := Nat.mod_lt _ hn
  set t0 := (bs.length + z - home % bs.length) % bs.length with ht0
  have ht0lt : t0 < bs.length := Nat.mod_lt _ hn
  have hzpos : (home % bs.length + t0) % bs.length = z := by
    rw [ht0, mod_cases (bs.length + z - home % bs.length) _ hn (by omega)]
    split
    · rw [show home % bs.length + (bs.length + z - home % bs.length) = bs.length + z by omega,
        Nat.add_comm bs.length z, Nat.add_mod_right]
      exact Nat.mod_eq_of_lt hzlt
    · rw [show home % bs.length + (bs.length + z - home % bs.length - bs.length) = z by omega]
      exact Nat.mod_eq_of_lt hzlt
  obtain ⟨b', hb', _⟩ := hchain t0 (by omega)
  rw [hzpos, hz] at hb'
  exact absurd hb' (by simp)

/-- Placing a fresh carried triple `(entry, hash, dist)` at slot `idx`
preserves all per-bucket invariants, provided the carried triple satisfies
the local conditions (`hpos`, `hpred`) and any displaced resident was
poorer (`hold`). -/
theorem set_TableOk (hashKey : Key → Nat) (bs : List Bucket) (idx : Nat) (entry : Entry)
    (hash dist : Nat)
    (hlen : idx < bs.length)
    (htbl : TableOk hashKey bs)
    (hhash : hash = hashKey entry.key)
    (hfresh : ∀ i b, bs.getD i none = some b → b.entry.key ≠ entry.key)
    (hdlt : dist < bs.length)
    (hpos : (hash % bs.length + dist) % bs.length = idx)
    (hpred : 0 < dist → ∃ b', bs.getD ((idx + bs.length - 1) % bs.length) none = some b' ∧
      dist - 1 ≤ b'.distance)
    (hold : ∀ r, bs.getD idx none = some r → r.distance ≤ dist) :
    TableOk hashKey (bs.set idx (some ⟨entry, hash, dist⟩)) := by
  obtain ⟨hho, hdo, hco, hku⟩ := htbl
  have hn : 0 < bs.length := by omega
  have hlset : (bs.set idx (some ⟨entry, hash, dist⟩)).length = bs.length := by simp
  refine ⟨?_, ?_, ?_, ?_⟩
  · intro i b hb
    rcases eq_or_ne i idx with rfl | hne
    · rw [getD_set_self _ _ _ _ hlen] at hb
      cases hb
      exact hhash
    · rw [getD_set_ne _ _ _ _ _ (by omega)] at hb
      exact hho i b hb
  · intro i b hi hb
    rw [hlset] at hi
    rw [hlset]
    rcases eq_or_ne i idx with rfl | hne
    · rw [getD_set_self _ _ _ _ hlen] at hb
      cases hb
      exact ⟨hdlt, hpos⟩
    · rw [getD_set_ne _ _ _ _ _ (by omega)] at hb
      exact hdo i b hi hb
  · intro i b hi hb hbd
    rw [hlset] at hi
    rw [hlset]
    rcases eq_or_ne i idx with rfl | hne
    · -- the placed bucket: its predecessor condition is hpred
      rw [getD_set_self _ _ _ _ hlen] at hb
      cases hb
      have hbd2 : 0 < dist := hbd
      obtain ⟨b', hb', hd'⟩ := hpred hbd2
      have hpredne : (i + bs.length - 1) % bs.length ≠ i := by
        intro hcontra
        have h1 : (i + (bs.length - 1)) % bs.length = (i + 0) % bs.length := by
          rw [show i + (bs.length - 1) = i + bs.length - 1 by omega, hcontra, Nat.add_zero,
            Nat.mod_eq_of_lt (by omega)]
        have hd1 : bs.length - 1 < bs.length := by omega
        rcases Nat.eq_or_lt_of_le (Nat.one_le_iff_ne_zero.mpr (by omega : bs.length ≠ 0)) with h1len | h1len
        · exact absurd hbd2 (by omega)
        · exact absurd h1 (mod_add_ne i (bs.length - 1) 0 _ hn hd1 (by omega) (by omega))
      rw [getD_set_ne _ _ _ _ _ (by omega)]
      exact ⟨b', hb', hd'⟩
    · rw [getD_set_ne _ _ _ _ _ (by omega)] at hb
      by_cases hpi : (i + bs.length - 1) % bs.length = idx
      · -- the successor of the placed slot: the old resident was poorer
        obtain ⟨r, hr, hrd⟩ := hco i b hi hb hbd
        rw [hpi] at hr
        have hrd2 := hold r hr
        refine ⟨⟨entry, hash, dist⟩, ?_, ?_⟩
        · rw [hpi]
          exact getD_set_self _ _ _ _ hlen
        · show b.distance - 1 ≤ dist
          omega
      · obtain ⟨b', hb', hd'⟩ := hco i b hi hb hbd
        rw [getD_set_ne _ _ _ _ _ (by omega)]
        exact ⟨b', hb', hd'⟩
  · intro i j bi bj hi hj hbi hbj hne
    rw [hlset] at hi hj
    rcases eq_or_ne i idx with rfl | hnei
    · rw [getD_set_self _ _ _ _ hlen] at hbi
      cases hbi
      rw [getD_set_ne _ _ _ _ _ (by omega)] at hbj
      exact fun hcontra => hfresh j bj hbj hcontra.symm
    · rw [getD_set_ne _ _ _ _ _ (by omega)] at hbi
      rcases eq_or_ne j idx with rfl | hnej
      · rw [getD_set_self _ _ _ _ hlen] at hbj
        cases hbj
        exact hfresh i bi hbi
      · rw [getD_set_ne _ _ _ _ _ (by omega)] at hbj
        exact hku i j bi bj hi hj hbi hbj hne

theorem insertLoop_step_none (fuel : Nat) (bs : List Bucket) (entry : Entry)
    (hash dist idx : Nat) (hb : bs.getD idx none = none) :
    insertLoop (fuel + 1) bs entry hash dist idx =
      bs.set idx (some ⟨entry, hash, dist⟩) := by
  rw [insertLoop, hb]

theorem insertLoop_step_swap (fuel : Nat) (bs : List Bucket) (entry : Entry)
    (hash dist idx : Nat) (b : BucketE) (hb : bs.getD idx none = some b)
    (hlt : b.distance < dist) :
    insertLoop (fuel + 1) bs entry hash dist idx =
      insertLoop fuel (bs.set idx (some ⟨entry, hash, dist⟩)) b.entry b.hash
        (b.distance + 1) ((idx + 1) % bs.length) := by
  rw [insertLoop, hb]
  simp [hlt]

theorem insertLoop_step_next (fuel : Nat) (bs : List Bucket) (entry : Entry)
    (hash dist idx : Nat) (b : BucketE) (hb : bs.getD idx none = some b)
    (hge : ¬ b.distance < dist) :
    insertLoop (fuel + 1) bs entry hash dist idx =
      insertLoop fuel bs entry hash (dist + 1) ((idx + 1) % bs.length) := by
  rw [insertLoop, hb]
  simp [hge]

/-- The Robin-Hood placement walk: started from a state satisfying the
table invariants with a fresh carried key, a consistent carried position and
chain, and an empty bucket within the fuel, it keeps the array length,
adds exactly the carried entry to the contents, and preserves the table
invariants. -/
theorem insertLoop_spec (hashKey : Key → Nat) : ∀ (fuel : Nat) (bs : List Bucket)
    (entry : Entry) (hash dist idx : Nat),
    0 < bs.length →
    TableOk hashKey bs →
    hash = hashKey entry.key →
    (∀ i b, bs.getD i none = some b → b.entry.key ≠ entry.key) →
    idx = (hash % bs.length + dist) % bs.length →
    (∀ t, t < dist → ∃ b', bs.getD ((hash % bs.length + t) % bs.length) none = some b' ∧
      t ≤ b'.distance) →
    (0 < dist → ∃ b', bs.getD ((idx + bs.length - 1) % bs.length) none = some b' ∧
      dist - 1 ≤ b'.distance) →
    (∃ t, t < fuel ∧ bs.getD ((idx + t) % bs.length) none = none) →
    (insertLoop fuel bs entry hash dist idx).length = bs.length ∧
    bucketEntries (insertLoop fuel bs entry hash dist idx) = entry ::ₘ bucketEntries bs ∧
    TableOk hashKey (insertLoop fuel bs entry hash dist idx) := by
  intro fuel
  induction fuel with
  | zero =>
    intro bs entry hash dist idx _ _ _ _ _ _ _ hempty
    obtain ⟨t, ht, _⟩ := hempty
    omega
  | succ fuel ih =>
    intro bs entry hash dist idx hn htbl hhash hfresh hidx hchain hpred hempty
    have hidxlt : idx < bs.length := by rw [hidx]; exact Nat.mod_lt _ hn
    cases hb : bs.getD idx none with
    | none =>
      rw [insertLoop_step_none fuel bs entry hash dist idx hb]
      have hdlt : dist < bs.length := carried_dist_lt bs hash dist hchain ⟨idx, hidxlt, hb⟩
      refine ⟨by simp, ?_, ?_⟩
      · have h0 := bucketEntries_set bs idx (some ⟨entry, hash, dist⟩) hidxlt
        rw [hb] at h0
        have h1 : bucketEntries (bs.set idx (some ⟨entry, hash, dist⟩)) =
            bucketEntries bs + {entry} := by simpa [entryOf] using h0
        rw [h1, add_comm, Multiset.singleton_add]
      · exact set_TableOk hashKey bs idx entry hash dist hidxlt htbl hhash hfresh hdlt
          hidx.symm hpred (by
            intro r hr
            rw [hb] at hr
            exact absurd hr (by simp))
    | some b =>
      obtain ⟨hho, hdo, hco, hku⟩ := htbl
      have hbDist := hdo idx b hidxlt hb
      obtain ⟨t0, ht0, hz⟩ := hempty
      have ht0pos : 0 < t0 := by
        rcases Nat.eq_zero_or_pos t0 with rfl | h
        · rw [Nat.add_zero, Nat.mod_eq_of_lt hidxlt] at hz
          exact absurd (hb.symm.trans hz) (by simp)
        · exact h
      have hposeq : ((idx + 1) % bs.length + (t0 - 1)) % bs.length =
          (idx + t0) % bs.length := by
        rw [Nat.mod_add_mod]
        congr 1
        omega
      by_cases hlt : b.distance < dist
      · rw [insertLoop_step_swap fuel bs entry hash dist idx b hb hlt]
        have hdlt : dist < bs.length := carried_dist_lt bs hash dist hchain
          ⟨(idx + t0) % bs.length, Nat.mod_lt _ hn, hz⟩
        have htbl1 : TableOk hashKey (bs.set idx (some ⟨entry, hash, dist⟩)) :=
          set_TableOk hashKey bs idx entry hash dist hidxlt ⟨hho, hdo, hco, hku⟩ hhash
            hfresh hdlt hidx.symm hpred (by
              intro r hr
              rw [hb] at hr
              cases Option.some.inj hr
              omega)
        have h1 : 0 < (bs.set idx (some ⟨entry, hash, dist⟩)).length := by
          simp only [List.length_set]
          exact hn
        have hfresh1 : ∀ i r, (bs.set idx (some ⟨entry, hash, dist⟩)).getD i none = some r →
            r.entry.key ≠ b.entry.key := by
          intro i r hr
          rcases eq_or_ne i idx with rfl | hne
          · rw [getD_set_self _ _ _ _ hidxlt] at hr
            cases Option.some.inj hr
            exact fun hc => (hfresh i b hb) hc.symm
          · rw [getD_set_ne _ _ _ _ _ (Ne.symm hne)] at hr
            have hil : i < bs.length := getD_some_lt bs i r hr
            exact hku i idx r b hil hidxlt hr hb hne
        have h5 : (idx + 1) % bs.length =
            (b.hash % (bs.set idx (some ⟨entry, hash, dist⟩)).length + (b.distance + 1)) %
              (bs.set idx (some ⟨entry, hash, dist⟩)).length := by
          simp only [List.length_set]
          rw [← hbDist.2, Nat.mod_add_mod, Nat.add_assoc]
        have h6 : ∀ t, t < b.distance + 1 →
            ∃ b', (bs.set idx (some ⟨entry, hash, dist⟩)).getD
              ((b.hash % (bs.set idx (some ⟨entry, hash, dist⟩)).length + t) %
                (bs.set idx (some ⟨entry, hash, dist⟩)).length) none = some b' ∧
              t ≤ b'.distance := by
          intro t ht
          simp only [List.length_set]
          obtain ⟨b', hb', htb'⟩ := chain_global bs hdo hco idx b hidxlt hb t (by omega)
          by_cases hpe : (b.hash % bs.length + t) % bs.length = idx
          · refine ⟨⟨entry, hash, dist⟩, ?_, ?_⟩
            · rw [hpe]
              exact getD_set_self _ _ _ _ hidxlt
            · show t ≤ dist
              omega
          · refine ⟨b', ?_, htb'⟩
            rw [getD_set_ne _ _ _ _ _ (by omega)]
            exact hb'
        have h7 : 0 < b.distance + 1 →
            ∃ b', (bs.set idx (some ⟨entry, hash, dist⟩)).getD
              (((idx + 1) % bs.length + (bs.set idx (some ⟨entry, hash, dist⟩)).length - 1) %
                (bs.set idx (some ⟨entry, hash, dist⟩)).length) none = some b' ∧
              b.distance + 1 - 1 ≤ b'.distance := by
          intro _
          simp only [List.length_set]
          rw [succ_pred_mod idx bs.length hn, Nat.mod_eq_of_lt hidxlt]
          refine ⟨⟨entry, hash, dist⟩, getD_set_self _ _ _ _ hidxlt, ?_⟩
          show b.distance + 1 - 1 ≤ dist
          omega
        have h8 : ∃ t, t < fuel ∧ (bs.set idx (some ⟨entry, hash, dist⟩)).getD
            (((idx + 1) % bs.length + t) % (bs.set idx (some ⟨entry, hash, dist⟩)).length)
              none = none := by
          refine ⟨t0 - 1, by omega, ?_⟩
          simp only [List.length_set]
          rw [hposeq]
          have hne : (idx + t0) % bs.length ≠ idx := by
            intro hcontra
            rw [hcontra] at hz
            exact absurd (hb.symm.trans hz) (by simp)
          rw [getD_set_ne _ _ _ _ _ (Ne.symm hne)]
          exact hz
        obtain ⟨hl1, he1, ht1⟩ := ih (bs.set idx (some ⟨entry, hash, dist⟩)) b.entry b.hash
          (b.distance + 1) ((idx + 1) % bs.length) h1 htbl1 (hho idx b hb) hfresh1 h5 h6 h7 h8
        refine ⟨by rw [hl1]; simp, ?_, ht1⟩
        rw [he1]
        have hset : bucketEntries (bs.set idx (some ⟨entry, hash, dist⟩)) + {b.entry} =
            bucketEntries bs + {entry} := by
          have h0 := bucketEntries_set bs idx (some ⟨entry, hash, dist⟩) hidxlt
          rw [hb] at h0
          simpa [entryOf] using h0
        rw [← Multiset.singleton_add, ← Multiset.singleton_add,
          add_comm ({b.entry} : Multiset Entry), add_comm ({entry} : Multiset Entry)]
        exact hset
      · rw [insertLoop_step_next fuel bs entry hash dist idx b hb hlt]
        have h5 : (idx + 1) % bs.length = (hash % bs.length + (dist + 1)) % bs.length := by
          rw [hidx, Nat.mod_add_mod, Nat.add_assoc]
        have h6 : ∀ t, t < dist + 1 →
            ∃ b', bs.getD ((hash % bs.length + t) % bs.length) none = some b' ∧
              t ≤ b'.distance := by
          intro t ht
          rcases Nat.lt_or_ge t dist with h | h
          · exact hchain t h
          · have hteq : t = dist := by omega
            subst hteq
            refine ⟨b, ?_, by omega⟩
            rw [← hidx]
            exact hb
        have h7 : 0 < dist + 1 →
            ∃ b', bs.getD (((idx + 1) % bs.length + bs.length - 1) % bs.length) none =
              some b' ∧ dist + 1 - 1 ≤ b'.distance := by
          intro _
          rw [succ_pred_mod idx bs.length hn, Nat.mod_eq_of_lt hidxlt]
          exact ⟨b, hb, by omega⟩
        have h8 : ∃ t, t < fuel ∧ bs.getD (((idx + 1) % bs.length + t) % bs.length)
            none = none := ⟨t0 - 1, by omega, by rw [hposeq]; exact hz⟩
        exact ih bs entry hash (dist + 1) ((idx + 1) % bs.length) hn ⟨hho, hdo, hco, hku⟩
          hhash hfresh h5 h6 h7 h8

/-- Fewer entries than buckets leaves an empty bucket. -/
theorem exists_empty_of_card_lt (bs : List Bucket)
    (h : Multiset.card (bucketEntries bs) < bs.length) :
    ∃ z, z < bs.length ∧ bs.getD z none = none := by
  induction bs with
  | nil => simp at h
  | cons x xs ih =>
    cases x with
    | none => exact ⟨0, by simp, by simp⟩
    | some xb =>
      rw [bucketEntries_cons] at h
      simp only [entryOf, Multiset.card_add, Multiset.card_singleton,
        List.length_cons] at h
      obtain ⟨z, hz, hnone⟩ := ih (by omega)
      exact ⟨z + 1, by simpa using hz, by simpa using hnone⟩

/-- Every slot is reachable from any start by an offset below the capacity. -/
theorem offset_to (idx z n : Nat) (hn : 0 < n) (_hidx : idx < n) (hz : z < n) :
    ∃ t, t < n ∧ (idx + t) % n = z := by
  refine ⟨(n + z - idx) % n, Nat.mod_lt _ hn, ?_⟩
  rw [mod_cases (n + z - idx) n hn (by omega)]
  split
  · rw [show idx + (n + z - idx) = n + z by omega, Nat.add_comm n z, Nat.add_mod_right]
    exact Nat.mod_eq_of_lt hz
  · rw [show idx + (n + z - idx - n) = z by omega]
    exact Nat.mod_eq_of_lt hz

/-- Map.insertInternal with a fresh key on a non-full table: one more item,
the entry added to the contents, invariants and the remaining fields kept. -/
theorem insertInternal_spec (hashKey : Key → Nat) (m : Map) (entry : Entry) (hash : Nat)
    (hn : 0 < m.buckets.length)
    (htbl : TableOk hashKey m.buckets)
    (hcount : Multiset.card (bucketEntries m.buckets) < m.buckets.length)
    (hhash : hash = hashKey entry.key)
    (hfresh : ∀ i b, m.buckets.getD i none = some b → b.entry.key ≠ entry.key) :
    (m.insertInternal entry hash).buckets.length = m.buckets.length ∧
    bucketEntries (m.insertInternal entry hash).buckets = entry ::ₘ bucketEntries m.buckets ∧
    TableOk hashKey (m.insertInternal entry hash).buckets ∧
    (m.insertInternal entry hash).numItems = m.numItems + 1 ∧
    (m.insertInternal entry hash).mask = m.mask ∧
    (m.insertInternal entry hash).growAt = m.growAt ∧
    (m.insertInternal entry hash).shrinkAt = m.shrinkAt := by
  obtain ⟨z, hzlt, hznone⟩ := exists_empty_of_card_lt m.buckets hcount
  have hidxlt : hash % m.buckets.length < m.buckets.length := Nat.mod_lt _ hn
  obtain ⟨t, htlt, hteq⟩ := offset_to (hash % m.buckets.length) z m.buckets.length hn
    hidxlt hzlt
  have hspec := insertLoop_spec hashKey m.buckets.length m.buckets entry hash 0
    (hash % m.buckets.length) hn htbl hhash hfresh (by simp)
    (fun t ht => absurd ht (by omega)) (fun h => absurd h (by omega))
    ⟨t, htlt, by rw [hteq]; exact hznone⟩
  exact ⟨hspec.1, hspec.2.1, hspec.2.2, rfl, rfl, rfl, rfl⟩

/-- Lookup completeness: under the table invariants, the walk started at an
entry's home bucket with at least `capacity` fuel reaches the entry. -/
theorem lookupLoop_finds (hashKey : Key → Nat) (bs : List Bucket)
    (htbl : TableOk hashKey bs) (key : Key) (fuel j : Nat) (b : BucketE)
    (hj : j < bs.length) (hb : bs.getD j none = some b) (hkey : b.entry.key = key)
    (hfuel : bs.length ≤ fuel) :
    lookupLoop b.hash key fuel bs (b.hash % bs.length) 0 = some (b.entry, j) := by
  obtain ⟨hho, hdo, hco, hku⟩ := htbl
  have hn : 0 < bs.length := by omega
  obtain ⟨hDlt, hDpos⟩ := hdo j b hj hb
  suffices H : ∀ r d fuel2, d + r = b.distance → b.distance - d < fuel2 →
      lookupLoop b.hash key fuel2 bs ((b.hash % bs.length + d) % bs.length) d =
        some (b.entry, j) by
    simpa using H b.distance 0 fuel (by omega) (by omega)
  intro r
  induction r with
  | zero =>
    intro d fuel2 hd hfuel2
    have hdD : d = b.distance := by omega
    subst hdD
    obtain ⟨fuel3, rfl⟩ : ∃ f3, fuel2 = f3 + 1 := ⟨fuel2 - 1, by omega⟩
    rw [hDpos, lookupLoop_step_some _ _ _ _ _ _ b hb, if_neg (by omega),
      if_pos ⟨rfl, hkey⟩]
  | succ r ih =>
    intro d fuel2 hd hfuel2
    obtain ⟨fuel3, rfl⟩ : ∃ f3, fuel2 = f3 + 1 := ⟨fuel2 - 1, by omega⟩
    obtain ⟨b', hb', hdb'⟩ := chain_global bs hdo hco j b hj hb d (by omega)
    rw [lookupLoop_step_some _ _ _ _ _ _ b' hb']
    have hne : (b.hash % bs.length + d) % bs.length ≠ j := by
      rw [← hDpos]
      exact mod_add_ne (b.hash % bs.length) d b.distance bs.length hn (by omega)
        (by omega) (by omega)
    have hkne : b'.entry.key ≠ key := by
      intro hk
      exact hku _ j b' b (Nat.mod_lt _ hn) hj hb' hb hne (hk.trans hkey.symm)
    rw [if_neg (by omega), if_neg (by intro hc; exact hkne hc.2)]
    have hpos : ((b.hash % bs.length + d) % bs.length + 1) % bs.length =
        (b.hash % bs.length + (d + 1)) % bs.length := by
      rw [Nat.mod_add_mod, Nat.add_assoc]
    rw [hpos]
    exact ih (d + 1) fuel3 (by omega) (by omega)

/-- An entry stored in the table is found by Map.lookup at the key's hash. -/
theorem lookup_mem (hashKey : Key → Nat) (m : Map) (key : Key) (e : Entry)
    (htbl : TableOk hashKey m.buckets) (hmem : e ∈ bucketEntries m.buckets)
    (hkey : e.key = key) :
    ∃ j b, m.lookup key (hashKey key) = some (e, j) ∧ j < m.buckets.length ∧
      m.buckets.getD j none = some b ∧ b.entry = e := by
  obtain ⟨j, b, hj, hb, hbe⟩ := getD_of_mem_bucketEntries m.buckets e hmem
  have hbh : b.hash = hashKey key := by
    rw [htbl.1 j b hb, hbe, hkey]
  have h := lookupLoop_finds hashKey m.buckets htbl key m.buckets.length j b hj hb
    (by rw [hbe, hkey]) (le_refl _)
  refine ⟨j, b, ?_, hj, hb, hbe⟩
  show lookupLoop (hashKey key) key m.buckets.length m.buckets
    (hashKey key % m.buckets.length) 0 = some (e, j)
  rw [← hbh, h, hbe]

/-- A key held by no entry of the table is a lookup miss at every hash. -/
theorem lookup_none_of_fresh (m : Map) (key : Key) (hash : Nat)
    (hfresh : ∀ e ∈ bucketEntries m.buckets, e.key ≠ key) :
    m.lookup key hash = none := by
  cases hlk : m.lookup key hash with
  | none => rfl
  | some p =>
    obtain ⟨e, i⟩ := p
    obtain ⟨hekey, b, hb, hbe, _⟩ := lookupLoop_found hash key m.buckets.length m.buckets
      (m.maskIdx hash) 0 e i hlk
    have hmem := mem_bucketEntries_of_getD m.buckets i b hb
    have hne := hfresh b.entry hmem
    rw [hbe] at hne
    exact absurd hekey hne

/-- The chain invariant at every bucket except one (the successor of a
freshly made hole during the backward-shift of delete). -/
def ChainOkExcept (bs : List Bucket) (j : Nat) : Prop :=
  ∀ i b, i < bs.length → i ≠ j → bs.getD i none = some b → 0 < b.distance →
    ∃ b', bs.getD ((i + bs.length - 1) % bs.length) none = some b' ∧
      b.distance - 1 ≤ b'.distance

/-- What survives of the chain invariant across the hole: a successor at
distance two or more is still backed by the bucket before the hole. -/
def HoleWeak (bs : List Bucket) (idx : Nat) : Prop :=
  ∀ b, bs.getD ((idx + 1) % bs.length) none = some b → 2 ≤ b.distance →
    ∃ b', bs.getD ((idx + bs.length - 1) % bs.length) none = some b' ∧
      b.distance - 2 ≤ b'.distance

theorem shiftLoop_step_none (fuel : Nat) (bs : List Bucket) (idx : Nat)
    (hb : bs.getD ((idx + 1) % bs.length) none = none) :
    shiftLoop (fuel + 1) bs idx = bs := by
  rw [shiftLoop]
  simp only [hb]

theorem shiftLoop_step_zero (fuel : Nat) (bs : List Bucket) (idx : Nat) (b : BucketE)
    (hb : bs.getD ((idx + 1) % bs.length) none = some b) (hz : ¬ b.distance > 0) :
    shiftLoop (fuel + 1) bs idx = bs := by
  rw [shiftLoop]
  simp only [hb]
  simp [hz]

theorem shiftLoop_step_move (fuel : Nat) (bs : List Bucket) (idx : Nat) (b : BucketE)
    (hb : bs.getD ((idx + 1) % bs.length) none = some b) (hz : b.distance > 0) :
    shiftLoop (fuel + 1) bs idx =
      shiftLoop fuel ((bs.set idx (some { b with distance := b.distance - 1 })).set
        ((idx + 1) % bs.length) none) ((idx + 1) % bs.length) := by
  rw [shiftLoop]
  simp only [hb]
  simp [hz]

/-- The backward-shift walk of delete: started at a hole whose invariants
hold everywhere but across the hole (`ChainOkExcept`/`HoleWeak`), with an
empty bucket strictly ahead within the fuel, it keeps the length and the
contents and restores the full table invariants. -/
theorem shiftLoop_spec (hashKey : Key → Nat) : ∀ (fuel : Nat) (bs : List Bucket) (idx : Nat),
    1 < bs.length → idx < bs.length → bs.getD idx none = none →
    HashOk hashKey bs → DistOk bs → KeysUniq bs →
    ChainOkExcept bs ((idx + 1) % bs.length) → HoleWeak bs idx →
    (∃ t, 1 ≤ t ∧ t < fuel ∧ t < bs.length ∧ bs.getD ((idx + t) % bs.length) none = none) →
    (shiftLoop fuel bs idx).length = bs.length ∧
    bucketEntries (shiftLoop fuel bs idx) = bucketEntries bs ∧
    TableOk hashKey (shiftLoop fuel bs idx) := by
  intro fuel
  induction fuel with
  | zero =>
    intro bs idx _ _ _ _ _ _ _ _ hstop
    obtain ⟨t, _, ht, _, _⟩ := hstop
    omega
  | succ fuel ih =>
    intro bs idx hn1 hidx hhole hho hdo hku hce hw hstop
    have hn0 : 0 < bs.length := by omega
    have hnIlt : (idx + 1) % bs.length < bs.length := Nat.mod_lt _ hn0
    have hnI : (idx + 1) % bs.length ≠ idx := by
      have h := mod_add_ne idx 1 0 bs.length hn0 (by omega) (by omega) (by omega)
      simp only [Nat.add_zero, Nat.mod_eq_of_lt hidx] at h
      exact h
    cases hb : bs.getD ((idx + 1) % bs.length) none with
    | none =>
      rw [shiftLoop_step_none fuel bs idx hb]
      refine ⟨rfl, rfl, hho, hdo, ?_, hku⟩
      intro i c hi hc hcd
      rcases eq_or_ne i ((idx + 1) % bs.length) with rfl | hne
      · rw [hb] at hc
        exact absurd hc (by simp)
      · exact hce i c hi hne hc hcd
    | some b =>
      by_cases hz : b.distance > 0
      · rw [shiftLoop_step_move fuel bs idx b hb hz]
        have hbD := hdo ((idx + 1) % bs.length) b hnIlt hb
        have hlen2 : ((bs.set idx (some { b with distance := b.distance - 1 })).set
            ((idx + 1) % bs.length) none).length = bs.length := by simp
        have hg_idx : ((bs.set idx (some { b with distance := b.distance - 1 })).set
            ((idx + 1) % bs.length) none).getD idx none =
              some { b with distance := b.distance - 1 } := by
          rw [getD_set_ne _ _ _ _ _ hnI, getD_set_self _ _ _ _ hidx]
        have hg_nI : ((bs.set idx (some { b with distance := b.distance - 1 })).set
            ((idx + 1) % bs.length) none).getD ((idx + 1) % bs.length) none = none :=
          getD_set_self _ _ _ _ (by simpa using hnIlt)
        have hg_other : ∀ p, p ≠ idx → p ≠ (idx + 1) % bs.length →
            ((bs.set idx (some { b with distance := b.distance - 1 })).set
              ((idx + 1) % bs.length) none).getD p none = bs.getD p none := by
          intro p h1 h2
          rw [getD_set_ne _ _ _ _ _ (Ne.symm h2), getD_set_ne _ _ _ _ _ (Ne.symm h1)]
        have hmv : (b.hash % bs.length + (b.distance - 1)) % bs.length = idx := by
          have hx : (b.hash % bs.length + (b.distance - 1) + 1) % bs.length =
              (idx + 1) % bs.length := by
            rw [show b.hash % bs.length + (b.distance - 1) + 1 =
              b.hash % bs.length + b.distance by omega]
            exact hbD.2
          rw [← Nat.mod_eq_of_lt hidx, ← succ_pred_mod idx bs.length hn0, ← hx,
            succ_pred_mod _ bs.length hn0]
        have hho2 : HashOk hashKey ((bs.set idx (some { b with distance := b.distance - 1 })).set
            ((idx + 1) % bs.length) none) := by
          intro i c hc
          rcases eq_or_ne i idx with rfl | h1
          · rw [hg_idx] at hc
            cases Option.some.inj hc
            exact hho _ b hb
          · rcases eq_or_ne i ((idx + 1) % bs.length) with rfl | h2
            · rw [hg_nI] at hc
              exact absurd hc (by simp)
            · rw [hg_other i h1 h2] at hc
              exact hho i c hc
        have hdo2 : DistOk ((bs.set idx (some { b with distance := b.distance - 1 })).set
            ((idx + 1) % bs.length) none) := by
          intro i c hi hc
          rw [hlen2] at hi
          rw [hlen2]
          rcases eq_or_ne i idx with rfl | h1
          · rw [hg_idx] at hc
            cases Option.some.inj hc
            exact ⟨(by omega : b.distance - 1 < bs.length), hmv⟩
          · rcases eq_or_ne i ((idx + 1) % bs.length) with rfl | h2
            · rw [hg_nI] at hc
              exact absurd hc (by simp)
            · rw [hg_other i h1 h2] at hc
              exact hdo i c hi hc
        have hku2 : KeysUniq ((bs.set idx (some { b with distance := b.distance - 1 })).set
            ((idx + 1) % bs.length) none) := by
          intro i j ci cj hi hj hci hcj hij
          rw [hlen2] at hi hj
          rcases eq_or_ne i ((idx + 1) % bs.length) with rfl | hi2
          · rw [hg_nI] at hci
            exact absurd hci (by simp)
          rcases eq_or_ne j ((idx + 1) % bs.length) with rfl | hj2
          · rw [hg_nI] at hcj
            exact absurd hcj (by simp)
          rcases eq_or_ne i idx with rfl | hi1
          · rw [hg_idx] at hci
            cases Option.some.inj hci
            rw [hg_other j (Ne.symm hij) hj2] at hcj
            exact hku _ j b cj hnIlt hj hb hcj (Ne.symm hj2)
          rcases eq_or_ne j idx with rfl | hj1
          · rw [hg_idx] at hcj
            cases Option.some.inj hcj
            rw [hg_other i hi1 hi2] at hci
            exact hku i _ ci b hi hnIlt hci hb hi2
          · rw [hg_other i hi1 hi2] at hci
            rw [hg_other j hj1 hj2] at hcj
            exact hku i j ci cj hi hj hci hcj hij
        have hce2 : ChainOkExcept
            ((bs.set idx (some { b with distance := b.distance - 1 })).set
              ((idx + 1) % bs.length) none)
            (((idx + 1) % bs.length + 1) %
              ((bs.set idx (some { b with distance := b.distance - 1 })).set
                ((idx + 1) % bs.length) none).length) := by
          intro i c hi hij hc hcd
          rw [hlen2] at hi hij
          rw [hlen2]
          rcases eq_or_ne i ((idx + 1) % bs.length) with rfl | h2
          · rw [hg_nI] at hc
            exact absurd hc (by simp)
          by_cases h1 : i = idx
          · rw [h1] at hc
            rw [h1]
            rw [hg_idx] at hc
            cases Option.some.inj hc
            have hcd2 : 2 ≤ b.distance := by
              have h3 : 0 < b.distance - 1 := hcd
              omega
            obtain ⟨b', hb', hd'⟩ := hw b hb hcd2
            by_cases hpp2 : (idx + bs.length - 1) % bs.length = (idx + 1) % bs.length
            · have h2len : bs.length - 1 = 1 := by
                by_contra hq
                exact (mod_add_ne idx (bs.length - 1) 1 bs.length hn0 (by omega) (by omega) hq)
                  (by rw [show idx + (bs.length - 1) = idx + bs.length - 1 by omega]; exact hpp2)
              omega
            · have hpp1 : (idx + bs.length - 1) % bs.length ≠ idx := by
                intro hq
                have h4 := mod_add_ne idx (bs.length - 1) 0 bs.length hn0 (by omega) (by omega)
                  (by omega)
                rw [show idx + (bs.length - 1) = idx + bs.length - 1 by omega] at h4
                simp only [Nat.add_zero, Nat.mod_eq_of_lt hidx] at h4
                exact h4 hq
              refine ⟨b', ?_, ?_⟩
              · rw [hg_other _ hpp1 hpp2]
                exact hb'
              · show b.distance - 1 - 1 ≤ b'.distance
                omega
          · rw [hg_other i h1 h2] at hc
            have hp1 : (i + bs.length - 1) % bs.length ≠ idx := by
              intro hq
              exact h2 ((pred_eq_iff i idx bs.length hn0 hi hidx).mp hq)
            have hp2 : (i + bs.length - 1) % bs.length ≠ (idx + 1) % bs.length := by
              intro hq
              exact hij ((pred_eq_iff i ((idx + 1) % bs.length) bs.length hn0 hi hnIlt).mp hq)
            obtain ⟨b', hb', hd'⟩ := hce i c hi h2 hc hcd
            refine ⟨b', ?_, hd'⟩
            rw [hg_other _ hp1 hp2]
            exact hb'
        have hw2 : HoleWeak ((bs.set idx (some { b with distance := b.distance - 1 })).set
            ((idx + 1) % bs.length) none) ((idx + 1) % bs.length) := by
          intro c hc hcd
          rw [hlen2] at hc ⊢
          have hpredI : ((idx + 1) % bs.length + bs.length - 1) % bs.length = idx := by
            rw [succ_pred_mod idx bs.length hn0]
            exact Nat.mod_eq_of_lt hidx
          rw [hpredI, hg_idx]
          refine ⟨{ b with distance := b.distance - 1 }, rfl, ?_⟩
          by_cases hq : ((idx + 1) % bs.length + 1) % bs.length = idx
          · rw [hq, hg_idx] at hc
            cases Option.some.inj hc
            show b.distance - 1 - 2 ≤ b.distance - 1
            omega
          · by_cases hq2 : ((idx + 1) % bs.length + 1) % bs.length = (idx + 1) % bs.length
            · rw [hq2, hg_nI] at hc
              exact absurd hc (by simp)
            · rw [hg_other _ hq hq2] at hc
              have hnnlt : ((idx + 1) % bs.length + 1) % bs.length < bs.length :=
                Nat.mod_lt _ hn0
              obtain ⟨c', hc', hd'⟩ := hce _ c hnnlt hq2 hc (by omega)
              have hpn : (((idx + 1) % bs.length + 1) % bs.length + bs.length - 1) %
                  bs.length = (idx + 1) % bs.length := by
                rw [succ_pred_mod _ bs.length hn0]
                exact Nat.mod_eq_of_lt hnIlt
              rw [hpn, hb] at hc'
              cases Option.some.inj hc'
              show c.distance - 2 ≤ b.distance - 1
              omega
        have hstop2 : ∃ t, 1 ≤ t ∧ t < fuel ∧
            t < ((bs.set idx (some { b with distance := b.distance - 1 })).set
              ((idx + 1) % bs.length) none).length ∧
            ((bs.set idx (some { b with distance := b.distance - 1 })).set
              ((idx + 1) % bs.length) none).getD
              (((idx + 1) % bs.length + t) %
                ((bs.set idx (some { b with distance := b.distance - 1 })).set
                  ((idx + 1) % bs.length) none).length) none = none := by
          obtain ⟨t, ht1, htf, htn, htnone⟩ := hstop
          have ht2 : 2 ≤ t := by
            rcases Nat.eq_or_lt_of_le ht1 with h | h
            · exfalso
              rw [← h] at htnone
              exact absurd (hb.symm.trans htnone) (by simp)
            · omega
          refine ⟨t - 1, by omega, by omega, by rw [hlen2]; omega, ?_⟩
          rw [hlen2, Nat.mod_add_mod, show idx + 1 + (t - 1) = idx + t by omega]
          have hne1 : (idx + t) % bs.length ≠ idx := by
            have h4 := mod_add_ne idx t 0 bs.length hn0 htn (by omega) (by omega)
            simp only [Nat.add_zero, Nat.mod_eq_of_lt hidx] at h4
            exact h4
          have hne2 : (idx + t) % bs.length ≠ (idx + 1) % bs.length :=
            mod_add_ne idx t 1 bs.length hn0 htn (by omega) (by omega)
          rw [hg_other _ hne1 hne2]
          exact htnone
        obtain ⟨hl2, he2, ht2⟩ := ih
          ((bs.set idx (some { b with distance := b.distance - 1 })).set
            ((idx + 1) % bs.length) none) ((idx + 1) % bs.length)
          (by rw [hlen2]; exact hn1) (by rw [hlen2]; exact hnIlt) hg_nI hho2 hdo2 hku2
          hce2 hw2 hstop2
        refine ⟨by rw [hl2, hlen2], ?_, ht2⟩
        rw [he2]
        have e1 := bucketEntries_set bs idx (some { b with distance := b.distance - 1 }) hidx
        rw [hhole] at e1
        have e1' : bucketEntries (bs.set idx (some { b with distance := b.distance - 1 })) =
            bucketEntries bs + {b.entry} := by simpa [entryOf] using e1
        have hb1nI : (bs.set idx (some { b with distance := b.distance - 1 })).getD
            ((idx + 1) % bs.length) none = some b := by
          rw [getD_set_ne _ _ _ _ _ (Ne.symm hnI)]
          exact hb
        have e2 := bucketEntries_set (bs.set idx (some { b with distance := b.distance - 1 }))
          ((idx + 1) % bs.length) none (by simpa using hnIlt)
        rw [hb1nI] at e2
        have e2' : bucketEntries ((bs.set idx (some { b with distance := b.distance - 1 })).set
            ((idx + 1) % bs.length) none) + {b.entry} =
            bucketEntries (bs.set idx (some { b with distance := b.distance - 1 })) := by
          simpa [entryOf] using e2
        rw [e1'] at e2'
        exact add_right_cancel e2'
      · rw [shiftLoop_step_zero fuel bs idx b hb hz]
        refine ⟨rfl, rfl, hho, hdo, ?_, hku⟩
        intro i c hi hc hcd
        rcases eq_or_ne i ((idx + 1) % bs.length) with rfl | hne
        · rw [hb] at hc
          cases Option.some.inj hc
          omega
        · exact hce i c hi hne hc hcd

theorem keysUniq_tail (x : Bucket) (xs : List Bucket) (hku : KeysUniq (x :: xs)) :
    KeysUniq xs := by
  intro i j bi bj hi hj hbi hbj hne
  exact hku (i + 1) (j + 1) bi bj (by simpa using hi) (by simpa using hj)
    (by simpa using hbi) (by simpa using hbj) (by omega)

/-- Pairwise-distinct keys over slots collapse to a duplicate-free key
multiset of the contents. -/
theorem keys_nodup_of_keysUniq : ∀ (bs : List Bucket), KeysUniq bs →
    ((bucketEntries bs).map Entry.key).Nodup := by
  intro bs
  induction bs with
  | nil => intro _; simp [bucketEntries_nil]
  | cons x xs ih =>
    intro hku
    have hxs := keysUniq_tail x xs hku
    cases x with
    | none =>
      rw [bucketEntries_cons]
      simpa [entryOf] using ih hxs
    | some xb =>
      rw [bucketEntries_cons]
      simp only [entryOf]
      rw [Multiset.singleton_add, Multiset.map_cons, Multiset.nodup_cons]
      refine ⟨?_, ih hxs⟩
      intro hmem
      rw [Multiset.mem_map] at hmem
      obtain ⟨e, he, hek⟩ := hmem
      obtain ⟨j, b', hj, hb', hbe⟩ := getD_of_mem_bucketEntries xs e he
      have hne := hku 0 (j + 1) xb b' (by simp) (by simpa using hj) (by simp)
        (by simpa using hb') (by omega)
      rw [hbe] at hne
      exact hne hek.symm

theorem fresh_of_key_not_mem (bs : List Bucket) (key : Key)
    (h : key ∉ (bucketEntries bs).map Entry.key) :
    ∀ i b, bs.getD i none = some b → b.entry.key ≠ key := by
  intro i b hb hc
  exact h (by
    rw [← hc]
    exact Multiset.mem_map_of_mem _ (mem_bucketEntries_of_getD bs i b hb))

theorem bucketEntries_replicate (n : Nat) : bucketEntries (List.replicate n none) = 0 := by
  induction n with
  | zero => rfl
  | succ n ih =>
    rw [List.replicate_succ, bucketEntries_cons, ih]
    simp [entryOf]


/-- The loop body of Map.resize: skip empty buckets, reinsert live entries
with their cached hash. -/
def resizeStep (a : Map) (b : Bucket) : Map :=
  match b with
  | none => a
  | some be => a.insertInternal be.entry be.hash

/-- Map.resize is the fold of `resizeStep` over the old array from the
fresh table. -/
theorem resize_eq_foldl (m : Map) (newSize : Nat) :
    m.resize newSize = List.foldl resizeStep
      { buckets := List.replicate newSize none
        numItems := 0
        mask := newSize - 1
        growAt := newSize * 3 / 4
        shrinkAt := newSize / 10 } m.buckets := rfl

/-- The reinsertion fold of Map.resize: starting from a table with room for
all remaining entries, correct cached hashes and globally distinct keys, it
accumulates exactly the source contents and preserves the invariants. -/
theorem resizeFold_spec (hashKey : Key → Nat) : ∀ (l : List Bucket) (acc : Map),
    0 < acc.buckets.length →
    TableOk hashKey acc.buckets →
    acc.numItems = Multiset.card (bucketEntries acc.buckets) →
    Multiset.card (bucketEntries acc.buckets) + Multiset.card (bucketEntries l) ≤
      acc.buckets.length →
    (∀ i b, l.getD i none = some b → b.hash = hashKey b.entry.key) →
    ((bucketEntries acc.buckets + bucketEntries l).map Entry.key).Nodup →
    (List.foldl resizeStep acc l).buckets.length = acc.buckets.length ∧
    bucketEntries (List.foldl resizeStep acc l).buckets =
      bucketEntries acc.buckets + bucketEntries l ∧
    TableOk hashKey (List.foldl resizeStep acc l).buckets ∧
    (List.foldl resizeStep acc l).numItems =
      acc.numItems + Multiset.card (bucketEntries l) ∧
    (List.foldl resizeStep acc l).mask = acc.mask ∧
    (List.foldl resizeStep acc l).growAt = acc.growAt ∧
    (List.foldl resizeStep acc l).shrinkAt = acc.shrinkAt := by
  intro l
  induction l with
  | nil =>
    intro acc _ h2 _ _ _ _
    refine ⟨rfl, by simp [bucketEntries_nil], h2, by simp [bucketEntries_nil], rfl, rfl, rfl⟩
  | cons x xs ih =>
    intro acc h1 h2 h3 h4 h5 h6
    rw [List.foldl_cons]
    cases x with
    | none =>
      rw [show resizeStep acc none = acc from rfl]
      have hbn : bucketEntries (none :: xs) = bucketEntries xs := by
        rw [bucketEntries_cons]
        simp [entryOf]
      rw [hbn] at h4 h6 ⊢
      exact ih acc h1 h2 h3 h4 (fun i b hb => h5 (i + 1) b (by simpa using hb)) h6
    | some be =>
      rw [show resizeStep acc (some be) = acc.insertInternal be.entry be.hash from rfl]
      have hbs : bucketEntries (some be :: xs) = be.entry ::ₘ bucketEntries xs := by
        rw [bucketEntries_cons]
        simp only [entryOf]
        rw [Multiset.singleton_add]
      rw [hbs] at h4 h6 ⊢
      have hbe_hash : be.hash = hashKey be.entry.key := h5 0 be (by simp)
      have hcount : Multiset.card (bucketEntries acc.buckets) < acc.buckets.length := by
        rw [Multiset.card_cons] at h4
        omega
      have hre : (bucketEntries acc.buckets + (be.entry ::ₘ bucketEntries xs)).map Entry.key =
          be.entry.key ::ₘ ((bucketEntries acc.buckets + bucketEntries xs).map Entry.key) := by
        rw [Multiset.add_cons, Multiset.map_cons]
      have h6' := h6
      rw [hre, Multiset.nodup_cons] at h6'
      have hfresh : ∀ i b, acc.buckets.getD i none = some b →
          b.entry.key ≠ be.entry.key := by
        apply fresh_of_key_not_mem
        intro hmem
        apply h6'.1
        rw [Multiset.map_add]
        exact Multiset.mem_add.mpr (Or.inl hmem)
      obtain ⟨hLen, hEnt, hTab, hNum, hMask, hGrow, hShr⟩ :=
        insertInternal_spec hashKey acc be.entry be.hash h1 h2 hcount hbe_hash hfresh
      have ih1 : 0 < (acc.insertInternal be.entry be.hash).buckets.length := by
        rw [hLen]
        exact h1
      have ih3 : (acc.insertInternal be.entry be.hash).numItems =
          Multiset.card (bucketEntries (acc.insertInternal be.entry be.hash).buckets) := by
        rw [hNum, hEnt, Multiset.card_cons, h3]
      have ih4 : Multiset.card (bucketEntries (acc.insertInternal be.entry be.hash).buckets) +
          Multiset.card (bucketEntries xs) ≤
          (acc.insertInternal be.entry be.hash).buckets.length := by
        rw [hEnt, hLen, Multiset.card_cons]
        rw [Multiset.card_cons] at h4
        omega
      have ih5 : ∀ i b, xs.getD i none = some b → b.hash = hashKey b.entry.key :=
        fun i b hb => h5 (i + 1) b (by simpa using hb)
      have ih6 : ((bucketEntries (acc.insertInternal be.entry be.hash).buckets +
          bucketEntries xs).map Entry.key).Nodup := by
        rw [hEnt, Multiset.cons_add, Multiset.map_cons]
        rw [hre] at h6
        exact h6
      obtain ⟨hLen2, hEnt2, hTab2, hNum2, hMask2, hGrow2, hShr2⟩ :=
        ih (acc.insertInternal be.entry be.hash) ih1 hTab ih3 ih4 ih5 ih6
      refine ⟨?_, ?_, hTab2, ?_, ?_, ?_, ?_⟩
      · rw [hLen2, hLen]
      · rw [hEnt2, hEnt, Multiset.cons_add, Multiset.add_cons]
      · rw [hNum2, hNum, Multiset.card_cons]
        omega
      · rw [hMask2, hMask]
      · rw [hGrow2, hGrow]
      · rw [hShr2, hShr]

/-- Map.resize to a size with room for all entries: a table of exactly the
requested size with the same contents, a recomputed item count and
thresholds, and the invariants restored. -/
theorem resize_spec (hashKey : Key → Nat) (m : Map) (newSize : Nat)
    (hns : 0 < newSize)
    (htbl : TableOk hashKey m.buckets)
    (hcard : Multiset.card (bucketEntries m.buckets) ≤ newSize) :
    (m.resize newSize).buckets.length = newSize ∧
    bucketEntries (m.resize newSize).buckets = bucketEntries m.buckets ∧
    TableOk hashKey (m.resize newSize).buckets ∧
    (m.resize newSize).numItems = Multiset.card (bucketEntries m.buckets) ∧
    (m.resize newSize).mask = newSize - 1 ∧
    (m.resize newSize).growAt = newSize * 3 / 4 ∧
    (m.resize newSize).shrinkAt = newSize / 10 := by
  have hinit_tbl : TableOk hashKey (List.replicate newSize none) := by
    refine ⟨?_, ?_, ?_, ?_⟩
    · intro i b hb
      rw [getD_replicate_none] at hb
      exact absurd hb (by simp)
    · intro i b _ hb
      rw [getD_replicate_none] at hb
      exact absurd hb (by simp)
    · intro i b _ hb
      rw [getD_replicate_none] at hb
      exact absurd hb (by simp)
    · intro i j bi bj _ _ hbi _ _
      rw [getD_replicate_none] at hbi
      exact absurd hbi (by simp)
  obtain ⟨hLen, hEnt, hTab, hNum, hMask, hGrow, hShr⟩ := resizeFold_spec hashKey m.buckets
    { buckets := List.replicate newSize none
      numItems := 0
      mask := newSize - 1
      growAt := newSize * 3 / 4
      shrinkAt := newSize / 10 }
    (by simpa using hns) hinit_tbl (by simp [bucketEntries_replicate])
    (by simp [bucketEntries_replicate]; omega) (fun i b hb => htbl.1 i b hb)
    (by simp [bucketEntries_replicate]; exact keys_nodup_of_keysUniq m.buckets htbl.2.2.2)
  rw [resize_eq_foldl]
  refine ⟨by rw [hLen]; simp, ?_, hTab, ?_, by rw [hMask], by rw [hGrow], by rw [hShr]⟩
  · rw [hEnt]
    simp [bucketEntries_replicate]
  · rw [hNum]
    simp [bucketEntries_replicate]

/-- The map invariants of part_003 (types.go NewMap): capacity a power of
two and at least 16, mask/growAt/shrinkAt derived from it, the item count
is the number of stored entries and stays below the capacity, and the
per-bucket Robin-Hood invariants hold. -/
structure MapInv (hashKey : Key → Nat) (m : Map) : Prop where
  cap_pow2 : ∃ k, m.buckets.length = 2 ^ k
  cap_ge16 : 16 ≤ m.buckets.length
  mask_eq : m.mask = m.buckets.length - 1
  grow_eq : m.growAt = m.buckets.length * 3 / 4
  shrink_eq : m.shrinkAt = m.buckets.length / 10
  count_eq : m.numItems = Multiset.card (bucketEntries m.buckets)
  count_lt : m.numItems < m.buckets.length
  table_ok : TableOk hashKey m.buckets

theorem tableOk_replicate (hashKey : Key → Nat) (n : Nat) :
    TableOk hashKey (List.replicate n none) := by
  refine ⟨?_, ?_, ?_, ?_⟩
  · intro i b hb
    rw [getD_replicate_none] at hb
    exact absurd hb (by simp)
  · intro i b _ hb
    rw [getD_replicate_none] at hb
    exact absurd hb (by simp)
  · intro i b _ hb
    rw [getD_replicate_none] at hb
    exact absurd hb (by simp)
  · intro i j bi bj _ _ hbi _ _
    rw [getD_replicate_none] at hbi
    exact absurd hbi (by simp)

theorem NewMap16_eq : NewMap 16 =
    { buckets := List.replicate 16 none, numItems := 0, mask := 15
      growAt := 12, shrinkAt := 1 } := rfl

/-- The fresh 16-bucket map satisfies the invariants. -/
theorem NewMap16_inv (hashKey : Key → Nat) : MapInv hashKey (NewMap 16) := by
  rw [NewMap16_eq]
  refine ⟨⟨4, by simp⟩, by simp, by simp, by simp, by simp, ?_, by simp, ?_⟩
  · rw [show bucketEntries (List.replicate 16 none) = 0 from bucketEntries_replicate 16]
    rfl
  · exact tableOk_replicate hashKey 16

/-- Map.get returns exactly the entries stored under the key. -/
theorem get_iff (hashKey : Key → Nat) (m : Map) (k : Key) (e : Entry)
    (htbl : TableOk hashKey m.buckets) :
    m.get hashKey k = some e ↔ e ∈ bucketEntries m.buckets ∧ e.key = k := by
  constructor
  · intro h
    unfold Map.get at h
    cases hlk : m.lookup k (hashKey k) with
    | none => rw [hlk] at h; exact absurd h (by simp)
    | some p =>
      rw [hlk] at h
      obtain ⟨e', i⟩ := p
      simp only [Option.map_some'] at h
      cases Option.some.inj h
      obtain ⟨hekey, b, hb, hbe, _⟩ := lookupLoop_found (hashKey k) k m.buckets.length
        m.buckets (m.maskIdx (hashKey k)) 0 e i hlk
      refine ⟨?_, hekey⟩
      rw [← hbe]
      exact mem_bucketEntries_of_getD m.buckets i b hb
  · intro ⟨hmem, hkey⟩
    obtain ⟨j, b, hlk, _, _, _⟩ := lookup_mem hashKey m k e htbl hmem hkey
    unfold Map.get
    rw [hlk]
    rfl

/-- Map.get misses exactly when no entry holds the key. -/
theorem get_none_iff (hashKey : Key → Nat) (m : Map) (k : Key)
    (htbl : TableOk hashKey m.buckets) :
    m.get hashKey k = none ↔ ∀ e ∈ bucketEntries m.buckets, e.key ≠ k := by
  constructor
  · intro h e hmem hkey
    rw [(get_iff hashKey m k e htbl).mpr ⟨hmem, hkey⟩] at h
    exact absurd h (by simp)
  · intro h
    unfold Map.get
    rw [lookup_none_of_fresh m k (hashKey k) h]
    rfl

/-- Map.get depends only on the entries stored under the key. -/
theorem get_congr (hashKey : Key → Nat) (m m' : Map) (k : Key)
    (htbl : TableOk hashKey m.buckets) (htbl' : TableOk hashKey m'.buckets)
    (h : ∀ e, e.key = k → (e ∈ bucketEntries m.buckets ↔ e ∈ bucketEntries m'.buckets)) :
    m.get hashKey k = m'.get hashKey k := by
  cases hg : m.get hashKey k with
  | some e =>
    obtain ⟨hmem, hkey⟩ := (get_iff hashKey m k e htbl).mp hg
    exact ((get_iff hashKey m' k e htbl').mpr ⟨(h e hkey).mp hmem, hkey⟩).symm
  | none =>
    rw [get_none_iff hashKey m k htbl] at hg
    refine ((get_none_iff hashKey m' k htbl').mpr ?_).symm
    intro e hmem hkey
    exact hg e ((h e hkey).mpr hmem) hkey

/-- An occupied bucket splits the contents into its entry and the rest. -/
theorem contents_split (bs : List Bucket) (idx : Nat) (b : BucketE) (hlt : idx < bs.length)
    (hb : bs.getD idx none = some b) :
    bucketEntries bs = b.entry ::ₘ bucketEntries (bs.set idx none) := by
  have h := bucketEntries_set bs idx none hlt
  rw [hb] at h
  have h2 : bucketEntries (bs.set idx none) + {b.entry} = bucketEntries bs := by
    simpa [entryOf] using h
  rw [← h2, add_comm, Multiset.singleton_add]

/-- Rewriting one entry in place exchanges it inside the contents. -/
theorem updateBucketEntry_entries (bs : List Bucket) (idx : Nat) (f : Entry → Entry)
    (b : BucketE) (hlt : idx < bs.length) (hb : bs.getD idx none = some b) :
    bucketEntries (updateBucketEntry bs idx f) =
      f b.entry ::ₘ bucketEntries (bs.set idx none) := by
  unfold updateBucketEntry
  rw [hb]
  have h := bucketEntries_set bs idx (some { b with entry := f b.entry }) hlt
  rw [hb] at h
  have h3 : bucketEntries (bs.set idx (some { b with entry := f b.entry })) + {b.entry} =
      bucketEntries bs + {f b.entry} := by simpa [entryOf] using h
  rw [contents_split bs idx b hlt hb] at h3
  have h4 : (b.entry ::ₘ bucketEntries (bs.set idx none)) + {f b.entry} =
      (f b.entry ::ₘ bucketEntries (bs.set idx none)) + {b.entry} := by
    rw [← Multiset.singleton_add, ← Multiset.singleton_add]
    ac_rfl
  rw [h4] at h3
  exact add_right_cancel h3

/-- The table invariants transport along hash-, distance- and
key-preserving slotwise similarity. -/
theorem tableOk_of_sim (hashKey : Key → Nat) (bs bs' : List Bucket)
    (hsim : BucketSim bs bs') (htbl : TableOk hashKey bs) : TableOk hashKey bs' := by
  obtain ⟨hho, hdo, hco, hku⟩ := htbl
  obtain ⟨hlen, hrel⟩ := hsim
  have hpair : ∀ i b', bs'.getD i none = some b' → ∃ b, bs.getD i none = some b ∧
      b'.hash = b.hash ∧ b'.distance = b.distance ∧ b'.entry.key = b.entry.key := by
    intro i b' hb'
    have hr := hrel i
    rw [hb'] at hr
    cases hx : bs.getD i none with
    | none => rw [hx] at hr; simp [RelB] at hr
    | some b =>
      rw [hx] at hr
      obtain ⟨h1, h2, h3⟩ := hr
      exact ⟨b, rfl, h1, h2, h3⟩
  refine ⟨?_, ?_, ?_, ?_⟩
  · intro i b' hb'
    obtain ⟨b, hb, h1, _, h3⟩ := hpair i b' hb'
    rw [h1, h3]
    exact hho i b hb
  · intro i b' hi hb'
    obtain ⟨b, hb, h1, h2, _⟩ := hpair i b' hb'
    rw [hlen] at hi
    rw [hlen, h1, h2]
    exact hdo i b hi hb
  · intro i b' hi hb' hd
    obtain ⟨b, hb, _, h2, _⟩ := hpair i b' hb'
    rw [hlen] at hi
    rw [hlen]
    rw [h2] at hd
    obtain ⟨p, hp, hpd⟩ := hco i b hi hb hd
    have hr := hrel ((i + bs.length - 1) % bs.length)
    rw [hp] at hr
    cases hx : bs'.getD ((i + bs.length - 1) % bs.length) none with
    | none => rw [hx] at hr; simp [RelB] at hr
    | some p' =>
      rw [hx] at hr
      obtain ⟨_, hq2, _⟩ := hr
      refine ⟨p', rfl, ?_⟩
      rw [h2, hq2]
      exact hpd
  · intro i j bi' bj' hi hj hbi' hbj' hne
    obtain ⟨bi, hbi, _, _, h3i⟩ := hpair i bi' hbi'
    obtain ⟨bj, hbj, _, _, h3j⟩ := hpair j bj' hbj'
    rw [hlen] at hi hj
    rw [h3i, h3j]
    exact hku i j bi bj hi hj hbi hbj hne


/-- MapInv transport along a map whose fields agree up to provided
equations. -/
theorem MapInv.transport (hashKey : Key → Nat) {m m' : Map} (hinv : MapInv hashKey m)
    (hlen : m'.buckets.length = m.buckets.length)
    (hmask : m'.mask = m.mask) (hgrow : m'.growAt = m.growAt)
    (hshrink : m'.shrinkAt = m.shrinkAt)
    (hnum : m'.numItems = m.numItems)
    (hcard : Multiset.card (bucketEntries m'.buckets) =
      Multiset.card (bucketEntries m.buckets))
    (htbl : TableOk hashKey m'.buckets) : MapInv hashKey m' := by
  obtain ⟨⟨k, hk⟩, h16, hm, hg, hs, hc, hl, _⟩ := hinv
  exact ⟨⟨k, by rw [hlen, hk]⟩, by rw [hlen]; exact h16, by rw [hmask, hlen, hm],
    by rw [hgrow, hlen, hg], by rw [hshrink, hlen, hs],
    by rw [hnum, hcard, hc], by rw [hnum, hlen]; exact hl, htbl⟩

/-- The in-place rewrite Map.insert applies to an existing entry: new
value/expiry/flags, cas bumped (the update of part_003 lines 117-122). -/
def casUpdate (entry ex : Entry) : Entry :=
  Entry.IncrementCAS { ex with value := entry.value, expireAt := entry.expireAt, flags := entry.flags }

/-- Map.insert on a present key: in-place update returning the previous
entry; the contents exchange the resident for the rewritten entry with a
bumped cas; everything else is unchanged and the invariants hold. -/
theorem insert_hit_spec (hashKey : Key → Nat) (m : Map) (entry e : Entry) (idx : Nat)
    (hinv : MapInv hashKey m)
    (hlk : m.lookup entry.key (hashKey entry.key) = some (e, idx)) :
    (m.insert hashKey entry).2 = some e ∧
    e.key = entry.key ∧
    idx < m.buckets.length ∧
    bucketEntries m.buckets = e ::ₘ bucketEntries (m.buckets.set idx none) ∧
    bucketEntries (m.insert hashKey entry).1.buckets =
      casUpdate entry e ::ₘ bucketEntries (m.buckets.set idx none) ∧
    MapInv hashKey (m.insert hashKey entry).1 ∧
    (m.insert hashKey entry).1.numItems = m.numItems ∧
    (m.insert hashKey entry).1.buckets.length = m.buckets.length := by
  have hred : m.insert hashKey entry =
      ({ m with buckets := updateBucketEntry m.buckets idx (casUpdate entry) }, some e) := by
    simp only [Map.insert, hlk]
    rfl
  obtain ⟨hekey, b, hb, hbe, hbh⟩ := lookupLoop_found (hashKey entry.key) entry.key
    m.buckets.length m.buckets (m.maskIdx (hashKey entry.key)) 0 e idx hlk
  have hlt : idx < m.buckets.length := getD_some_lt m.buckets idx b hb
  have hsplit : bucketEntries m.buckets = e ::ₘ bucketEntries (m.buckets.set idx none) := by
    have h := contents_split m.buckets idx b hlt hb
    rw [hbe] at h
    exact h
  have hupd := updateBucketEntry_entries m.buckets idx (casUpdate entry) b hlt hb
  rw [hbe] at hupd
  have htbl' : TableOk hashKey (updateBucketEntry m.buckets idx (casUpdate entry)) :=
    tableOk_of_sim hashKey _ _ (updateBucketEntry_sim m.buckets idx _ (fun _ => rfl))
      hinv.table_ok
  have hcard : Multiset.card (bucketEntries (updateBucketEntry m.buckets idx
      (casUpdate entry))) = Multiset.card (bucketEntries m.buckets) := by
    rw [hupd, hsplit, Multiset.card_cons, Multiset.card_cons]
  refine ⟨by rw [hred], hekey, hlt, hsplit, ?_, ?_, by rw [hred], ?_⟩
  · rw [hred]
    exact hupd
  · rw [hred]
    exact MapInv.transport hashKey hinv
      (length_updateBucketEntry m.buckets idx _) rfl rfl rfl rfl hcard htbl'
  · rw [hred]
    exact length_updateBucketEntry m.buckets idx _

/-- Map.insert on an absent key: optional growth, then the placement walk;
the entry joins the contents, the count rises by one and the invariants
hold. -/
theorem insert_miss_spec (hashKey : Key → Nat) (m : Map) (entry : Entry)
    (hinv : MapInv hashKey m)
    (hlk : m.lookup entry.key (hashKey entry.key) = none) :
    (m.insert hashKey entry).2 = none ∧
    bucketEntries (m.insert hashKey entry).1.buckets = entry ::ₘ bucketEntries m.buckets ∧
    MapInv hashKey (m.insert hashKey entry).1 ∧
    (m.insert hashKey entry).1.numItems = m.numItems + 1 ∧
    (m.insert hashKey entry).1.buckets.length =
      (if m.numItems ≥ m.growAt then m.buckets.length * 2 else m.buckets.length) := by
  have hred : m.insert hashKey entry =
      ((if m.numItems ≥ m.growAt then m.resize (m.buckets.length * 2) else m).insertInternal
        entry (hashKey entry.key), none) := by
    simp only [Map.insert, hlk]
  have hfst : (m.insert hashKey entry).1 =
      (if m.numItems ≥ m.growAt then m.resize (m.buckets.length * 2) else m).insertInternal
        entry (hashKey entry.key) := by rw [hred]
  have hsnd : (m.insert hashKey entry).2 = none := by rw [hred]
  have hnotmem : entry.key ∉ (bucketEntries m.buckets).map Entry.key := by
    intro hmem
    rw [Multiset.mem_map] at hmem
    obtain ⟨e, he, hek⟩ := hmem
    obtain ⟨j, b, hlk2, _, _, _⟩ := lookup_mem hashKey m entry.key e hinv.table_ok he hek
    rw [hlk2] at hlk
    exact absurd hlk (by simp)
  by_cases hg : m.numItems ≥ m.growAt
  · rw [if_pos hg] at hfst
    obtain ⟨hRL, hRE, hRT, hRN, hRM, hRG, hRS⟩ := resize_spec hashKey m
      (m.buckets.length * 2) (by have := hinv.cap_ge16; omega) hinv.table_ok
      (by rw [← hinv.count_eq]; have := hinv.count_lt; omega)
    have hn2 : 0 < (m.resize (m.buckets.length * 2)).buckets.length := by
      rw [hRL]
      have := hinv.cap_ge16
      omega
    have hcnt2 : Multiset.card (bucketEntries (m.resize (m.buckets.length * 2)).buckets) <
        (m.resize (m.buckets.length * 2)).buckets.length := by
      rw [hRE, hRL, ← hinv.count_eq]
      have := hinv.count_lt
      omega
    have hfr2 : ∀ i b, (m.resize (m.buckets.length * 2)).buckets.getD i none = some b →
        b.entry.key ≠ entry.key := by
      apply fresh_of_key_not_mem
      rw [hRE]
      exact hnotmem
    obtain ⟨hIL, hIE, hIT, hIN, hIM, hIG, hIS⟩ := insertInternal_spec hashKey
      (m.resize (m.buckets.length * 2)) entry (hashKey entry.key) hn2 hRT hcnt2 rfl hfr2
    refine ⟨hsnd, ?_, ?_, ?_, ?_⟩
    · rw [hfst, hIE, hRE]
    · rw [hfst]
      obtain ⟨k, hk⟩ := hinv.cap_pow2
      refine ⟨⟨k + 1, by rw [hIL, hRL, hk, pow_succ]⟩, ?_, ?_, ?_, ?_, ?_, ?_, hIT⟩
      · rw [hIL, hRL]
        have := hinv.cap_ge16
        omega
      · rw [hIM, hRM, hIL, hRL]
      · rw [hIG, hRG, hIL, hRL]
      · rw [hIS, hRS, hIL, hRL]
      · rw [hIN, hRN, hIE, hRE, Multiset.card_cons]
      · rw [hIN, hRN, hIL, hRL, ← hinv.count_eq]
        have h1 := hinv.count_lt
        have h2 := hinv.cap_ge16
        omega
    · rw [hfst, hIN, hRN, ← hinv.count_eq]
    · rw [hfst, hIL, hRL, if_pos hg]
  · rw [if_neg hg] at hfst
    have hn2 : 0 < m.buckets.length := by
      have := hinv.cap_ge16
      omega
    obtain ⟨hIL, hIE, hIT, hIN, hIM, hIG, hIS⟩ := insertInternal_spec hashKey m entry
      (hashKey entry.key) hn2 hinv.table_ok (by rw [← hinv.count_eq]; exact hinv.count_lt)
      rfl (fresh_of_key_not_mem m.buckets entry.key hnotmem)
    refine ⟨hsnd, ?_, ?_, ?_, ?_⟩
    · rw [hfst, hIE]
    · rw [hfst]
      obtain ⟨k, hk⟩ := hinv.cap_pow2
      refine ⟨⟨k, by rw [hIL, hk]⟩, ?_, ?_, ?_, ?_, ?_, ?_, hIT⟩
      · rw [hIL]
        exact hinv.cap_ge16
      · rw [hIM, hIL]
        exact hinv.mask_eq
      · rw [hIG, hIL]
        exact hinv.grow_eq
      · rw [hIS, hIL]
        exact hinv.shrink_eq
      · rw [hIN, hIE, Multiset.card_cons, hinv.count_eq]
      · rw [hIN, hIL]
        rw [hinv.grow_eq] at hg
        have h2 := hinv.cap_ge16
        omega
    · rw [hfst, hIN]
    · rw [hfst, hIL, if_neg hg]

/-- Clearing an occupied bucket of a valid non-full table and running the
backward shift keeps the remaining contents and restores the invariants. -/
theorem hole_spec (hashKey : Key → Nat) (bs : List Bucket) (idx : Nat) (b : BucketE)
    (hn1 : 1 < bs.length) (hlt : idx < bs.length) (hb : bs.getD idx none = some b)
    (htbl : TableOk hashKey bs)
    (hcard : Multiset.card (bucketEntries bs) < bs.length) :
    (shiftLoop (bs.set idx none).length (bs.set idx none) idx).length = bs.length ∧
    bucketEntries (shiftLoop (bs.set idx none).length (bs.set idx none) idx) =
      bucketEntries (bs.set idx none) ∧
    TableOk hashKey (shiftLoop (bs.set idx none).length (bs.set idx none) idx) := by
  obtain ⟨hho, hdo, hco, hku⟩ := htbl
  have hn0 : 0 < bs.length := by omega
  have hlen0 : (bs.set idx none).length = bs.length := by simp
  have hb0idx : (bs.set idx none).getD idx none = none := getD_set_self _ _ _ _ hlt
  have hg0 : ∀ p, p ≠ idx → (bs.set idx none).getD p none = bs.getD p none :=
    fun p hp => getD_set_ne _ _ _ _ _ (Ne.symm hp)
  have hnI : (idx + 1) % bs.length ≠ idx := by
    have h := mod_add_ne idx 1 0 bs.length hn0 (by omega) (by omega) (by omega)
    simp only [Nat.add_zero, Nat.mod_eq_of_lt hlt] at h
    exact h
  have hho0 : HashOk hashKey (bs.set idx none) := by
    intro i c hc
    rcases eq_or_ne i idx with rfl | hne
    · rw [hb0idx] at hc
      exact absurd hc (by simp)
    · rw [hg0 i hne] at hc
      exact hho i c hc
  have hdo0 : DistOk (bs.set idx none) := by
    intro i c hi hc
    rw [hlen0] at hi
    rw [hlen0]
    rcases eq_or_ne i idx with rfl | hne
    · rw [hb0idx] at hc
      exact absurd hc (by simp)
    · rw [hg0 i hne] at hc
      exact hdo i c hi hc
  have hku0 : KeysUniq (bs.set idx none) := by
    intro i j ci cj hi hj hci hcj hij
    rw [hlen0] at hi hj
    rcases eq_or_ne i idx with rfl | hi1
    · rw [hb0idx] at hci
      exact absurd hci (by simp)
    rcases eq_or_ne j idx with rfl | hj1
    · rw [hb0idx] at hcj
      exact absurd hcj (by simp)
    rw [hg0 i hi1] at hci
    rw [hg0 j hj1] at hcj
    exact hku i j ci cj hi hj hci hcj hij
  have hce0 : ChainOkExcept (bs.set idx none) ((idx + 1) % (bs.set idx none).length) := by
    intro i c hi hij hc hcd
    rw [hlen0] at hi hij
    rw [hlen0]
    rcases eq_or_ne i idx with rfl | hne
    · rw [hb0idx] at hc
      exact absurd hc (by simp)
    · rw [hg0 i hne] at hc
      have hp1 : (i + bs.length - 1) % bs.length ≠ idx := by
        intro hq
        exact hij ((pred_eq_iff i idx bs.length hn0 hi hlt).mp hq)
      obtain ⟨b', hb', hd'⟩ := hco i c hi hc hcd
      refine ⟨b', ?_, hd'⟩
      rw [hg0 _ hp1]
      exact hb'
  have hw0 : HoleWeak (bs.set idx none) idx := by
    intro c hc hcd
    rw [hlen0] at hc ⊢
    rw [hg0 _ hnI] at hc
    have hnIlt : (idx + 1) % bs.length < bs.length := Nat.mod_lt _ hn0
    obtain ⟨b1, hb1, hd1⟩ := hco ((idx + 1) % bs.length) c hnIlt hc (by omega)
    have hpredI : ((idx + 1) % bs.length + bs.length - 1) % bs.length = idx := by
      rw [succ_pred_mod idx bs.length hn0]
      exact Nat.mod_eq_of_lt hlt
    rw [hpredI, hb] at hb1
    cases Option.some.inj hb1
    have hbd_pos : 0 < b.distance := by omega
    obtain ⟨b', hb', hd'⟩ := hco idx b hlt hb hbd_pos
    have hpp1 : (idx + bs.length - 1) % bs.length ≠ idx := by
      intro hq
      have h4 := mod_add_ne idx (bs.length - 1) 0 bs.length hn0 (by omega) (by omega)
        (by omega)
      rw [show idx + (bs.length - 1) = idx + bs.length - 1 by omega] at h4
      simp only [Nat.add_zero, Nat.mod_eq_of_lt hlt] at h4
      exact h4 hq
    refine ⟨b', ?_, by omega⟩
    rw [hg0 _ hpp1]
    exact hb'
  have hstop0 : ∃ t, 1 ≤ t ∧ t < (bs.set idx none).length ∧ t < (bs.set idx none).length ∧
      (bs.set idx none).getD ((idx + t) % (bs.set idx none).length) none = none := by
    obtain ⟨z, hzlt, hznone⟩ := exists_empty_of_card_lt bs hcard
    have hzne : z ≠ idx := by
      intro hq
      rw [hq, hb] at hznone
      exact absurd hznone (by simp)
    obtain ⟨t, htlt, hteq⟩ := offset_to idx z bs.length hn0 hlt hzlt
    have ht1 : 1 ≤ t := by
      rcases Nat.eq_zero_or_pos t with rfl | h
      · rw [Nat.add_zero, Nat.mod_eq_of_lt hlt] at hteq
        exact absurd hteq.symm hzne
      · exact h
    refine ⟨t, ht1, by rw [hlen0]; omega, by rw [hlen0]; omega, ?_⟩
    rw [hlen0, hteq, hg0 z hzne]
    exact hznone
  have hres := shiftLoop_spec hashKey (bs.set idx none).length (bs.set idx none) idx
    (by rw [hlen0]; exact hn1) (by rw [hlen0]; exact hlt) hb0idx hho0 hdo0 hku0 hce0
    hw0 hstop0
  exact ⟨by rw [hres.1, hlen0], hres.2.1, hres.2.2⟩

/-- The shrink step at the end of Map.delete. -/
def deleteShrink (m1 : Map) : Map :=
  if m1.numItems < m1.shrinkAt ∧ m1.buckets.length > 16 then
    m1.resize (m1.buckets.length / 2)
  else m1

theorem deleteShrink_pos (m1 : Map)
    (h : m1.numItems < m1.shrinkAt ∧ m1.buckets.length > 16) :
    deleteShrink m1 = m1.resize (m1.buckets.length / 2) := if_pos h

theorem deleteShrink_neg (m1 : Map)
    (h : ¬(m1.numItems < m1.shrinkAt ∧ m1.buckets.length > 16)) :
    deleteShrink m1 = m1 := if_neg h

theorem pow2_half (len k : Nat) (hk : len = 2 ^ k) (h16 : 16 < len) :
    len / 2 = 2 ^ (k - 1) ∧ 16 ≤ len / 2 := by
  rcases k with _ | k2
  · rw [hk] at h16
    omega
  · have h2 : len / 2 = 2 ^ k2 := by
      rw [hk, pow_succ, Nat.mul_div_cancel _ (by omega)]
    refine ⟨by simpa using h2, ?_⟩
    rw [h2]
    have h3 : (2 : Nat) ^ 4 < 2 ^ (k2 + 1) := by
      rw [← hk]
      simpa using h16
    have h4 : 4 < k2 + 1 := (Nat.pow_lt_pow_iff_right (by omega)).mp h3
    calc (16 : Nat) = 2 ^ 4 := by norm_num
      _ ≤ 2 ^ k2 := Nat.pow_le_pow_right (by omega) (by omega)

theorem delete_miss_spec (m : Map) (key : Key) (hash : Nat)
    (hlk : m.lookup key hash = none) : m.delete key hash = (m, none) := by
  simp only [Map.delete, hlk]

/-- Map.delete on a present key: the entry leaves the contents (backward
shift and optional halving included), the count drops by one and the
invariants hold. -/
theorem delete_hit_spec (hashKey : Key → Nat) (m : Map) (key : Key) (e : Entry) (idx : Nat)
    (hinv : MapInv hashKey m)
    (hlk : m.lookup key (hashKey key) = some (e, idx)) :
    (m.delete key (hashKey key)).2 = some e ∧
    bucketEntries m.buckets = e ::ₘ bucketEntries (m.delete key (hashKey key)).1.buckets ∧
    MapInv hashKey (m.delete key (hashKey key)).1 ∧
    (m.delete key (hashKey key)).1.numItems = m.numItems - 1 ∧
    (m.delete key (hashKey key)).1.buckets.length ≤ m.buckets.length := by
  obtain ⟨hekey, b, hb, hbe, hbh⟩ := lookupLoop_found (hashKey key) key m.buckets.length
    m.buckets (m.maskIdx (hashKey key)) 0 e idx hlk
  have hlt : idx < m.buckets.length := getD_some_lt m.buckets idx b hb
  have hn1 : 1 < m.buckets.length := by
    have := hinv.cap_ge16
    omega
  have hcard : Multiset.card (bucketEntries m.buckets) < m.buckets.length := by
    rw [← hinv.count_eq]
    exact hinv.count_lt
  obtain ⟨hSL, hSE, hST⟩ := hole_spec hashKey m.buckets idx b hn1 hlt hb hinv.table_ok hcard
  have hsplit : bucketEntries m.buckets = e ::ₘ bucketEntries (m.buckets.set idx none) := by
    have h := contents_split m.buckets idx b hlt hb
    rw [hbe] at h
    exact h
  have hcard0 : Multiset.card (bucketEntries (m.buckets.set idx none)) = m.numItems - 1 := by
    have h := congrArg Multiset.card hsplit
    rw [Multiset.card_cons] at h
    have hc := hinv.count_eq
    have hcl := hinv.count_lt
    omega
  have hred : m.delete key (hashKey key) =
      (deleteShrink { m with buckets := shiftLoop (m.buckets.set idx none).length (m.buckets.set idx none) idx, numItems := m.numItems - 1 }, some e) := by
    simp only [Map.delete, hlk]
    rfl
  have hfst : (m.delete key (hashKey key)).1 =
      deleteShrink { m with buckets := shiftLoop (m.buckets.set idx none).length (m.buckets.set idx none) idx, numItems := m.numItems - 1 } := by
    rw [hred]
  have hsnd : (m.delete key (hashKey key)).2 = some e := by rw [hred]
  have hM1b : ({ m with buckets := shiftLoop (m.buckets.set idx none).length (m.buckets.set idx none) idx, numItems := m.numItems - 1 } : Map).buckets = shiftLoop (m.buckets.set idx none).length (m.buckets.set idx none) idx := rfl
  have hM1len : ({ m with buckets := shiftLoop (m.buckets.set idx none).length (m.buckets.set idx none) idx, numItems := m.numItems - 1 } : Map).buckets.length = m.buckets.length := by
    rw [hM1b, hSL]
  have hM1ent : bucketEntries ({ m with buckets := shiftLoop (m.buckets.set idx none).length (m.buckets.set idx none) idx, numItems := m.numItems - 1 } : Map).buckets = bucketEntries (m.buckets.set idx none) := by
    rw [hM1b, hSE]
  have hM1inv : MapInv hashKey { m with buckets := shiftLoop (m.buckets.set idx none).length (m.buckets.set idx none) idx, numItems := m.numItems - 1 } := by
    obtain ⟨⟨k, hk⟩, h16, hmk, hg, hs, _, hcl, _⟩ := hinv
    refine ⟨⟨k, by rw [hM1len, hk]⟩, by rw [hM1len]; exact h16, by rw [hM1len]; exact hmk,
      by rw [hM1len]; exact hg, by rw [hM1len]; exact hs, ?_, ?_, ?_⟩
    · show m.numItems - 1 = _
      rw [hM1ent, hcard0]
    · show m.numItems - 1 < _
      rw [hM1len]
      omega
    · rw [hM1b]
      exact hST
  by_cases hc : m.numItems - 1 < m.shrinkAt ∧
      (shiftLoop (m.buckets.set idx none).length (m.buckets.set idx none) idx).length > 16
  · -- shrink: halve the capacity
    have hds : deleteShrink { m with buckets := shiftLoop (m.buckets.set idx none).length (m.buckets.set idx none) idx, numItems := m.numItems - 1 } = ({ m with buckets := shiftLoop (m.buckets.set idx none).length (m.buckets.set idx none) idx, numItems := m.numItems - 1 } : Map).resize (({ m with buckets := shiftLoop (m.buckets.set idx none).length (m.buckets.set idx none) idx, numItems := m.numItems - 1 } : Map).buckets.length / 2) :=
      deleteShrink_pos _ hc
    have h16' : 16 < m.buckets.length := by
      rw [hSL] at hc
      exact hc.2
    have hshr : m.numItems - 1 < m.buckets.length / 10 := by
      have := hinv.shrink_eq
      omega
    obtain ⟨hRL, hRE, hRT, hRN, hRM, hRG, hRS⟩ := resize_spec hashKey
      { m with buckets := shiftLoop (m.buckets.set idx none).length (m.buckets.set idx none) idx, numItems := m.numItems - 1 }
      (({ m with buckets := shiftLoop (m.buckets.set idx none).length (m.buckets.set idx none) idx, numItems := m.numItems - 1 } : Map).buckets.length / 2)
      (by rw [hM1len]; omega) hM1inv.table_ok
      (by rw [hM1ent, hcard0, hM1len]; omega)
    obtain ⟨k, hk⟩ := hinv.cap_pow2
    obtain ⟨hhalf, hhalf16⟩ := pow2_half m.buckets.length k hk h16'
    refine ⟨hsnd, ?_, ?_, ?_, ?_⟩
    · rw [hfst, hds, hRE, hM1ent]
      exact hsplit
    · rw [hfst, hds]
      refine ⟨⟨k - 1, by rw [hRL, hM1len, hhalf]⟩, by rw [hRL, hM1len]; exact hhalf16,
        by rw [hRM, hRL], by rw [hRG, hRL], by rw [hRS, hRL], ?_, ?_, hRT⟩
      · rw [hRN, hRE]
      · rw [hRN, hM1ent, hcard0, hRL, hM1len]
        omega
    · rw [hfst, hds, hRN, hM1ent, hcard0]
    · rw [hfst, hds, hRL, hM1len]
      omega
  · -- no shrink
    have hds : deleteShrink { m with buckets := shiftLoop (m.buckets.set idx none).length (m.buckets.set idx none) idx, numItems := m.numItems - 1 } = { m with buckets := shiftLoop (m.buckets.set idx none).length (m.buckets.set idx none) idx, numItems := m.numItems - 1 } :=
      deleteShrink_neg _ (by
        intro hq
        exact hc ⟨hq.1, hq.2⟩)
    refine ⟨hsnd, ?_, ?_, ?_, ?_⟩
    · rw [hfst, hds, hM1ent]
      exact hsplit
    · rw [hfst, hds]
      exact hM1inv
    · rw [hfst, hds]
    · rw [hfst, hds]
      exact le_of_eq hM1len

/-! ## Claim C2: the map invariants -/

/-- Adjacent-pairs monotonicity of a distance list. -/
def nonDecreasing : List Nat → Bool
  | [] => true
  | [_] => true
  | a :: b :: rest => a ≤ b && nonDecreasing (b :: rest)

/-- The stored distances seen when scanning `steps + 1` buckets forward
from `home`, skipping empty buckets. -/
def scanDistances (m : Map) (home steps : Nat) : List Nat :=
  (List.range (steps + 1)).filterMap
    (fun t => (m.buckets.getD ((home + t) % m.buckets.length) none).map (·.distance))

/-- Spec-side reading of C2 sentence three, for comparison with the code:
"scanning forward from a key's home bucket the distances are non-decreasing
until the key is found".  For a stored key (located through the exact
uint16-walk lookup), the distances along the walk from its home bucket to
its bucket are non-decreasing. -/
def specScanNonDecreasing (hashKey : Key → Nat) (m : Map) (k : Key) : Bool :=
  match m.lookupW k (hashKey k) with
  | none => true
  | some (_, i) =>
    nonDecreasing (scanDistances m (hashKey k % m.buckets.length)
      ((i + m.buckets.length - hashKey k % m.buckets.length) % m.buckets.length))

/-- A hash function exhibiting a home-bucket cluster (the map is parametric
in the hash; the algorithms use it only through equality and reduction
modulo the capacity). -/
def hashC2 : Key → Nat := fun k => if k = [9] then 0 else 11

/-- One mutation of the hash map (resize happens inside both). -/
inductive MapMut where
  | mut_insert (e : Entry)
  | mut_delete (k : Key)

/-- Run one mutation for its state effect. -/
def runMapMut (hashKey : Key → Nat) (m : Map) : MapMut → Map
  | .mut_insert e => (m.insert hashKey e).1
  | .mut_delete k => (m.delete k (hashKey k)).1

/-- Every single mutation preserves the map invariants. -/
theorem mapMut_inv (hashKey : Key → Nat) (m : Map) (hinv : MapInv hashKey m)
    (mt : MapMut) : MapInv hashKey (runMapMut hashKey m mt) := by
  cases mt with
  | mut_insert e0 =>
    show MapInv hashKey (m.insert hashKey e0).1
    cases hlk : m.lookup e0.key (hashKey e0.key) with
    | none => exact (insert_miss_spec hashKey m e0 hinv hlk).2.2.1
    | some p =>
      obtain ⟨e, idx⟩ := p
      exact (insert_hit_spec hashKey m e0 e idx hinv hlk).2.2.2.2.2.1
  | mut_delete k =>
    show MapInv hashKey (m.delete k (hashKey k)).1
    cases hlk : m.lookup k (hashKey k) with
    | none =>
      rw [delete_miss_spec m k (hashKey k) hlk]
      exact hinv
    | some p =>
      obtain ⟨e, idx⟩ := p
      exact (delete_hit_spec hashKey m k e idx hinv hlk).2.2.1

/-- C2 (counterexample to the literal scan-monotonicity sentence): six
inserts homed at bucket 11 of the fresh 16-bucket map followed by one homed
at bucket 0 — run through the exact uint16-walk insert — leave key [9]
stored at bucket 1 behind the cluster's tail of distance 5 at bucket 0, so
the scan from its home bucket reads distances 5, 1 - decreasing - although
the key is found. -/
theorem c2_counterexample :
    specScanNonDecreasing hashC2
      (([[0], [1], [2], [3], [4], [5], [9]] : List Key).foldl
        (fun acc k => (Map.insertW hashC2 acc ⟨k, [], 0, 0, 0, false⟩).1)
        (NewMap 16)) [9] = false ∧
    ((([[0], [1], [2], [3], [4], [5], [9]] : List Key).foldl
        (fun acc k => (Map.insertW hashC2 acc ⟨k, [], 0, 0, 0, false⟩).1)
        (NewMap 16)).getW hashC2 [9]).isSome = true := by
  decide

/-! ## Cache-level invariants (claims C1, C3, C4, C6) -/

/-- The entry the cache holds for a key: the shard map's get. -/
def cacheGet (hashKey : Key → Nat) (c : Cache) (k : Key) : Option Entry :=
  ((c.shardAt (c.getShardIdx hashKey k)).m).get hashKey k

/-- Per-shard invariant for a cache built with `maxMemory = 0`: valid map,
exact memory accounting, non-positive limit (eviction disabled), no
eviction recorded and no evicted bit set. -/
def shardGood (hashKey : Key → Nat) (sh : Shard) : Prop :=
  MapInv hashKey sh.m ∧ sh.memUsed = sizeSum sh.m.buckets ∧ sh.maxMemory ≤ 0 ∧
  sh.numEvicted = 0 ∧ ∀ e ∈ bucketEntries sh.m.buckets, e.evicted = false

/-- Cache invariant: positive shard count, full shard list, every shard
good. -/
def CacheGood (hashKey : Key → Nat) (c : Cache) : Prop :=
  0 < c.numShards ∧ c.shards.length = c.numShards ∧
  ∀ i, i < c.numShards → shardGood hashKey (c.shardAt i)

theorem getD_replicate {α} (n : Nat) (a d : α) (i : Nat) (h : i < n) :
    (List.replicate n a).getD i d = a := by
  induction n generalizing i with
  | zero => omega
  | succ n ih =>
    cases i with
    | zero => simp [List.replicate_succ]
    | succ i =>
      rw [List.replicate_succ]
      simpa using ih i (by omega)

theorem sizeSum_replicate (n : Nat) : sizeSum (List.replicate n none) = 0 := by
  rw [sizeSum, bucketEntries_replicate]
  simp

/-- A zero-limit shard never evicts: the guard makes evictIfNeeded the
identity. -/
theorem evictIfNeeded_noop (hashKey : Key → Nat) (sh : Shard) (rs now : Int)
    (coins : List Bool) (h : sh.maxMemory ≤ 0) :
    Cache.evictIfNeeded hashKey sh rs now coins = sh := by
  unfold Cache.evictIfNeeded
  rw [if_pos h]

theorem sizeSum_cons_eq (bs : List Bucket) (e : Entry) (s : Multiset Entry)
    (h : bucketEntries bs = e ::ₘ s) :
    sizeSum bs = e.Size + (s.map Entry.Size).sum := by
  rw [sizeSum, h, Multiset.map_cons, Multiset.sum_cons]

/-- The shard index is in range. -/
theorem getShardIdx_lt (hashKey : Key → Nat) (c : Cache) (k : Key)
    (h : 0 < c.numShards) : c.getShardIdx hashKey k < c.numShards :=
  Nat.mod_lt _ h

/-- A fresh shard with a non-positive limit is good. -/
theorem shardGood_new (hashKey : Key → Nat) (y : Int) (hy : y ≤ 0) :
    shardGood hashKey (NewShard y) := by
  refine ⟨NewMap16_inv hashKey, ?_, hy, rfl, ?_⟩
  · show (0 : Int) = sizeSum (NewMap 16).buckets
    rw [NewMap16_eq]
    exact (sizeSum_replicate 16).symm
  · intro e he
    rw [show (NewShard y).m.buckets = List.replicate 16 none from rfl,
      bucketEntries_replicate] at he
    exact absurd he (by simp)

/-- A fresh zero-limit cache satisfies the invariant. -/
theorem cacheGood_new (hashKey : Key → Nat) (nShards : Nat) :
    CacheGood hashKey (Cache.New nShards 0) := by
  refine ⟨?_, ?_, ?_⟩
  · show 0 < (if nShards = 0 then 16 else nShards)
    split
    · omega
    · omega
  · show (List.replicate (if nShards = 0 then 16 else nShards)
        (NewShard ((0 : Int) / ((if nShards = 0 then 16 else nShards : Nat) : Int)))).length =
      (if nShards = 0 then 16 else nShards)
    simp
  · intro i hi
    show shardGood hashKey ((Cache.New nShards 0).shards.getD i (NewShard 0))
    have hlen : (Cache.New nShards 0).shards = List.replicate
        (if nShards = 0 then 16 else nShards)
        (NewShard ((0 : Int) / ((if nShards = 0 then 16 else nShards : Nat) : Int))) := rfl
    rw [hlen, getD_replicate _ _ _ i (by exact hi)]
    exact shardGood_new hashKey _ (le_of_eq (Int.zero_ediv _))

/-- Store on a zero-limit shard, fresh key: count the op, insert, add the
entry size. -/
theorem store_reduce_miss (hashKey : Key → Nat) (c : Cache) (key value : Key)
    (opts : Option StoreOptions) (now : Int) (coins : List Bool)
    (hmax : (c.shardAt (c.getShardIdx hashKey key)).maxMemory ≤ 0)
    (hins : ((c.shardAt (c.getShardIdx hashKey key)).m.insert hashKey
      ⟨key, value, optExpireAt opts now, optFlags opts, optCas opts, false⟩).2 = none) :
    c.Store hashKey key value opts now coins =
      c.setShard (c.getShardIdx hashKey key)
        { c.shardAt (c.getShardIdx hashKey key) with
          numOps := (c.shardAt (c.getShardIdx hashKey key)).numOps + 1
          m := ((c.shardAt (c.getShardIdx hashKey key)).m.insert hashKey
            ⟨key, value, optExpireAt opts now, optFlags opts, optCas opts, false⟩).1
          memUsed := (c.shardAt (c.getShardIdx hashKey key)).memUsed +
            (⟨key, value, optExpireAt opts now, optFlags opts, optCas opts,
              false⟩ : Entry).Size } := by
  simp only [Cache.Store]
  rw [evictIfNeeded_noop]
  · simp only [hins]
  · exact hmax

/-- Store on a zero-limit shard, existing key: count the op, update in
place, move the memory by the size difference. -/
theorem store_reduce_hit (hashKey : Key → Nat) (c : Cache) (key value : Key)
    (opts : Option StoreOptions) (now : Int) (coins : List Bool) (old : Entry)
    (hmax : (c.shardAt (c.getShardIdx hashKey key)).maxMemory ≤ 0)
    (hins : ((c.shardAt (c.getShardIdx hashKey key)).m.insert hashKey
      ⟨key, value, optExpireAt opts now, optFlags opts, optCas opts, false⟩).2 = some old) :
    c.Store hashKey key value opts now coins =
      c.setShard (c.getShardIdx hashKey key)
        { c.shardAt (c.getShardIdx hashKey key) with
          numOps := (c.shardAt (c.getShardIdx hashKey key)).numOps + 1
          m := ((c.shardAt (c.getShardIdx hashKey key)).m.insert hashKey
            ⟨key, value, optExpireAt opts now, optFlags opts, optCas opts, false⟩).1
          memUsed := (c.shardAt (c.getShardIdx hashKey key)).memUsed - old.Size +
            (⟨key, value, optExpireAt opts now, optFlags opts, optCas opts,
              false⟩ : Entry).Size } := by
  simp only [Cache.Store]
  rw [evictIfNeeded_noop]
  · simp only [hins]
  · exact hmax

theorem cacheGet_setShard (hashKey : Key → Nat) (c : Cache) (i : Nat) (sh : Shard) (k : Key)
    (hi : i < c.shards.length) :
    cacheGet hashKey (c.setShard i sh) k =
      if c.getShardIdx hashKey k = i then sh.m.get hashKey k else cacheGet hashKey c k := by
  unfold cacheGet
  rw [getShardIdx_setShard, shardAt_setShard c i (c.getShardIdx hashKey k) sh hi]
  by_cases h : c.getShardIdx hashKey k = i
  · rw [if_pos h, if_pos h]
  · rw [if_neg h, if_neg h]

/-- Under the invariant no shard has recorded an eviction. -/
theorem statsEvicted_eq_zero (hashKey : Key → Nat) (c : Cache) (hg : CacheGood hashKey c) :
    c.statsEvicted = 0 := by
  obtain ⟨hn, hlen, hsh⟩ := hg
  unfold Cache.statsEvicted
  apply List.sum_eq_zero
  intro x hx
  rw [List.mem_map] at hx
  obtain ⟨sh, hshmem, hxe⟩ := hx
  obtain ⟨j, hjlt, hj⟩ := List.getElem_of_mem hshmem
  have hshard := hsh j (by omega)
  have hje : c.shardAt j = sh := by
    unfold Cache.shardAt
    rw [List.getD_eq_getElem c.shards (NewShard 0) (by omega)]
    exact hj
  rw [hje] at hshard
  rw [← hxe, hshard.2.2.2.1]


theorem cacheGood_setShard (hashKey : Key → Nat) (c : Cache) (i : Nat) (sh : Shard)
    (hg : CacheGood hashKey c) (hi : i < c.numShards) (hsh : shardGood hashKey sh) :
    CacheGood hashKey (c.setShard i sh) := by
  obtain ⟨hn, hlen, hall⟩ := hg
  refine ⟨hn, ?_, ?_⟩
  · show (c.shards.set i sh).length = c.numShards
    rw [List.length_set]
    exact hlen
  · intro j hj
    rw [shardAt_setShard c i j sh (by omega)]
    by_cases hji : j = i
    · rw [if_pos hji]
      exact hsh
    · rw [if_neg hji]
      exact hall j hj

theorem shardGood_mk (hashKey : Key → Nat) (sh sh' : Shard)
    (hg : shardGood hashKey sh)
    (hm : MapInv hashKey sh'.m)
    (hmem : sh'.memUsed = sizeSum sh'.m.buckets)
    (hmax : sh'.maxMemory = sh.maxMemory)
    (hnev : sh'.numEvicted = sh.numEvicted)
    (hnoev : ∀ e ∈ bucketEntries sh'.m.buckets, e.evicted = false) :
    shardGood hashKey sh' :=
  ⟨hm, hmem, by rw [hmax]; exact hg.2.2.1, by rw [hnev]; exact hg.2.2.2.1, hnoev⟩

/-- Store on a good zero-limit cache: the invariant is kept, the key now
holds an entry with the new value/expiry and a clear evicted bit, and every
other key reads as before. -/
theorem store_spec (hashKey : Key → Nat) (c : Cache) (key value : Key)
    (opts : Option StoreOptions) (now : Int) (coins : List Bool)
    (hg : CacheGood hashKey c) :
    CacheGood hashKey (c.Store hashKey key value opts now coins) ∧
    (∃ e', cacheGet hashKey (c.Store hashKey key value opts now coins) key = some e' ∧
      e'.value = value ∧ e'.expireAt = optExpireAt opts now ∧ e'.evicted = false) ∧
    (∀ k', k' ≠ key →
      cacheGet hashKey (c.Store hashKey key value opts now coins) k' =
        cacheGet hashKey c k') ∧
    (c.Store hashKey key value opts now coins).numShards = c.numShards := by
  obtain ⟨hn, hlen, hall⟩ := hg
  have hilt : c.getShardIdx hashKey key < c.numShards := getShardIdx_lt hashKey c key hn
  obtain ⟨hMI, hmem, hmax, hnev, hnoev⟩ := hall _ hilt
  have hilt' : c.getShardIdx hashKey key < c.shards.length := by omega
  cases hlk : (c.shardAt (c.getShardIdx hashKey key)).m.lookup key (hashKey key) with
  | none =>
    obtain ⟨hs2, hsE, hsI, _, _⟩ := insert_miss_spec hashKey
      (c.shardAt (c.getShardIdx hashKey key)).m
      ⟨key, value, optExpireAt opts now, optFlags opts, optCas opts, false⟩ hMI hlk
    have hred := store_reduce_miss hashKey c key value opts now coins hmax hs2
    rw [hred]
    have hshG : shardGood hashKey { c.shardAt (c.getShardIdx hashKey key) with
        numOps := (c.shardAt (c.getShardIdx hashKey key)).numOps + 1
        m := ((c.shardAt (c.getShardIdx hashKey key)).m.insert hashKey
          ⟨key, value, optExpireAt opts now, optFlags opts, optCas opts, false⟩).1
        memUsed := (c.shardAt (c.getShardIdx hashKey key)).memUsed +
          (⟨key, value, optExpireAt opts now, optFlags opts, optCas opts,
            false⟩ : Entry).Size } := by
      refine shardGood_mk hashKey (c.shardAt (c.getShardIdx hashKey key)) _
        ⟨hMI, hmem, hmax, hnev, hnoev⟩ hsI ?_ rfl rfl ?_
      · show (c.shardAt (c.getShardIdx hashKey key)).memUsed +
          (⟨key, value, optExpireAt opts now, optFlags opts, optCas opts,
            false⟩ : Entry).Size = sizeSum ((c.shardAt (c.getShardIdx hashKey key)).m.insert
              hashKey ⟨key, value, optExpireAt opts now, optFlags opts, optCas opts,
                false⟩).1.buckets
        have hss : sizeSum ((c.shardAt (c.getShardIdx hashKey key)).m.insert hashKey
            ⟨key, value, optExpireAt opts now, optFlags opts, optCas opts,
              false⟩).1.buckets =
            (⟨key, value, optExpireAt opts now, optFlags opts, optCas opts,
              false⟩ : Entry).Size +
            ((bucketEntries (c.shardAt (c.getShardIdx hashKey key)).m.buckets).map
              Entry.Size).sum :=
          sizeSum_cons_eq _ _ _ hsE
        rw [hss, hmem]
        show sizeSum (c.shardAt (c.getShardIdx hashKey key)).m.buckets + _ =
          _ + sizeSum (c.shardAt (c.getShardIdx hashKey key)).m.buckets
        omega
      · intro e he
        replace he : e ∈ bucketEntries ((c.shardAt (c.getShardIdx hashKey key)).m.insert
            hashKey ⟨key, value, optExpireAt opts now, optFlags opts, optCas opts,
              false⟩).1.buckets := he
        rw [hsE, Multiset.mem_cons] at he
        rcases he with rfl | he
        · rfl
        · exact hnoev e he
    refine ⟨cacheGood_setShard hashKey c _ _ ⟨hn, hlen, hall⟩ hilt hshG, ?_, ?_, rfl⟩
    · rw [cacheGet_setShard hashKey c _ _ key hilt', if_pos rfl]
      refine ⟨⟨key, value, optExpireAt opts now, optFlags opts, optCas opts, false⟩,
        ?_, rfl, rfl, rfl⟩
      show ((c.shardAt (c.getShardIdx hashKey key)).m.insert hashKey
        ⟨key, value, optExpireAt opts now, optFlags opts, optCas opts,
          false⟩).1.get hashKey key = some _
      refine (get_iff hashKey _ key _ hsI.table_ok).mpr ⟨?_, rfl⟩
      rw [hsE]
      exact Multiset.mem_cons_self _ _
    · intro k' hk'
      rw [cacheGet_setShard hashKey c _ _ k' hilt']
      by_cases hsame : c.getShardIdx hashKey k' = c.getShardIdx hashKey key
      · rw [if_pos hsame]
        show ((c.shardAt (c.getShardIdx hashKey key)).m.insert hashKey
          ⟨key, value, optExpireAt opts now, optFlags opts, optCas opts,
            false⟩).1.get hashKey k' = cacheGet hashKey c k'
        unfold cacheGet
        rw [hsame]
        apply get_congr hashKey _ _ k' hsI.table_ok hMI.table_ok
        intro e hek
        rw [hsE, Multiset.mem_cons]
        constructor
        · rintro (rfl | h)
          · exact absurd hek.symm hk'
          · exact h
        · intro h
          exact Or.inr h
      · rw [if_neg hsame]
  | some p =>
    obtain ⟨e0, idx⟩ := p
    obtain ⟨hs2, hekey, hidxlt, hsplit, hsE, hsI, _, _⟩ := insert_hit_spec hashKey
      (c.shardAt (c.getShardIdx hashKey key)).m
      ⟨key, value, optExpireAt opts now, optFlags opts, optCas opts, false⟩ e0 idx hMI hlk
    have hred := store_reduce_hit hashKey c key value opts now coins e0 hmax hs2
    rw [hred]
    have he0mem : e0 ∈ bucketEntries (c.shardAt (c.getShardIdx hashKey key)).m.buckets := by
      rw [hsplit]
      exact Multiset.mem_cons_self _ _
    have hshG : shardGood hashKey { c.shardAt (c.getShardIdx hashKey key) with
        numOps := (c.shardAt (c.getShardIdx hashKey key)).numOps + 1
        m := ((c.shardAt (c.getShardIdx hashKey key)).m.insert hashKey
          ⟨key, value, optExpireAt opts now, optFlags opts, optCas opts, false⟩).1
        memUsed := (c.shardAt (c.getShardIdx hashKey key)).memUsed - e0.Size +
          (⟨key, value, optExpireAt opts now, optFlags opts, optCas opts,
            false⟩ : Entry).Size } := by
      refine shardGood_mk hashKey (c.shardAt (c.getShardIdx hashKey key)) _
        ⟨hMI, hmem, hmax, hnev, hnoev⟩ hsI ?_ rfl rfl ?_
      · show (c.shardAt (c.getShardIdx hashKey key)).memUsed - e0.Size +
          (⟨key, value, optExpireAt opts now, optFlags opts, optCas opts,
            false⟩ : Entry).Size = sizeSum ((c.shardAt (c.getShardIdx hashKey key)).m.insert
              hashKey ⟨key, value, optExpireAt opts now, optFlags opts, optCas opts,
                false⟩).1.buckets
        have hss1 : sizeSum ((c.shardAt (c.getShardIdx hashKey key)).m.insert hashKey
            ⟨key, value, optExpireAt opts now, optFlags opts, optCas opts,
              false⟩).1.buckets =
            (casUpdate ⟨key, value, optExpireAt opts now, optFlags opts, optCas opts,
              false⟩ e0).Size +
            ((bucketEntries ((c.shardAt (c.getShardIdx hashKey key)).m.buckets.set idx
              none)).map Entry.Size).sum :=
          sizeSum_cons_eq _ _ _ hsE
        have hss0 : sizeSum (c.shardAt (c.getShardIdx hashKey key)).m.buckets =
            e0.Size + ((bucketEntries ((c.shardAt (c.getShardIdx hashKey key)).m.buckets.set
              idx none)).map Entry.Size).sum :=
          sizeSum_cons_eq _ _ _ hsplit
        have hcs : (casUpdate ⟨key, value, optExpireAt opts now, optFlags opts, optCas opts,
            false⟩ e0).Size = (⟨key, value, optExpireAt opts now, optFlags opts, optCas opts,
            false⟩ : Entry).Size := by
          show (e0.key.length : Int) + (value.length : Int) + 24 =
            (key.length : Int) + (value.length : Int) + 24
          rw [hekey]
        rw [hss1, hcs, hmem, hss0]
        omega
      · intro e he
        replace he : e ∈ bucketEntries ((c.shardAt (c.getShardIdx hashKey key)).m.insert
            hashKey ⟨key, value, optExpireAt opts now, optFlags opts, optCas opts,
              false⟩).1.buckets := he
        rw [hsE, Multiset.mem_cons] at he
        rcases he with rfl | he
        · show e0.evicted = false
          exact hnoev e0 he0mem
        · refine hnoev e ?_
          rw [hsplit]
          exact Multiset.mem_cons_of_mem he
    refine ⟨cacheGood_setShard hashKey c _ _ ⟨hn, hlen, hall⟩ hilt hshG, ?_, ?_, rfl⟩
    · rw [cacheGet_setShard hashKey c _ _ key hilt', if_pos rfl]
      refine ⟨casUpdate ⟨key, value, optExpireAt opts now, optFlags opts, optCas opts,
        false⟩ e0, ?_, rfl, rfl, ?_⟩
      · show ((c.shardAt (c.getShardIdx hashKey key)).m.insert hashKey
          ⟨key, value, optExpireAt opts now, optFlags opts, optCas opts,
            false⟩).1.get hashKey key = some _
        refine (get_iff hashKey _ key _ hsI.table_ok).mpr ⟨?_, hekey⟩
        rw [hsE]
        exact Multiset.mem_cons_self _ _
      · show e0.evicted = false
        exact hnoev e0 he0mem
    · intro k' hk'
      rw [cacheGet_setShard hashKey c _ _ k' hilt']
      by_cases hsame : c.getShardIdx hashKey k' = c.getShardIdx hashKey key
      · rw [if_pos hsame]
        show ((c.shardAt (c.getShardIdx hashKey key)).m.insert hashKey
          ⟨key, value, optExpireAt opts now, optFlags opts, optCas opts,
            false⟩).1.get hashKey k' = cacheGet hashKey c k'
        unfold cacheGet
        rw [hsame]
        apply get_congr hashKey _ _ k' hsI.table_ok hMI.table_ok
        intro e hek
        rw [hsE, Multiset.mem_cons, hsplit, Multiset.mem_cons]
        constructor
        · rintro (rfl | h)
          · exact absurd (hek.symm.trans hekey) hk'
          · exact Or.inr h
        · rintro (rfl | h)
          · exact absurd (hek.symm.trans hekey) hk'
          · exact Or.inr h
      · rw [if_neg hsame]

theorem delete_reduce_miss (hashKey : Key → Nat) (c : Cache) (key : Key)
    (hlk : (c.shardAt (c.getShardIdx hashKey key)).m.lookup key (hashKey key) = none) :
    c.Delete hashKey key = (false, c.setShard (c.getShardIdx hashKey key)
      { c.shardAt (c.getShardIdx hashKey key) with
        numOps := (c.shardAt (c.getShardIdx hashKey key)).numOps + 1 }) := by
  simp only [Cache.Delete]
  rw [delete_miss_spec _ _ _ hlk]

theorem delete_reduce_hit (hashKey : Key → Nat) (c : Cache) (key : Key) (e : Entry)
    (hd2 : ((c.shardAt (c.getShardIdx hashKey key)).m.delete key (hashKey key)).2 = some e) :
    c.Delete hashKey key = (true, c.setShard (c.getShardIdx hashKey key)
      { c.shardAt (c.getShardIdx hashKey key) with
        numOps := (c.shardAt (c.getShardIdx hashKey key)).numOps + 1
        m := ((c.shardAt (c.getShardIdx hashKey key)).m.delete key (hashKey key)).1
        memUsed := (c.shardAt (c.getShardIdx hashKey key)).memUsed - e.Size }) := by
  simp only [Cache.Delete]
  simp only [hd2]

/-- Delete on a good zero-limit cache: the invariant is kept, the key is
gone, every other key reads as before. -/
theorem delete_spec_cache (hashKey : Key → Nat) (c : Cache) (key : Key)
    (hg : CacheGood hashKey c) :
    CacheGood hashKey (c.Delete hashKey key).2 ∧
    cacheGet hashKey (c.Delete hashKey key).2 key = none ∧
    (∀ k', k' ≠ key →
      cacheGet hashKey (c.Delete hashKey key).2 k' = cacheGet hashKey c k') ∧
    (c.Delete hashKey key).2.numShards = c.numShards := by
  obtain ⟨hn, hlen, hall⟩ := hg
  have hilt : c.getShardIdx hashKey key < c.numShards := getShardIdx_lt hashKey c key hn
  obtain ⟨hMI, hmem, hmax, hnev, hnoev⟩ := hall _ hilt
  have hilt' : c.getShardIdx hashKey key < c.shards.length := by omega
  cases hlk : (c.shardAt (c.getShardIdx hashKey key)).m.lookup key (hashKey key) with
  | none =>
    rw [delete_reduce_miss hashKey c key hlk]
    have hshG : shardGood hashKey { c.shardAt (c.getShardIdx hashKey key) with
        numOps := (c.shardAt (c.getShardIdx hashKey key)).numOps + 1 } :=
      shardGood_mk hashKey (c.shardAt (c.getShardIdx hashKey key)) _
        ⟨hMI, hmem, hmax, hnev, hnoev⟩ hMI hmem rfl rfl hnoev
    refine ⟨cacheGood_setShard hashKey c _ _ ⟨hn, hlen, hall⟩ hilt hshG, ?_, ?_, rfl⟩
    · rw [cacheGet_setShard hashKey c _ _ key hilt', if_pos rfl]
      show (c.shardAt (c.getShardIdx hashKey key)).m.get hashKey key = none
      unfold Map.get
      rw [hlk]
      rfl
    · intro k' hk'
      rw [cacheGet_setShard hashKey c _ _ k' hilt']
      by_cases hsame : c.getShardIdx hashKey k' = c.getShardIdx hashKey key
      · rw [if_pos hsame]
        show (c.shardAt (c.getShardIdx hashKey key)).m.get hashKey k' = cacheGet hashKey c k'
        unfold cacheGet
        rw [hsame]
      · rw [if_neg hsame]
  | some p =>
    obtain ⟨e0, idx⟩ := p
    obtain ⟨hd2, hsplit, hdI, _, _⟩ := delete_hit_spec hashKey
      (c.shardAt (c.getShardIdx hashKey key)).m key e0 idx hMI hlk
    obtain ⟨he0key, _, _, _, _⟩ := lookupLoop_found (hashKey key) key
      (c.shardAt (c.getShardIdx hashKey key)).m.buckets.length
      (c.shardAt (c.getShardIdx hashKey key)).m.buckets
      ((c.shardAt (c.getShardIdx hashKey key)).m.maskIdx (hashKey key)) 0 e0 idx hlk
    have hnd := keys_nodup_of_keysUniq (c.shardAt (c.getShardIdx hashKey key)).m.buckets
      hMI.table_ok.2.2.2
    rw [hsplit, Multiset.map_cons, Multiset.nodup_cons] at hnd
    rw [delete_reduce_hit hashKey c key e0 hd2]
    have hss : sizeSum (c.shardAt (c.getShardIdx hashKey key)).m.buckets =
        e0.Size + ((bucketEntries ((c.shardAt (c.getShardIdx hashKey key)).m.delete key
          (hashKey key)).1.buckets).map Entry.Size).sum :=
      sizeSum_cons_eq _ _ _ hsplit
    have hshG : shardGood hashKey { c.shardAt (c.getShardIdx hashKey key) with
        numOps := (c.shardAt (c.getShardIdx hashKey key)).numOps + 1
        m := ((c.shardAt (c.getShardIdx hashKey key)).m.delete key (hashKey key)).1
        memUsed := (c.shardAt (c.getShardIdx hashKey key)).memUsed - e0.Size } := by
      refine shardGood_mk hashKey (c.shardAt (c.getShardIdx hashKey key)) _
        ⟨hMI, hmem, hmax, hnev, hnoev⟩ hdI ?_ rfl rfl ?_
      · show (c.shardAt (c.getShardIdx hashKey key)).memUsed - e0.Size =
          sizeSum ((c.shardAt (c.getShardIdx hashKey key)).m.delete key (hashKey key)).1.buckets
        rw [hmem, hss]
        show _ = ((bucketEntries ((c.shardAt (c.getShardIdx hashKey key)).m.delete key
          (hashKey key)).1.buckets).map Entry.Size).sum
        omega
      · intro e he
        replace he : e ∈ bucketEntries ((c.shardAt (c.getShardIdx hashKey key)).m.delete key
            (hashKey key)).1.buckets := he
        refine hnoev e ?_
        rw [hsplit]
        exact Multiset.mem_cons_of_mem he
    refine ⟨cacheGood_setShard hashKey c _ _ ⟨hn, hlen, hall⟩ hilt hshG, ?_, ?_, rfl⟩
    · rw [cacheGet_setShard hashKey c _ _ key hilt', if_pos rfl]
      show ((c.shardAt (c.getShardIdx hashKey key)).m.delete key
        (hashKey key)).1.get hashKey key = none
      refine (get_none_iff hashKey _ key hdI.table_ok).mpr ?_
      intro e he hekk
      refine hnd.1 ?_
      rw [he0key]
      have h2 := Multiset.mem_map_of_mem Entry.key he
      rw [hekk] at h2
      exact h2
    · intro k' hk'
      rw [cacheGet_setShard hashKey c _ _ k' hilt']
      by_cases hsame : c.getShardIdx hashKey k' = c.getShardIdx hashKey key
      · rw [if_pos hsame]
        show ((c.shardAt (c.getShardIdx hashKey key)).m.delete key
          (hashKey key)).1.get hashKey k' = cacheGet hashKey c k'
        unfold cacheGet
        rw [hsame]
        apply get_congr hashKey _ _ k' hdI.table_ok hMI.table_ok
        intro e hek
        rw [hsplit, Multiset.mem_cons]
        constructor
        · intro h
          exact Or.inr h
        · rintro (rfl | h)
          · exact absurd (hek.symm.trans he0key) hk'
          · exact h
      · rw [if_neg hsame]

theorem setShard_setShard (c : Cache) (i : Nat) (a b : Shard) :
    (c.setShard i a).setShard i b = c.setShard i b := by
  show Cache.mk ((c.shards.set i a).set i b) c.numShards c.maxMemory =
    Cache.mk (c.shards.set i b) c.numShards c.maxMemory
  rw [List.set_set]

theorem cacheGet_counter_setShard (hashKey : Key → Nat) (c : Cache) (i : Nat) (sh' : Shard)
    (hm : sh'.m = (c.shardAt i).m) (hi : i < c.shards.length) (k : Key) :
    cacheGet hashKey (c.setShard i sh') k = cacheGet hashKey c k := by
  rw [cacheGet_setShard hashKey c i sh' k hi]
  by_cases h : c.getShardIdx hashKey k = i
  · rw [if_pos h, hm]
    unfold cacheGet
    rw [h]
  · rw [if_neg h]

theorem cacheGood_counter (hashKey : Key → Nat) (c : Cache) (i : Nat) (sh' : Shard)
    (hg : CacheGood hashKey c) (hi : i < c.numShards)
    (hm : sh'.m = (c.shardAt i).m) (hmem2 : sh'.memUsed = (c.shardAt i).memUsed)
    (hmax2 : sh'.maxMemory = (c.shardAt i).maxMemory)
    (hnev2 : sh'.numEvicted = (c.shardAt i).numEvicted) :
    CacheGood hashKey (c.setShard i sh') := by
  obtain ⟨hMI, hmem, hmax, hnev, hnoev⟩ := hg.2.2 i hi
  refine cacheGood_setShard hashKey c i sh' hg hi ?_
  exact ⟨by rw [hm]; exact hMI, by rw [hmem2, hm]; exact hmem, by rw [hmax2]; exact hmax,
    by rw [hnev2]; exact hnev, by rw [hm]; exact hnoev⟩

/-- Load on a good zero-limit cache: the invariant is kept, other keys read
as before, and when the key's entry (if any) is not expired the call
returns exactly the stored entry and leaves the stored data unchanged. -/
theorem load_spec_cache (hashKey : Key → Nat) (c : Cache) (key : Key) (now : Int)
    (hg : CacheGood hashKey c) :
    CacheGood hashKey (c.Load hashKey key now).2 ∧
    (∀ k', k' ≠ key →
      cacheGet hashKey (c.Load hashKey key now).2 k' = cacheGet hashKey c k') ∧
    ((∀ e, cacheGet hashKey c key = some e → e.IsExpired now = false) →
      (c.Load hashKey key now).1 = cacheGet hashKey c key ∧
      cacheGet hashKey (c.Load hashKey key now).2 key = cacheGet hashKey c key) ∧
    (c.Load hashKey key now).2.numShards = c.numShards := by
  obtain ⟨hn, hlen, hall⟩ := hg
  have hilt : c.getShardIdx hashKey key < c.numShards := getShardIdx_lt hashKey c key hn
  obtain ⟨hMI, hmem, hmax, hnev, hnoev⟩ := hall _ hilt
  have hilt' : c.getShardIdx hashKey key < c.shards.length := by omega
  cases hget : (c.shardAt (c.getShardIdx hashKey key)).m.get hashKey key with
  | none =>
    have hred : c.Load hashKey key now = (none, c.setShard (c.getShardIdx hashKey key)
        { c.shardAt (c.getShardIdx hashKey key) with
          numOps := (c.shardAt (c.getShardIdx hashKey key)).numOps + 1
          numMisses := (c.shardAt (c.getShardIdx hashKey key)).numMisses + 1 }) := by
      simp only [Cache.Load, hget]
      rw [shardAt_setShard c _ _ _ hilt', if_pos rfl, setShard_setShard]
    have hred1 : (c.Load hashKey key now).1 = none := by rw [hred]
    have hred2 : (c.Load hashKey key now).2 = c.setShard (c.getShardIdx hashKey key)
        { c.shardAt (c.getShardIdx hashKey key) with
          numOps := (c.shardAt (c.getShardIdx hashKey key)).numOps + 1
          numMisses := (c.shardAt (c.getShardIdx hashKey key)).numMisses + 1 } := by
      rw [hred]
    rw [hred1, hred2]
    refine ⟨cacheGood_counter hashKey c _ _ ⟨hn, hlen, hall⟩ hilt rfl rfl rfl rfl,
      ?_, ?_, rfl⟩
    · intro k' _
      exact cacheGet_counter_setShard hashKey c (c.getShardIdx hashKey key)
        { c.shardAt (c.getShardIdx hashKey key) with
          numOps := (c.shardAt (c.getShardIdx hashKey key)).numOps + 1
          numMisses := (c.shardAt (c.getShardIdx hashKey key)).numMisses + 1 } rfl hilt' k'
    · intro _
      refine ⟨hget.symm, ?_⟩
      rw [cacheGet_counter_setShard hashKey c (c.getShardIdx hashKey key)
        { c.shardAt (c.getShardIdx hashKey key) with
          numOps := (c.shardAt (c.getShardIdx hashKey key)).numOps + 1
          numMisses := (c.shardAt (c.getShardIdx hashKey key)).numMisses + 1 } rfl hilt' key]
  | some e =>
    have hemem := (get_iff hashKey _ key e hMI.table_ok).mp hget
    have hev : e.evicted = false := hnoev e hemem.1
    by_cases hexp : e.IsExpired now = true
    · -- the expired path deletes the entry and counts expiry and miss
      have hgC1 : CacheGood hashKey (c.setShard (c.getShardIdx hashKey key)
          { c.shardAt (c.getShardIdx hashKey key) with
            numOps := (c.shardAt (c.getShardIdx hashKey key)).numOps + 1 }) :=
        cacheGood_counter hashKey c (c.getShardIdx hashKey key)
          { c.shardAt (c.getShardIdx hashKey key) with
            numOps := (c.shardAt (c.getShardIdx hashKey key)).numOps + 1 }
          ⟨hn, hlen, hall⟩ hilt rfl rfl rfl rfl
      obtain ⟨hgD, hDkey, hDk, hDn⟩ := delete_spec_cache hashKey
        (c.setShard (c.getShardIdx hashKey key)
          { c.shardAt (c.getShardIdx hashKey key) with
            numOps := (c.shardAt (c.getShardIdx hashKey key)).numOps + 1 }) key hgC1
      simp only [Cache.Load, hget]
      rw [if_neg (by rw [hev]; exact Bool.false_ne_true), if_pos hexp]
      set D := ((c.setShard (c.getShardIdx hashKey key)
        { c.shardAt (c.getShardIdx hashKey key) with
          numOps := (c.shardAt (c.getShardIdx hashKey key)).numOps + 1 }).Delete
        hashKey key).2 with hD
      have hDnum : D.numShards = c.numShards := by
        rw [hDn]
        rfl
      have hiltD : c.getShardIdx hashKey key < D.numShards := by
        rw [hDnum]
        exact hilt
      have hlenD : c.getShardIdx hashKey key < D.shards.length := by
        rw [hgD.2.1]
        exact hiltD
      rw [shardAt_setShard D _ _ _ hlenD, if_pos rfl, setShard_setShard]
      have hgC3 : CacheGood hashKey (D.setShard (c.getShardIdx hashKey key)
          { D.shardAt (c.getShardIdx hashKey key) with
            numExpired := (D.shardAt (c.getShardIdx hashKey key)).numExpired + 1
            numMisses := (D.shardAt (c.getShardIdx hashKey key)).numMisses + 1 }) :=
        cacheGood_counter hashKey D (c.getShardIdx hashKey key)
          { D.shardAt (c.getShardIdx hashKey key) with
            numExpired := (D.shardAt (c.getShardIdx hashKey key)).numExpired + 1
            numMisses := (D.shardAt (c.getShardIdx hashKey key)).numMisses + 1 }
          hgD hiltD rfl rfl rfl rfl
      refine ⟨hgC3, ?_, ?_, hDnum⟩
      · intro k' hk'
        rw [cacheGet_counter_setShard hashKey D (c.getShardIdx hashKey key)
          { D.shardAt (c.getShardIdx hashKey key) with
            numExpired := (D.shardAt (c.getShardIdx hashKey key)).numExpired + 1
            numMisses := (D.shardAt (c.getShardIdx hashKey key)).numMisses + 1 } rfl hlenD k']
        rw [hD]
        rw [hDk k' hk']
        exact cacheGet_counter_setShard hashKey c (c.getShardIdx hashKey key)
          { c.shardAt (c.getShardIdx hashKey key) with
            numOps := (c.shardAt (c.getShardIdx hashKey key)).numOps + 1 } rfl hilt' k'
      · intro hnex
        exact absurd (hexp.symm.trans (hnex e hget)) (by decide)
    · -- live entry: a hit, data untouched
      have hred : c.Load hashKey key now = (some e, c.setShard (c.getShardIdx hashKey key)
          { c.shardAt (c.getShardIdx hashKey key) with
            numOps := (c.shardAt (c.getShardIdx hashKey key)).numOps + 1
            numHits := (c.shardAt (c.getShardIdx hashKey key)).numHits + 1 }) := by
        simp only [Cache.Load, hget]
        rw [if_neg (by rw [hev]; exact Bool.false_ne_true), if_neg hexp,
          shardAt_setShard c _ _ _ hilt', if_pos rfl, setShard_setShard]
      have hred1 : (c.Load hashKey key now).1 = some e := by rw [hred]
      have hred2 : (c.Load hashKey key now).2 = c.setShard (c.getShardIdx hashKey key)
          { c.shardAt (c.getShardIdx hashKey key) with
            numOps := (c.shardAt (c.getShardIdx hashKey key)).numOps + 1
            numHits := (c.shardAt (c.getShardIdx hashKey key)).numHits + 1 } := by
        rw [hred]
      rw [hred1, hred2]
      refine ⟨cacheGood_counter hashKey c _ _ ⟨hn, hlen, hall⟩ hilt rfl rfl rfl rfl,
        ?_, ?_, rfl⟩
      · intro k' _
        exact cacheGet_counter_setShard hashKey c (c.getShardIdx hashKey key)
          { c.shardAt (c.getShardIdx hashKey key) with
            numOps := (c.shardAt (c.getShardIdx hashKey key)).numOps + 1
            numHits := (c.shardAt (c.getShardIdx hashKey key)).numHits + 1 } rfl hilt' k'
      · intro _
        refine ⟨hget.symm, ?_⟩
        rw [cacheGet_counter_setShard hashKey c (c.getShardIdx hashKey key)
          { c.shardAt (c.getShardIdx hashKey key) with
            numOps := (c.shardAt (c.getShardIdx hashKey key)).numOps + 1
            numHits := (c.shardAt (c.getShardIdx hashKey key)).numHits + 1 } rfl hilt' key]

/-- In-place rewrite of a looked-up entry through a key-preserving update
(the pointer writes of Increment and CompareAndSwap): contents exchange,
invariants, and the resulting reads. -/
theorem update_inplace_spec (hashKey : Key → Nat) (m : Map) (key : Key) (e : Entry)
    (idx : Nat) (f : Entry → Entry) (hf : ∀ x, (f x).key = x.key)
    (hinv : MapInv hashKey m)
    (hlk : m.lookup key (hashKey key) = some (e, idx)) :
    e.key = key ∧
    bucketEntries m.buckets = e ::ₘ bucketEntries (m.buckets.set idx none) ∧
    bucketEntries (updateBucketEntry m.buckets idx f) =
      f e ::ₘ bucketEntries (m.buckets.set idx none) ∧
    MapInv hashKey { m with buckets := updateBucketEntry m.buckets idx f } ∧
    Map.get hashKey { m with buckets := updateBucketEntry m.buckets idx f } key =
      some (f e) ∧
    (∀ k', k' ≠ key →
      Map.get hashKey { m with buckets := updateBucketEntry m.buckets idx f } k' =
        m.get hashKey k') := by
  obtain ⟨hekey, b, hb, hbe, hbh⟩ := lookupLoop_found (hashKey key) key m.buckets.length
    m.buckets (m.maskIdx (hashKey key)) 0 e idx hlk
  have hlt : idx < m.buckets.length := getD_some_lt m.buckets idx b hb
  have hsplit : bucketEntries m.buckets = e ::ₘ bucketEntries (m.buckets.set idx none) := by
    have h := contents_split m.buckets idx b hlt hb
    rw [hbe] at h
    exact h
  have hupd := updateBucketEntry_entries m.buckets idx f b hlt hb
  rw [hbe] at hupd
  have htbl' : TableOk hashKey (updateBucketEntry m.buckets idx f) :=
    tableOk_of_sim hashKey _ _ (updateBucketEntry_sim m.buckets idx f hf) hinv.table_ok
  have hcard : Multiset.card (bucketEntries (updateBucketEntry m.buckets idx f)) =
      Multiset.card (bucketEntries m.buckets) := by
    rw [hupd, hsplit, Multiset.card_cons, Multiset.card_cons]
  have hMI' : MapInv hashKey { m with buckets := updateBucketEntry m.buckets idx f } :=
    MapInv.transport hashKey hinv (length_updateBucketEntry m.buckets idx f) rfl rfl rfl
      rfl hcard htbl'
  refine ⟨hekey, hsplit, hupd, hMI', ?_, ?_⟩
  · refine (get_iff hashKey _ key _ hMI'.table_ok).mpr ⟨?_, ?_⟩
    · show f e ∈ bucketEntries (updateBucketEntry m.buckets idx f)
      rw [hupd]
      exact Multiset.mem_cons_self _ _
    · rw [hf e]
      exact hekey
  · intro k' hk'
    apply get_congr hashKey _ _ k' hMI'.table_ok hinv.table_ok
    intro x hxk
    show x ∈ bucketEntries (updateBucketEntry m.buckets idx f) ↔ _
    rw [hupd, Multiset.mem_cons, hsplit, Multiset.mem_cons]
    constructor
    · rintro (rfl | h)
      · exact absurd (hxk.symm.trans ((hf e).trans hekey)) hk'
      · exact Or.inr h
    · rintro (rfl | h)
      · exact absurd (hxk.symm.trans hekey) hk'
      · exact Or.inr h

/-- Increment on a zero-limit shard, absent key: count the op, insert the
encoded delta with fresh metadata, add the entry's size. -/
theorem inc_reduce_miss (hashKey : Key → Nat) (c : Cache) (key : Key) (delta : Int)
    (now : Int) (coins : List Bool)
    (hmax : (c.shardAt (c.getShardIdx hashKey key)).maxMemory ≤ 0)
    (hlk : (c.shardAt (c.getShardIdx hashKey key)).m.lookup key (hashKey key) = none) :
    c.Increment hashKey key delta now coins =
      (delta, c.setShard (c.getShardIdx hashKey key)
        { c.shardAt (c.getShardIdx hashKey key) with
          numOps := (c.shardAt (c.getShardIdx hashKey key)).numOps + 1
          m := ((c.shardAt (c.getShardIdx hashKey key)).m.insert hashKey
            ⟨key, int64ToBytes delta, 0, 0, 0, false⟩).1
          memUsed := (c.shardAt (c.getShardIdx hashKey key)).memUsed +
            (⟨key, int64ToBytes delta, 0, 0, 0, false⟩ : Entry).Size }) := by
  simp only [Cache.Increment, hlk]
  rw [evictIfNeeded_noop]
  exact hmax

/-- Increment on a zero-limit shard, present key: count the op, rewrite the
entry in place with the new encoded value and a bumped cas, move the memory
by the size difference. -/
theorem inc_reduce_hit (hashKey : Key → Nat) (c : Cache) (key : Key) (delta : Int)
    (now : Int) (coins : List Bool) (e0 : Entry) (idx : Nat)
    (hlk : (c.shardAt (c.getShardIdx hashKey key)).m.lookup key (hashKey key) =
      some (e0, idx)) :
    c.Increment hashKey key delta now coins =
      (wrap64 (bytesToInt64 e0.value + delta),
       c.setShard (c.getShardIdx hashKey key)
        { c.shardAt (c.getShardIdx hashKey key) with
          numOps := (c.shardAt (c.getShardIdx hashKey key)).numOps + 1
          m := { (c.shardAt (c.getShardIdx hashKey key)).m with
            buckets := updateBucketEntry (c.shardAt (c.getShardIdx hashKey key)).m.buckets
              idx (fun ex => Entry.IncrementCAS { ex with
                value := int64ToBytes (wrap64 (bytesToInt64 e0.value + delta)) }) }
          memUsed := (c.shardAt (c.getShardIdx hashKey key)).memUsed +
            ((Entry.IncrementCAS { e0 with
              value := int64ToBytes (wrap64 (bytesToInt64 e0.value + delta)) }).Size -
              e0.Size) }) := by
  simp only [Cache.Increment, hlk]

/-- Increment on a good zero-limit cache: the invariant is kept, other keys
are unchanged, an absent key gets the encoded delta (returned as is), a
present key gets its decoded value plus delta re-encoded with a bumped cas
(the sum returned). -/
theorem inc_spec_cache (hashKey : Key → Nat) (c : Cache) (key : Key) (delta now : Int)
    (coins : List Bool) (hg : CacheGood hashKey c) :
    CacheGood hashKey (c.Increment hashKey key delta now coins).2 ∧
    (∀ k', k' ≠ key →
      cacheGet hashKey (c.Increment hashKey key delta now coins).2 k' =
        cacheGet hashKey c k') ∧
    (cacheGet hashKey c key = none →
      (c.Increment hashKey key delta now coins).1 = delta ∧
      cacheGet hashKey (c.Increment hashKey key delta now coins).2 key =
        some ⟨key, int64ToBytes delta, 0, 0, 0, false⟩) ∧
    (∀ e, cacheGet hashKey c key = some e →
      (c.Increment hashKey key delta now coins).1 =
        wrap64 (bytesToInt64 e.value + delta) ∧
      cacheGet hashKey (c.Increment hashKey key delta now coins).2 key =
        some (Entry.IncrementCAS { e with
          value := int64ToBytes (wrap64 (bytesToInt64 e.value + delta)) })) ∧
    (c.Increment hashKey key delta now coins).2.numShards = c.numShards := by
  obtain ⟨hn, hlen, hall⟩ := hg
  have hilt : c.getShardIdx hashKey key < c.numShards := getShardIdx_lt hashKey c key hn
  obtain ⟨hMI, hmem, hmax, hnev, hnoev⟩ := hall _ hilt
  have hilt' : c.getShardIdx hashKey key < c.shards.length := by omega
  cases hlk : (c.shardAt (c.getShardIdx hashKey key)).m.lookup key (hashKey key) with
  | none =>
    have hget : cacheGet hashKey c key = none := by
      show ((c.shardAt (c.getShardIdx hashKey key)).m.lookup key (hashKey key)).map (·.1) =
        none
      rw [hlk]
      rfl
    obtain ⟨hs2, hsE, hsI, _, _⟩ := insert_miss_spec hashKey
      (c.shardAt (c.getShardIdx hashKey key)).m
      ⟨key, int64ToBytes delta, 0, 0, 0, false⟩ hMI hlk
    have hred := inc_reduce_miss hashKey c key delta now coins hmax hlk
    have hred1 : (c.Increment hashKey key delta now coins).1 = delta := by rw [hred]
    have hred2 : (c.Increment hashKey key delta now coins).2 =
        c.setShard (c.getShardIdx hashKey key)
          { c.shardAt (c.getShardIdx hashKey key) with
            numOps := (c.shardAt (c.getShardIdx hashKey key)).numOps + 1
            m := ((c.shardAt (c.getShardIdx hashKey key)).m.insert hashKey
              ⟨key, int64ToBytes delta, 0, 0, 0, false⟩).1
            memUsed := (c.shardAt (c.getShardIdx hashKey key)).memUsed +
              (⟨key, int64ToBytes delta, 0, 0, 0, false⟩ : Entry).Size } := by rw [hred]
    have hshG : shardGood hashKey { c.shardAt (c.getShardIdx hashKey key) with
        numOps := (c.shardAt (c.getShardIdx hashKey key)).numOps + 1
        m := ((c.shardAt (c.getShardIdx hashKey key)).m.insert hashKey
          ⟨key, int64ToBytes delta, 0, 0, 0, false⟩).1
        memUsed := (c.shardAt (c.getShardIdx hashKey key)).memUsed +
          (⟨key, int64ToBytes delta, 0, 0, 0, false⟩ : Entry).Size } := by
      refine shardGood_mk hashKey (c.shardAt (c.getShardIdx hashKey key)) _
        ⟨hMI, hmem, hmax, hnev, hnoev⟩ hsI ?_ rfl rfl ?_
      · show (c.shardAt (c.getShardIdx hashKey key)).memUsed +
          (⟨key, int64ToBytes delta, 0, 0, 0, false⟩ : Entry).Size =
          sizeSum ((c.shardAt (c.getShardIdx hashKey key)).m.insert hashKey
            ⟨key, int64ToBytes delta, 0, 0, 0, false⟩).1.buckets
        have hss := sizeSum_cons_eq _ _ _ hsE
        rw [hss, hmem]
        show sizeSum (c.shardAt (c.getShardIdx hashKey key)).m.buckets + _ =
          _ + sizeSum (c.shardAt (c.getShardIdx hashKey key)).m.buckets
        omega
      · intro e he
        replace he : e ∈ bucketEntries ((c.shardAt (c.getShardIdx hashKey key)).m.insert
            hashKey ⟨key, int64ToBytes delta, 0, 0, 0, false⟩).1.buckets := he
        rw [hsE, Multiset.mem_cons] at he
        rcases he with rfl | he
        · rfl
        · exact hnoev e he
    refine ⟨?_, ?_, ?_, ?_, ?_⟩
    · rw [hred2]
      exact cacheGood_setShard hashKey c _ _ ⟨hn, hlen, hall⟩ hilt hshG
    · intro k' hk'
      rw [hred2, cacheGet_setShard hashKey c _ _ k' hilt']
      by_cases hsame : c.getShardIdx hashKey k' = c.getShardIdx hashKey key
      · rw [if_pos hsame]
        show ((c.shardAt (c.getShardIdx hashKey key)).m.insert hashKey
          ⟨key, int64ToBytes delta, 0, 0, 0, false⟩).1.get hashKey k' = cacheGet hashKey c k'
        unfold cacheGet
        rw [hsame]
        apply get_congr hashKey _ _ k' hsI.table_ok hMI.table_ok
        intro e hek
        rw [hsE, Multiset.mem_cons]
        constructor
        · rintro (rfl | h)
          · exact absurd hek.symm hk'
          · exact h
        · intro h
          exact Or.inr h
      · rw [if_neg hsame]
    · intro _
      refine ⟨hred1, ?_⟩
      rw [hred2, cacheGet_setShard hashKey c _ _ key hilt', if_pos rfl]
      show ((c.shardAt (c.getShardIdx hashKey key)).m.insert hashKey
        ⟨key, int64ToBytes delta, 0, 0, 0, false⟩).1.get hashKey key = some _
      refine (get_iff hashKey _ key _ hsI.table_ok).mpr ⟨?_, rfl⟩
      rw [hsE]
      exact Multiset.mem_cons_self _ _
    · intro e he
      rw [hget] at he
      exact absurd he (by simp)
    · rw [hred2]
      rfl
  | some p =>
    obtain ⟨e0, idx⟩ := p
    have hget : cacheGet hashKey c key = some e0 := by
      show ((c.shardAt (c.getShardIdx hashKey key)).m.lookup key (hashKey key)).map (·.1) =
        some e0
      rw [hlk]
      rfl
    obtain ⟨hekey, hsplit, hupd, hMI', hget', hframe⟩ := update_inplace_spec hashKey
      (c.shardAt (c.getShardIdx hashKey key)).m key e0 idx
      (fun ex => Entry.IncrementCAS { ex with
        value := int64ToBytes (wrap64 (bytesToInt64 e0.value + delta)) })
      (fun _ => rfl) hMI hlk
    have hred := inc_reduce_hit hashKey c key delta now coins e0 idx hlk
    have hred1 : (c.Increment hashKey key delta now coins).1 =
        wrap64 (bytesToInt64 e0.value + delta) := by rw [hred]
    have hred2 : (c.Increment hashKey key delta now coins).2 =
        c.setShard (c.getShardIdx hashKey key)
          { c.shardAt (c.getShardIdx hashKey key) with
            numOps := (c.shardAt (c.getShardIdx hashKey key)).numOps + 1
            m := { (c.shardAt (c.getShardIdx hashKey key)).m with
              buckets := updateBucketEntry
                (c.shardAt (c.getShardIdx hashKey key)).m.buckets idx
                (fun ex => Entry.IncrementCAS { ex with
                  value := int64ToBytes (wrap64 (bytesToInt64 e0.value + delta)) }) }
            memUsed := (c.shardAt (c.getShardIdx hashKey key)).memUsed +
              ((Entry.IncrementCAS { e0 with
                value := int64ToBytes (wrap64 (bytesToInt64 e0.value + delta)) }).Size -
                e0.Size) } := by rw [hred]
    have he0mem : e0 ∈ bucketEntries (c.shardAt (c.getShardIdx hashKey key)).m.buckets := by
      rw [hsplit]
      exact Multiset.mem_cons_self _ _
    have hshG : shardGood hashKey { c.shardAt (c.getShardIdx hashKey key) with
        numOps := (c.shardAt (c.getShardIdx hashKey key)).numOps + 1
        m := { (c.shardAt (c.getShardIdx hashKey key)).m with
          buckets := updateBucketEntry
            (c.shardAt (c.getShardIdx hashKey key)).m.buckets idx
            (fun ex => Entry.IncrementCAS { ex with
              value := int64ToBytes (wrap64 (bytesToInt64 e0.value + delta)) }) }
        memUsed := (c.shardAt (c.getShardIdx hashKey key)).memUsed +
          ((Entry.IncrementCAS { e0 with
            value := int64ToBytes (wrap64 (bytesToInt64 e0.value + delta)) }).Size -
            e0.Size) } := by
      refine shardGood_mk hashKey (c.shardAt (c.getShardIdx hashKey key)) _
        ⟨hMI, hmem, hmax, hnev, hnoev⟩ hMI' ?_ rfl rfl ?_
      · have hss1 := sizeSum_cons_eq _ _ _ hupd
        have hss0 := sizeSum_cons_eq _ _ _ hsplit
        show (c.shardAt (c.getShardIdx hashKey key)).memUsed +
          ((Entry.IncrementCAS { e0 with
            value := int64ToBytes (wrap64 (bytesToInt64 e0.value + delta)) }).Size -
            e0.Size) =
          sizeSum (updateBucketEntry (c.shardAt (c.getShardIdx hashKey key)).m.buckets idx
            (fun ex => Entry.IncrementCAS { ex with
              value := int64ToBytes (wrap64 (bytesToInt64 e0.value + delta)) }))
        rw [hss1, hmem, hss0]
        omega
      · intro e he
        replace he : e ∈ bucketEntries (updateBucketEntry
            (c.shardAt (c.getShardIdx hashKey key)).m.buckets idx
            (fun ex => Entry.IncrementCAS { ex with
              value := int64ToBytes (wrap64 (bytesToInt64 e0.value + delta)) })) := he
        rw [hupd, Multiset.mem_cons] at he
        rcases he with rfl | he
        · show e0.evicted = false
          exact hnoev e0 he0mem
        · refine hnoev e ?_
          rw [hsplit]
          exact Multiset.mem_cons_of_mem he
    refine ⟨?_, ?_, ?_, ?_, ?_⟩
    · rw [hred2]
      exact cacheGood_setShard hashKey c _ _ ⟨hn, hlen, hall⟩ hilt hshG
    · intro k' hk'
      rw [hred2, cacheGet_setShard hashKey c _ _ k' hilt']
      by_cases hsame : c.getShardIdx hashKey k' = c.getShardIdx hashKey key
      · rw [if_pos hsame]
        show Map.get hashKey { (c.shardAt (c.getShardIdx hashKey key)).m with
          buckets := updateBucketEntry (c.shardAt (c.getShardIdx hashKey key)).m.buckets idx
            (fun ex => Entry.IncrementCAS { ex with
              value := int64ToBytes (wrap64 (bytesToInt64 e0.value + delta)) }) } k' =
          cacheGet hashKey c k'
        unfold cacheGet
        rw [hsame]
        exact hframe k' hk'
      · rw [if_neg hsame]
    · intro h
      rw [hget] at h
      exact absurd h (by simp)
    · intro e he
      rw [hget] at he
      cases Option.some.inj he
      refine ⟨hred1, ?_⟩
      rw [hred2, cacheGet_setShard hashKey c _ _ key hilt', if_pos rfl]
      exact hget'
    · rw [hred2]
      rfl

/-- Reduction of a matching CompareAndSwap on a zero-limit shard: eviction is
skipped, the entry is rewritten in place, memory moves by the value-length
difference. -/
theorem cas_reduce_match (hashKey : Key → Nat) (c : Cache) (key value : Key) (cas : Nat)
    (opts : Option StoreOptions) (now : Int) (coins : List Bool) (e : Entry) (idx : Nat)
    (hmax : (c.shardAt (c.getShardIdx hashKey key)).maxMemory ≤ 0)
    (hlk : (c.shardAt (c.getShardIdx hashKey key)).m.lookup key (hashKey key) = some (e, idx))
    (heq : e.cas = cas) :
    c.CompareAndSwap hashKey key value cas opts now coins =
      (true, c.setShard (c.getShardIdx hashKey key)
        { c.shardAt (c.getShardIdx hashKey key) with
          numOps := (c.shardAt (c.getShardIdx hashKey key)).numOps + 1
          m := { (c.shardAt (c.getShardIdx hashKey key)).m with
            buckets := updateBucketEntry (c.shardAt (c.getShardIdx hashKey key)).m.buckets
              idx (fun ex => Entry.IncrementCAS { ex with value := value, expireAt := optExpireAt opts now, flags := optFlags opts }) }
          memUsed := (c.shardAt (c.getShardIdx hashKey key)).memUsed +
            ((value.length : Int) - (e.value.length : Int)) }) := by
  simp only [Cache.CompareAndSwap, hlk]
  rw [if_neg (by simp [heq])]
  rw [evictIfNeeded_noop]
  exact hmax

/-- CompareAndSwap on a good zero-limit cache: the invariant is kept, a
false return leaves every key unchanged, a true return rewrites the matched
entry (value/expiry/flags, cas bumped) and moves that shard's memory by
exactly the value-length difference; other keys always read as before. -/
theorem cas_spec_cache (hashKey : Key → Nat) (c : Cache) (key value : Key) (cas : Nat)
    (opts : Option StoreOptions) (now : Int) (coins : List Bool) (hg : CacheGood hashKey c) :
    CacheGood hashKey (c.CompareAndSwap hashKey key value cas opts now coins).2 ∧
    ((c.CompareAndSwap hashKey key value cas opts now coins).1 = false →
      ∀ k, cacheGet hashKey (c.CompareAndSwap hashKey key value cas opts now coins).2 k =
        cacheGet hashKey c k) ∧
    ((c.CompareAndSwap hashKey key value cas opts now coins).1 = true →
      ∃ e, cacheGet hashKey c key = some e ∧ e.cas = cas ∧
        cacheGet hashKey (c.CompareAndSwap hashKey key value cas opts now coins).2 key =
          some (Entry.IncrementCAS { e with value := value, expireAt := optExpireAt opts now, flags := optFlags opts }) ∧
        ((c.CompareAndSwap hashKey key value cas opts now coins).2.shardAt
            (c.getShardIdx hashKey key)).memUsed =
          (c.shardAt (c.getShardIdx hashKey key)).memUsed +
            ((value.length : Int) - (e.value.length : Int))) ∧
    (∀ k', k' ≠ key →
      cacheGet hashKey (c.CompareAndSwap hashKey key value cas opts now coins).2 k' =
        cacheGet hashKey c k') ∧
    (c.CompareAndSwap hashKey key value cas opts now coins).2.numShards = c.numShards := by
  obtain ⟨hn, hlen, hall⟩ := hg
  have hilt : c.getShardIdx hashKey key < c.numShards := getShardIdx_lt hashKey c key hn
  obtain ⟨hMI, hmem, hmax, hnev, hnoev⟩ := hall _ hilt
  have hilt' : c.getShardIdx hashKey key < c.shards.length := by omega
  cases hlk : (c.shardAt (c.getShardIdx hashKey key)).m.lookup key (hashKey key) with
  | none =>
    have hred := cas_reduce_none hashKey c key value cas opts now coins hlk
    have hred1 : (c.CompareAndSwap hashKey key value cas opts now coins).1 = false := by
      rw [hred]
    have hred2 : (c.CompareAndSwap hashKey key value cas opts now coins).2 =
        c.setShard (c.getShardIdx hashKey key)
          { c.shardAt (c.getShardIdx hashKey key) with
            numOps := (c.shardAt (c.getShardIdx hashKey key)).numOps + 1 } := by rw [hred]
    have hgall : ∀ k, cacheGet hashKey
        (c.CompareAndSwap hashKey key value cas opts now coins).2 k = cacheGet hashKey c k := by
      intro k
      rw [hred2]
      exact cacheGet_counter_setShard hashKey c (c.getShardIdx hashKey key)
        { c.shardAt (c.getShardIdx hashKey key) with
          numOps := (c.shardAt (c.getShardIdx hashKey key)).numOps + 1 } rfl hilt' k
    refine ⟨?_, fun _ => hgall, ?_, fun k' _ => hgall k', ?_⟩
    · rw [hred2]
      exact cacheGood_counter hashKey c (c.getShardIdx hashKey key)
        { c.shardAt (c.getShardIdx hashKey key) with
          numOps := (c.shardAt (c.getShardIdx hashKey key)).numOps + 1 }
        ⟨hn, hlen, hall⟩ hilt rfl rfl rfl rfl
    · intro h
      rw [hred1] at h
      exact absurd h (by simp)
    · rw [hred2]
      rfl
  | some p =>
    obtain ⟨e0, idx⟩ := p
    have hget : cacheGet hashKey c key = some e0 := by
      show ((c.shardAt (c.getShardIdx hashKey key)).m.lookup key (hashKey key)).map (·.1) =
        some e0
      rw [hlk]
      rfl
    by_cases hcas : e0.cas = cas
    · obtain ⟨hekey, hsplit, hupd, hMI', hget', hframe⟩ := update_inplace_spec hashKey
        (c.shardAt (c.getShardIdx hashKey key)).m key e0 idx
        (fun ex => Entry.IncrementCAS { ex with value := value, expireAt := optExpireAt opts now, flags := optFlags opts })
        (fun _ => rfl) hMI hlk
      have hred := cas_reduce_match hashKey c key value cas opts now coins e0 idx hmax hlk
        hcas
      have hred1 : (c.CompareAndSwap hashKey key value cas opts now coins).1 = true := by
        rw [hred]
      have hred2 : (c.CompareAndSwap hashKey key value cas opts now coins).2 =
          c.setShard (c.getShardIdx hashKey key)
            { c.shardAt (c.getShardIdx hashKey key) with
              numOps := (c.shardAt (c.getShardIdx hashKey key)).numOps + 1
              m := { (c.shardAt (c.getShardIdx hashKey key)).m with
                buckets := updateBucketEntry
                  (c.shardAt (c.getShardIdx hashKey key)).m.buckets idx
                  (fun ex => Entry.IncrementCAS { ex with value := value, expireAt := optExpireAt opts now, flags := optFlags opts }) }
              memUsed := (c.shardAt (c.getShardIdx hashKey key)).memUsed +
                ((value.length : Int) - (e0.value.length : Int)) } := by rw [hred]
      have he0mem : e0 ∈ bucketEntries
          (c.shardAt (c.getShardIdx hashKey key)).m.buckets := by
        rw [hsplit]
        exact Multiset.mem_cons_self _ _
      have hshG : shardGood hashKey { c.shardAt (c.getShardIdx hashKey key) with
          numOps := (c.shardAt (c.getShardIdx hashKey key)).numOps + 1
          m := { (c.shardAt (c.getShardIdx hashKey key)).m with
            buckets := updateBucketEntry
              (c.shardAt (c.getShardIdx hashKey key)).m.buckets idx
              (fun ex => Entry.IncrementCAS { ex with value := value, expireAt := optExpireAt opts now, flags := optFlags opts }) }
          memUsed := (c.shardAt (c.getShardIdx hashKey key)).memUsed +
            ((value.length : Int) - (e0.value.length : Int)) } := by
        refine shardGood_mk hashKey (c.shardAt (c.getShardIdx hashKey key)) _
          ⟨hMI, hmem, hmax, hnev, hnoev⟩ hMI' ?_ rfl rfl ?_
        · have hss1 := sizeSum_cons_eq _ _ _ hupd
          have hss0 := sizeSum_cons_eq _ _ _ hsplit
          show (c.shardAt (c.getShardIdx hashKey key)).memUsed +
            ((value.length : Int) - (e0.value.length : Int)) =
            sizeSum (updateBucketEntry (c.shardAt (c.getShardIdx hashKey key)).m.buckets idx
              (fun ex => Entry.IncrementCAS { ex with value := value, expireAt := optExpireAt opts now, flags := optFlags opts }))
          have hfs : (Entry.IncrementCAS { e0 with value := value, expireAt := optExpireAt opts now, flags := optFlags opts }).Size =
              (e0.key.length : Int) + (value.length : Int) + 24 := rfl
          have he0s : e0.Size = (e0.key.length : Int) + (e0.value.length : Int) + 24 := rfl
          rw [hss1, hfs, hmem, hss0, he0s]
          omega
        · intro e he
          replace he : e ∈ bucketEntries (updateBucketEntry
              (c.shardAt (c.getShardIdx hashKey key)).m.buckets idx
              (fun ex => Entry.IncrementCAS { ex with value := value, expireAt := optExpireAt opts now, flags := optFlags opts })) := he
          rw [hupd, Multiset.mem_cons] at he
          rcases he with rfl | he
          · show e0.evicted = false
            exact hnoev e0 he0mem
          · refine hnoev e ?_
            rw [hsplit]
            exact Multiset.mem_cons_of_mem he
      refine ⟨?_, ?_, ?_, ?_, ?_⟩
      · rw [hred2]
        exact cacheGood_setShard hashKey c _ _ ⟨hn, hlen, hall⟩ hilt hshG
      · intro h
        rw [hred1] at h
        exact absurd h (by simp)
      · intro _
        refine ⟨e0, hget, hcas, ?_, ?_⟩
        · rw [hred2, cacheGet_setShard hashKey c _ _ key hilt', if_pos rfl]
          exact hget'
        · rw [hred2, shardAt_setShard c _ _ _ hilt', if_pos rfl]
      · intro k' hk'
        rw [hred2, cacheGet_setShard hashKey c _ _ k' hilt']
        by_cases hsame : c.getShardIdx hashKey k' = c.getShardIdx hashKey key
        · rw [if_pos hsame]
          show Map.get hashKey { (c.shardAt (c.getShardIdx hashKey key)).m with
            buckets := updateBucketEntry (c.shardAt (c.getShardIdx hashKey key)).m.buckets
              idx (fun ex => Entry.IncrementCAS { ex with value := value, expireAt := optExpireAt opts now, flags := optFlags opts }) } k' =
            cacheGet hashKey c k'
          unfold cacheGet
          rw [hsame]
          exact hframe k' hk'
        · rw [if_neg hsame]
      · rw [hred2]
        rfl
    · have hred := cas_reduce_mismatch hashKey c key value cas opts now coins e0 idx hlk hcas
      have hred1 : (c.CompareAndSwap hashKey key value cas opts now coins).1 = false := by
        rw [hred]
      have hred2 : (c.CompareAndSwap hashKey key value cas opts now coins).2 =
          c.setShard (c.getShardIdx hashKey key)
            { c.shardAt (c.getShardIdx hashKey key) with
              numOps := (c.shardAt (c.getShardIdx hashKey key)).numOps + 1 } := by rw [hred]
      have hgall : ∀ k, cacheGet hashKey
          (c.CompareAndSwap hashKey key value cas opts now coins).2 k =
          cacheGet hashKey c k := by
        intro k
        rw [hred2]
        exact cacheGet_counter_setShard hashKey c (c.getShardIdx hashKey key)
          { c.shardAt (c.getShardIdx hashKey key) with
            numOps := (c.shardAt (c.getShardIdx hashKey key)).numOps + 1 } rfl hilt' k
      refine ⟨?_, fun _ => hgall, ?_, fun k' _ => hgall k', ?_⟩
      · rw [hred2]
        exact cacheGood_counter hashKey c (c.getShardIdx hashKey key)
          { c.shardAt (c.getShardIdx hashKey key) with
            numOps := (c.shardAt (c.getShardIdx hashKey key)).numOps + 1 }
          ⟨hn, hlen, hall⟩ hilt rfl rfl rfl rfl
      · intro h
        rw [hred1] at h
        exact absurd h (by simp)
      · rw [hred2]
        rfl

/-- Every shard of a fresh cache carries a fresh 16-bucket map. -/
theorem shardAt_new_m (nShards : Nat) (i : Nat) :
    ((Cache.New nShards 0).shardAt i).m = NewMap 16 := by
  simp only [Cache.New, Cache.shardAt]
  rcases Nat.lt_or_ge i (if nShards = 0 then 16 else nShards) with h | h
  · rw [getD_replicate _ _ _ i h]
    rfl
  · rw [List.getD_eq_default _ _ (by rw [List.length_replicate]; exact h)]
    rfl

/-- A fresh cache holds nothing. -/
theorem cacheGet_new (hashKey : Key → Nat) (nShards : Nat) (k : Key) :
    cacheGet hashKey (Cache.New nShards 0) k = none := by
  show Map.get hashKey ((Cache.New nShards 0).shardAt _).m k = none
  rw [shardAt_new_m]
  refine (get_none_iff hashKey (NewMap 16) k (NewMap16_inv hashKey).table_ok).mpr ?_
  intro e he
  rw [show bucketEntries (NewMap 16).buckets = 0 from by
    rw [NewMap16_eq]; exact bucketEntries_replicate 16] at he
  exact absurd he (by simp)

/-- Under the invariant every readable entry has a clear evicted bit. -/
theorem cacheGet_evicted_false (hashKey : Key → Nat) (c : Cache) (k : Key) (e : Entry)
    (hg : CacheGood hashKey c) (h : cacheGet hashKey c k = some e) :
    e.evicted = false := by
  obtain ⟨hn, hlen, hall⟩ := hg
  have hilt := getShardIdx_lt hashKey c k hn
  obtain ⟨hMI, _, _, _, hnoev⟩ := hall _ hilt
  exact hnoev e ((get_iff hashKey _ k e hMI.table_ok).mp h).1

/-- One public operation keeps the invariant and the shard count. -/
theorem runOp_good (hashKey : Key → Nat) (c : Cache) (op : CacheOp)
    (hg : CacheGood hashKey c) :
    CacheGood hashKey (c.runOp hashKey op) ∧ (c.runOp hashKey op).numShards = c.numShards := by
  cases op with
  | opStore k v o now coins =>
    obtain ⟨h1, _, _, h4⟩ := store_spec hashKey c k v o now coins hg
    exact ⟨h1, h4⟩
  | opLoad k now =>
    obtain ⟨h1, _, _, h4⟩ := load_spec_cache hashKey c k now hg
    exact ⟨h1, h4⟩
  | opDelete k =>
    obtain ⟨h1, _, _, h4⟩ := delete_spec_cache hashKey c k hg
    exact ⟨h1, h4⟩
  | opIncrement k d now coins =>
    obtain ⟨h1, _, _, _, h5⟩ := inc_spec_cache hashKey c k d now coins hg
    exact ⟨h1, h5⟩
  | opCAS k v cas o now coins =>
    obtain ⟨h1, _, _, _, h5⟩ := cas_spec_cache hashKey c k v cas o now coins hg
    exact ⟨h1, h5⟩

/-- Any operation sequence keeps the invariant and the shard count. -/
theorem runOps_good (hashKey : Key → Nat) (ops : List CacheOp) (c : Cache)
    (hg : CacheGood hashKey c) :
    CacheGood hashKey (c.runOps hashKey ops) ∧
    (c.runOps hashKey ops).numShards = c.numShards := by
  induction ops generalizing c with
  | nil => exact ⟨hg, rfl⟩
  | cons op rest ih =>
    obtain ⟨h1, h2⟩ := runOp_good hashKey c op hg
    obtain ⟨h3, h4⟩ := ih (c.runOp hashKey op) h1
    exact ⟨h3, h4.trans h2⟩

/-- Claim C3: on a cache built with `maxMemory = 0`, after any sequence of
Store/Load/Delete/Increment/CompareAndSwap operations every shard's
`memUsed` equals the sum of `Entry.Size` (key length + value length + 24)
over the entries of that shard's map, and a further successful
CompareAndSwap moves that shard's `memUsed` by exactly the new value length
minus the old value length. -/
theorem c3_mem_accounting (hashKey : Key → Nat) (nShards : Nat) (ops : List CacheOp)
    (key value : Key) (cas : Nat) (opts : Option StoreOptions) (now : Int)
    (coins : List Bool) :
    (∀ i, i < ((Cache.New nShards 0).runOps hashKey ops).numShards →
      (((Cache.New nShards 0).runOps hashKey ops).shardAt i).memUsed =
        sizeSum (((Cache.New nShards 0).runOps hashKey ops).shardAt i).m.buckets) ∧
    ((((Cache.New nShards 0).runOps hashKey ops).CompareAndSwap hashKey key value cas opts
        now coins).1 = true →
      ∃ e, cacheGet hashKey ((Cache.New nShards 0).runOps hashKey ops) key = some e ∧
        ((((Cache.New nShards 0).runOps hashKey ops).CompareAndSwap hashKey key value cas
            opts now coins).2.shardAt
            (((Cache.New nShards 0).runOps hashKey ops).getShardIdx hashKey key)).memUsed =
          (((Cache.New nShards 0).runOps hashKey ops).shardAt
            (((Cache.New nShards 0).runOps hashKey ops).getShardIdx hashKey key)).memUsed +
            ((value.length : Int) - (e.value.length : Int))) := by
  have hg := (runOps_good hashKey ops (Cache.New nShards 0) (cacheGood_new hashKey nShards)).1
  constructor
  · intro i hi
    exact (hg.2.2 i hi).2.1
  · intro h
    obtain ⟨_, _, h3, _, _⟩ := cas_spec_cache hashKey _ key value cas opts now coins hg
    obtain ⟨e, he1, _, _, he4⟩ := h3 h
    exact ⟨e, he1, he4⟩

/-- The operations that go through `evictIfNeeded` before accepting new
memory. -/
def storeIncCasOnly : CacheOp → Bool
  | .opStore _ _ _ _ _ => true
  | .opIncrement _ _ _ _ => true
  | .opCAS _ _ _ _ _ _ => true
  | _ => false

/-- Claim C4: with `maxMemory = 0` eviction never runs: after any operation
sequence `num_evicted` is 0 (in total and per shard), no stored entry is
marked evicted, and a further Store/Increment/CompareAndSwap never removes
or marks a present entry — the key still reads back with a clear evicted
bit. -/
theorem c4_no_eviction (hashKey : Key → Nat) (nShards : Nat) (ops : List CacheOp) :
    ((Cache.New nShards 0).runOps hashKey ops).statsEvicted = 0 ∧
    (∀ i, i < ((Cache.New nShards 0).runOps hashKey ops).numShards →
      (((Cache.New nShards 0).runOps hashKey ops).shardAt i).numEvicted = 0 ∧
      ∀ e ∈ bucketEntries (((Cache.New nShards 0).runOps hashKey ops).shardAt i).m.buckets,
        e.evicted = false) ∧
    (∀ op, storeIncCasOnly op = true → ∀ k e,
      cacheGet hashKey ((Cache.New nShards 0).runOps hashKey ops) k = some e →
      ∃ e', cacheGet hashKey
          (((Cache.New nShards 0).runOps hashKey ops).runOp hashKey op) k = some e' ∧
        e'.evicted = false) := by
  set C := (Cache.New nShards 0).runOps hashKey ops with hC
  have hg := (runOps_good hashKey ops (Cache.New nShards 0) (cacheGood_new hashKey nShards)).1
  rw [← hC] at hg
  refine ⟨statsEvicted_eq_zero hashKey C hg, ?_, ?_⟩
  · intro i hi
    obtain ⟨_, _, _, hnev, hnoev⟩ := hg.2.2 i hi
    exact ⟨hnev, hnoev⟩
  · intro op hop k e h
    cases op with
    | opStore k2 v o n2 cs =>
      obtain ⟨hg', hsome, hframe, _⟩ := store_spec hashKey C k2 v o n2 cs hg
      by_cases hk : k = k2
      · subst hk
        obtain ⟨e', he', _, _, hev⟩ := hsome
        exact ⟨e', he', hev⟩
      · refine ⟨e, ?_, cacheGet_evicted_false hashKey C k e hg h⟩
        rw [show cacheGet hashKey (C.runOp hashKey (.opStore k2 v o n2 cs)) k =
          cacheGet hashKey (C.Store hashKey k2 v o n2 cs) k from rfl, hframe k hk]
        exact h
    | opLoad k2 n2 => simp [storeIncCasOnly] at hop
    | opDelete k2 => simp [storeIncCasOnly] at hop
    | opIncrement k2 d n2 cs =>
      obtain ⟨hg', hframe, _, hhit, _⟩ := inc_spec_cache hashKey C k2 d n2 cs hg
      by_cases hk : k = k2
      · subst hk
        obtain ⟨_, hget'⟩ := hhit e h
        refine ⟨_, hget', ?_⟩
        exact cacheGet_evicted_false hashKey C k e hg h
      · refine ⟨e, ?_, cacheGet_evicted_false hashKey C k e hg h⟩
        rw [show cacheGet hashKey (C.runOp hashKey (.opIncrement k2 d n2 cs)) k =
          cacheGet hashKey (C.Increment hashKey k2 d n2 cs).2 k from rfl, hframe k hk]
        exact h
    | opCAS k2 v cas2 o n2 cs =>
      obtain ⟨hg', hfalse, htrue, hframe, _⟩ := cas_spec_cache hashKey C k2 v cas2 o n2 cs hg
      by_cases hk : k = k2
      · subst hk
        cases hres : (C.CompareAndSwap hashKey k v cas2 o n2 cs).1 with
        | false =>
          refine ⟨e, ?_, cacheGet_evicted_false hashKey C k e hg h⟩
          rw [show cacheGet hashKey (C.runOp hashKey (.opCAS k v cas2 o n2 cs)) k =
            cacheGet hashKey (C.CompareAndSwap hashKey k v cas2 o n2 cs).2 k from rfl,
            hfalse hres k]
          exact h
        | true =>
          obtain ⟨e1, he1, _, hget', _⟩ := htrue hres
          rw [h] at he1
          cases Option.some.inj he1
          refine ⟨_, hget', ?_⟩
          exact cacheGet_evicted_false hashKey C k e hg h
      · refine ⟨e, ?_, cacheGet_evicted_false hashKey C k e hg h⟩
        rw [show cacheGet hashKey (C.runOp hashKey (.opCAS k2 v cas2 o n2 cs)) k =
          cacheGet hashKey (C.CompareAndSwap hashKey k2 v cas2 o n2 cs).2 k from rfl,
          hframe k hk]
        exact h

/-- Claim C6: Increment on an absent key inserts the 8-byte big-endian
encoding of delta and returns delta; on a present key it decodes the stored
value as a big-endian int64 (0 when the length is not 8), adds delta with
int64 wraparound, re-encodes it, bumps the entry's cas, and returns the
sum; concretely Increment(k,5); Increment(k,3); Increment(k,-2) return 5,
8, 6. -/
theorem c6_increment (hashKey : Key → Nat) (nShards : Nat) (ops : List CacheOp)
    (key : Key) (delta now : Int) (coins : List Bool) :
    (cacheGet hashKey ((Cache.New nShards 0).runOps hashKey ops) key = none →
      (((Cache.New nShards 0).runOps hashKey ops).Increment hashKey key delta now
        coins).1 = delta ∧
      cacheGet hashKey (((Cache.New nShards 0).runOps hashKey ops).Increment hashKey key
        delta now coins).2 key = some ⟨key, int64ToBytes delta, 0, 0, 0, false⟩) ∧
    (∀ e, cacheGet hashKey ((Cache.New nShards 0).runOps hashKey ops) key = some e →
      (((Cache.New nShards 0).runOps hashKey ops).Increment hashKey key delta now
        coins).1 = wrap64 (bytesToInt64 e.value + delta) ∧
      cacheGet hashKey (((Cache.New nShards 0).runOps hashKey ops).Increment hashKey key
        delta now coins).2 key = some (Entry.IncrementCAS { e with
          value := int64ToBytes (wrap64 (bytesToInt64 e.value + delta)) })) ∧
    (∀ b : List Nat, b.length ≠ 8 → bytesToInt64 b = 0) ∧
    ((Cache.New 1 0).Increment hashHead [1] 5 0 []).1 = 5 ∧
    (((Cache.New 1 0).Increment hashHead [1] 5 0 []).2.Increment hashHead [1] 3 0 []).1 =
      8 ∧
    ((((Cache.New 1 0).Increment hashHead [1] 5 0 []).2.Increment hashHead [1] 3 0
      []).2.Increment hashHead [1] (-2) 0 []).1 = 6 := by
  have hg := (runOps_good hashKey ops (Cache.New nShards 0) (cacheGood_new hashKey nShards)).1
  obtain ⟨_, _, hmiss, hhit, _⟩ := inc_spec_cache hashKey _ key delta now coins hg
  refine ⟨hmiss, hhit, ?_, by decide, by decide, by decide⟩
  intro b hb
  unfold bytesToInt64
  rw [if_pos hb]

/-- An entry with no deadline never expires. -/
theorem isExpired_zero (e : Entry) (now : Int) (he : e.expireAt = 0) :
    e.IsExpired now = false := by
  unfold Entry.IsExpired
  rw [he]
  simp

/-- The operations claim C1 ranges over: Store without options (no TTL),
Load, Delete. -/
def c1Op : CacheOp → Bool
  | .opStore _ _ opts _ _ => opts.isNone
  | .opLoad _ _ => true
  | .opDelete _ => true
  | _ => false

/-- Spec-side last-write map: what the spec says each key should hold after
a Store/Load/Delete sequence (the most recent Store's value, erased by
Delete). -/
def specStep (f : Key → Option Key) : CacheOp → Key → Option Key
  | .opStore k2 v _ _ _, q => if q = k2 then some v else f q
  | .opDelete k2, q => if q = k2 then none else f q
  | _, q => f q

/-- Spec-side value of a key after a sequence of operations, starting from
the empty map. -/
def specVal (ops : List CacheOp) (k : Key) : Option Key :=
  ops.foldl specStep (fun _ => none) k

/-- Running C1 operations keeps the invariant, keeps every stored entry
TTL-free, and keeps the cache contents equal to the spec-side last-write
map. -/
theorem c1_aux (hashKey : Key → Nat) (ops : List CacheOp) (c : Cache)
    (g : Key → Option Key)
    (hops : ∀ op ∈ ops, c1Op op = true)
    (hg : CacheGood hashKey c)
    (hexp : ∀ k e, cacheGet hashKey c k = some e → e.expireAt = 0)
    (hval : ∀ k, (cacheGet hashKey c k).map Entry.value = g k) :
    CacheGood hashKey (c.runOps hashKey ops) ∧
    (∀ k e, cacheGet hashKey (c.runOps hashKey ops) k = some e → e.expireAt = 0) ∧
    (∀ k, (cacheGet hashKey (c.runOps hashKey ops) k).map Entry.value =
      ops.foldl specStep g k) := by
  induction ops generalizing c g with
  | nil => exact ⟨hg, hexp, hval⟩
  | cons op rest ih =>
    have hop := hops op (List.mem_cons_self op rest)
    have hrest : ∀ op2 ∈ rest, c1Op op2 = true :=
      fun op2 h2 => hops op2 (List.mem_cons_of_mem op h2)
    cases op with
    | opStore k2 v o n2 cs =>
      simp only [c1Op] at hop
      have ho : o = none := Option.isNone_iff_eq_none.mp hop
      subst ho
      obtain ⟨hg', ⟨e', he', hv', hexpAt', hev'⟩, hframe, _⟩ :=
        store_spec hashKey c k2 v none n2 cs hg
      refine ih (c.runOp hashKey (.opStore k2 v none n2 cs)) (specStep g
        (.opStore k2 v none n2 cs)) hrest hg' ?_ ?_
      · intro k e h
        by_cases hk : k = k2
        · subst hk
          replace h : cacheGet hashKey (c.Store hashKey k v none n2 cs) k = some e := h
          rw [he'] at h
          cases Option.some.inj h
          rw [hexpAt']
          rfl
        · replace h : cacheGet hashKey (c.Store hashKey k2 v none n2 cs) k = some e := h
          rw [hframe k hk] at h
          exact hexp k e h
      · intro k
        by_cases hk : k = k2
        · subst hk
          show (cacheGet hashKey (c.Store hashKey k v none n2 cs) k).map Entry.value = _
          rw [he']
          show some e'.value = if k = k then some v else g k
          rw [if_pos rfl, hv']
        · show (cacheGet hashKey (c.Store hashKey k2 v none n2 cs) k).map Entry.value = _
          rw [hframe k hk]
          show (cacheGet hashKey c k).map Entry.value = if k = k2 then some v else g k
          rw [if_neg hk]
          exact hval k
    | opLoad k2 n2 =>
      obtain ⟨hg', hframe, hsame, _⟩ := load_spec_cache hashKey c k2 n2 hg
      have hsame2 := hsame (fun e he => isExpired_zero e n2 (hexp k2 e he))
      have hall : ∀ k, cacheGet hashKey (c.Load hashKey k2 n2).2 k = cacheGet hashKey c k := by
        intro k
        by_cases hk : k = k2
        · subst hk
          exact hsame2.2
        · exact hframe k hk
      refine ih (c.runOp hashKey (.opLoad k2 n2)) (specStep g (.opLoad k2 n2)) hrest hg'
        ?_ ?_
      · intro k e h
        replace h : cacheGet hashKey (c.Load hashKey k2 n2).2 k = some e := h
        rw [hall k] at h
        exact hexp k e h
      · intro k
        show (cacheGet hashKey (c.Load hashKey k2 n2).2 k).map Entry.value = _
        rw [hall k]
        exact hval k
    | opDelete k2 =>
      obtain ⟨hg', hnone, hframe, _⟩ := delete_spec_cache hashKey c k2 hg
      refine ih (c.runOp hashKey (.opDelete k2)) (specStep g (.opDelete k2)) hrest hg'
        ?_ ?_
      · intro k e h
        by_cases hk : k = k2
        · subst hk
          replace h : cacheGet hashKey (c.Delete hashKey k).2 k = some e := h
          rw [hnone] at h
          exact absurd h (by simp)
        · replace h : cacheGet hashKey (c.Delete hashKey k2).2 k = some e := h
          rw [hframe k hk] at h
          exact hexp k e h
      · intro k
        by_cases hk : k = k2
        · subst hk
          show (cacheGet hashKey (c.Delete hashKey k).2 k).map Entry.value = _
          rw [hnone]
          show (none : Option Key) = if k = k then none else g k
          rw [if_pos rfl]
        · show (cacheGet hashKey (c.Delete hashKey k2).2 k).map Entry.value = _
          rw [hframe k hk]
          show (cacheGet hashKey c k).map Entry.value = if k = k2 then none else g k
          rw [if_neg hk]
          exact hval k
    | opIncrement k2 d n2 cs => simp [c1Op] at hop
    | opCAS k2 v2 cas2 o n2 cs => simp [c1Op] at hop

/-- For every sequence of TTL-free Store, Load, and Delete operations on a
zero-limit cache — over the unbounded-distance operations — a final Load of
any key returns exactly the spec-side last-write value.  (Claim C1 is
settled against the uint16-walk operations further down, through the
agreement theorems.) -/
theorem load_returns_last_write (hashKey : Key → Nat) (nShards : Nat) (ops : List CacheOp)
    (k : Key) (now : Int) (hops : ∀ op ∈ ops, c1Op op = true) :
    (((Cache.New nShards 0).runOps hashKey ops).Load hashKey k now).1.map Entry.value =
      specVal ops k := by
  obtain ⟨hg, hexp, hval⟩ := c1_aux hashKey ops (Cache.New nShards 0) (fun _ => none) hops
    (cacheGood_new hashKey nShards)
    (by intro k2 e h; rw [cacheGet_new] at h; exact absurd h (by simp))
    (by intro k2; rw [cacheGet_new]; rfl)
  obtain ⟨_, _, hsame, _⟩ := load_spec_cache hashKey _ k now hg
  have hsame2 := hsame (fun e he => isExpired_zero e now (hexp k e he))
  rw [hsame2.1]
  exact hval k



/-! ## Agreement of the uint16 walk with the unbounded walk

On every table whose capacity is at most `2 ^ 15` no probe chain reaches
length `2 ^ 16`, so every wrapped distance increment equals the unbounded
one and the `W` operations coincide with the unsuffixed ones. -/

theorem wrap16_eq_self (n : Nat) (h : n < 65536) : wrap16 n = n := Nat.mod_eq_of_lt h

/-- The uint16 lookup walk equals the unbounded one while the searcher's
distance cannot reach `2 ^ 16` within the fuel. -/
theorem lookupLoopW_eq (hash : Nat) (key : Key) :
    ∀ (fuel : Nat) (bs : List Bucket) (idx dist : Nat), dist + fuel ≤ 65535 →
      lookupLoopW hash key fuel bs idx dist = lookupLoop hash key fuel bs idx dist := by
  intro fuel
  induction fuel with
  | zero => intro bs idx dist _; rfl
  | succ fuel ih =>
    intro bs idx dist hle
    rw [lookupLoopW, lookupLoop]
    cases hb : bs.getD idx none with
    | none => rfl
    | some b =>
      simp only
      split
      · rfl
      · split
        · rfl
        · rw [wrap16_eq_self (dist + 1) (by omega)]
          exact ih bs ((idx + 1) % bs.length) (dist + 1) (by omega)

/-- `Map.lookupW = Map.lookup` below capacity `2 ^ 16`. -/
theorem lookupW_eq (m : Map) (key : Key) (hash : Nat)
    (hlen : m.buckets.length ≤ 65535) :
    m.lookupW key hash = m.lookup key hash :=
  lookupLoopW_eq hash key m.buckets.length m.buckets (m.maskIdx hash) 0 (by omega)

/-- `Map.getW = Map.get` below capacity `2 ^ 16`. -/
theorem getW_eq (hashKey : Key → Nat) (m : Map) (key : Key)
    (hlen : m.buckets.length ≤ 65535) :
    m.getW hashKey key = m.get hashKey key := by
  unfold Map.getW Map.get
  rw [lookupW_eq m key (hashKey key) hlen]

/-- The uint16 placement walk equals the unbounded one while neither the
carried nor any stored distance can reach `2 ^ 16` within the fuel. -/
theorem insertLoopW_eq : ∀ (fuel : Nat) (bs : List Bucket) (entry : Entry)
    (hash dist idx : Nat), dist + fuel ≤ 65535 →
    (∀ i b, bs.getD i none = some b → b.distance + fuel ≤ 65535) →
    insertLoopW fuel bs entry hash dist idx = insertLoop fuel bs entry hash dist idx := by
  intro fuel
  induction fuel with
  | zero => intro bs entry hash dist idx _ _; rfl
  | succ fuel ih =>
    intro bs entry hash dist idx hd hst
    rw [insertLoopW, insertLoop]
    cases hb : bs.getD idx none with
    | none => rfl
    | some b =>
      simp only
      have hbb := hst idx b hb
      split
      · rw [wrap16_eq_self (b.distance + 1) (by omega)]
        refine ih (bs.set idx (some ⟨entry, hash, dist⟩)) b.entry b.hash (b.distance + 1)
          ((idx + 1) % bs.length) (by omega) ?_
        intro i r hr
        rcases eq_or_ne i idx with rfl | hne
        · have hilt : i < bs.length := getD_some_lt bs i b hb
          rw [getD_set_self _ _ _ _ hilt] at hr
          cases Option.some.inj hr
          show dist + fuel ≤ 65535
          omega
        · rw [getD_set_ne _ _ _ _ _ (Ne.symm hne)] at hr
          have := hst i r hr
          omega
      · rw [wrap16_eq_self (dist + 1) (by omega)]
        refine ih bs entry hash (dist + 1) ((idx + 1) % bs.length) (by omega) ?_
        intro i r hr
        have := hst i r hr
        omega

/-- `Map.insertInternalW = Map.insertInternal` when the capacity is at most
`2 ^ 15` and stored distances are below the capacity. -/
theorem insertInternalW_eq (m : Map) (entry : Entry) (hash : Nat)
    (hdo : DistOk m.buckets) (hlen : m.buckets.length ≤ 32768) :
    m.insertInternalW entry hash = m.insertInternal entry hash := by
  unfold Map.insertInternalW Map.insertInternal
  rw [insertLoopW_eq m.buckets.length m.buckets entry hash 0 (m.maskIdx hash) (by omega)]
  intro i b hb
  have hilt : i < m.buckets.length := getD_some_lt m.buckets i b hb
  have := (hdo i b hilt hb).1
  omega

/-- The reinsertion fold over the uint16 walk equals the unbounded one when
the target table has capacity at most `2 ^ 15` (same side conditions as
`resizeFold_spec`, which keep the invariants through the fold). -/
theorem resizeWFold_eq (hashKey : Key → Nat) : ∀ (l : List Bucket) (acc : Map),
    0 < acc.buckets.length →
    TableOk hashKey acc.buckets →
    Multiset.card (bucketEntries acc.buckets) + Multiset.card (bucketEntries l) ≤
      acc.buckets.length →
    (∀ i b, l.getD i none = some b → b.hash = hashKey b.entry.key) →
    ((bucketEntries acc.buckets + bucketEntries l).map Entry.key).Nodup →
    acc.buckets.length ≤ 32768 →
    List.foldl resizeStepW acc l = List.foldl resizeStep acc l := by
  intro l
  induction l with
  | nil => intro acc _ _ _ _ _ _; rfl
  | cons x xs ih =>
    intro acc h1 h2 h4 h5 h6 h7
    rw [List.foldl_cons, List.foldl_cons]
    cases x with
    | none =>
      rw [show resizeStepW acc none = acc from rfl, show resizeStep acc none = acc from rfl]
      have hbn : bucketEntries (none :: xs) = bucketEntries xs := by
        rw [bucketEntries_cons]
        simp [entryOf]
      rw [hbn] at h4 h6
      exact ih acc h1 h2 h4 (fun i b hb => h5 (i + 1) b (by simpa using hb)) h6 h7
    | some be =>
      rw [show resizeStepW acc (some be) = acc.insertInternalW be.entry be.hash from rfl,
        show resizeStep acc (some be) = acc.insertInternal be.entry be.hash from rfl]
      have hbs : bucketEntries (some be :: xs) = be.entry ::ₘ bucketEntries xs := by
        rw [bucketEntries_cons]
        simp only [entryOf]
        rw [Multiset.singleton_add]
      rw [hbs] at h4 h6
      have hbe_hash : be.hash = hashKey be.entry.key := h5 0 be (by simp)
      have hcount : Multiset.card (bucketEntries acc.buckets) < acc.buckets.length := by
        rw [Multiset.card_cons] at h4
        omega
      have hre : (bucketEntries acc.buckets + (be.entry ::ₘ bucketEntries xs)).map Entry.key =
          be.entry.key ::ₘ ((bucketEntries acc.buckets + bucketEntries xs).map Entry.key) := by
        rw [Multiset.add_cons, Multiset.map_cons]
      have h6' := h6
      rw [hre, Multiset.nodup_cons] at h6'
      have hfresh : ∀ i b, acc.buckets.getD i none = some b →
          b.entry.key ≠ be.entry.key := by
        apply fresh_of_key_not_mem
        intro hmem
        apply h6'.1
        rw [Multiset.map_add]
        exact Multiset.mem_add.mpr (Or.inl hmem)
      rw [insertInternalW_eq acc be.entry be.hash h2.2.1 h7]
      obtain ⟨hLen, hEnt, hTab, hNum, hMask, hGrow, hShr⟩ :=
        insertInternal_spec hashKey acc be.entry be.hash h1 h2 hcount hbe_hash hfresh
      refine ih (acc.insertInternal be.entry be.hash) (by rw [hLen]; exact h1) hTab ?_
        (fun i b hb => h5 (i + 1) b (by simpa using hb)) ?_ (by rw [hLen]; exact h7)
      · rw [hEnt, hLen, Multiset.card_cons]
        rw [Multiset.card_cons] at h4
        omega
      · rw [hEnt, Multiset.cons_add, Multiset.map_cons]
        rw [hre] at h6
        exact h6

/-- `Map.resizeW = Map.resize` for a target capacity of at most `2 ^ 15`
with room for all entries. -/
theorem resizeW_eq (hashKey : Key → Nat) (m : Map) (newSize : Nat)
    (hns : 0 < newSize)
    (htbl : TableOk hashKey m.buckets)
    (hcard : Multiset.card (bucketEntries m.buckets) ≤ newSize)
    (hsm : newSize ≤ 32768) :
    m.resizeW newSize = m.resize newSize := by
  rw [Map.resizeW, resize_eq_foldl]
  exact resizeWFold_eq hashKey m.buckets
    { buckets := List.replicate newSize none
      numItems := 0
      mask := newSize - 1
      growAt := newSize * 3 / 4
      shrinkAt := newSize / 10 }
    (by simpa using hns) (tableOk_replicate hashKey newSize)
    (by simp [bucketEntries_replicate]; omega) (fun i b hb => htbl.1 i b hb)
    (by simp [bucketEntries_replicate]; exact keys_nodup_of_keysUniq m.buckets htbl.2.2.2)
    (by simpa using hsm)

/-- A power-of-two capacity whose grow threshold has been reached by fewer
than 24576 items is at most `2 ^ 14`, so doubling it stays within `2 ^ 15`. -/
theorem grow_target_small (m : Map) (hinv_pow : ∃ k, m.buckets.length = 2 ^ k)
    (hge : m.buckets.length * 3 / 4 ≤ m.numItems) (hni : m.numItems < 24576) :
    m.buckets.length * 2 ≤ 32768 := by
  obtain ⟨k, hk⟩ := hinv_pow
  have hlt : m.buckets.length ≤ 32767 := by omega
  have hk14 : k ≤ 14 := by
    by_contra hgt
    have h15 : (2 : Nat) ^ 15 ≤ 2 ^ k := Nat.pow_le_pow_right (by omega) (by omega)
    have : (2 : Nat) ^ 15 = 32768 := by norm_num
    omega
  have : m.buckets.length ≤ 16384 := by
    rw [hk]
    calc (2 : Nat) ^ k ≤ 2 ^ 14 := Nat.pow_le_pow_right (by omega) hk14
      _ = 16384 := by norm_num
  omega

/-- `Map.insertW = Map.insert` on an invariant-satisfying map of capacity at
most `2 ^ 15` holding fewer than 24576 items (so a growth step cannot leave
`2 ^ 15` either). -/
theorem insertW_eq (hashKey : Key → Nat) (m : Map) (entry : Entry)
    (hinv : MapInv hashKey m) (hlen : m.buckets.length ≤ 32768)
    (hni : m.numItems < 24576) :
    m.insertW hashKey entry = m.insert hashKey entry := by
  simp only [Map.insertW, Map.insert]
  rw [lookupW_eq m entry.key (hashKey entry.key) (by omega)]
  cases hlk : m.lookup entry.key (hashKey entry.key) with
  | some p => rfl
  | none =>
    simp only
    by_cases hg : m.numItems ≥ m.growAt
    · rw [if_pos hg]
      have h2cap : m.buckets.length * 2 ≤ 32768 :=
        grow_target_small m hinv.cap_pow2 (by rw [← hinv.grow_eq]; exact hg) hni
      have hRW : m.resizeW (m.buckets.length * 2) = m.resize (m.buckets.length * 2) :=
        resizeW_eq hashKey m (m.buckets.length * 2) (by have := hinv.cap_ge16; omega)
          hinv.table_ok (by rw [← hinv.count_eq]; have := hinv.count_lt; omega) h2cap
      rw [hRW]
      obtain ⟨hRL, hRE, hRT, hRN, hRM, hRG, hRS⟩ := resize_spec hashKey m
        (m.buckets.length * 2) (by have := hinv.cap_ge16; omega) hinv.table_ok
        (by rw [← hinv.count_eq]; have := hinv.count_lt; omega)
      rw [insertInternalW_eq (m.resize (m.buckets.length * 2)) entry (hashKey entry.key)
        hRT.2.1 (by rw [hRL]; exact h2cap), if_pos hg]
    · rw [if_neg hg]
      rw [insertInternalW_eq m entry (hashKey entry.key) hinv.table_ok.2.1 hlen, if_neg hg]

/-- `Map.deleteW = Map.delete` on an invariant-satisfying map of capacity at
most `2 ^ 15` (the shrink target is half the capacity, hence also small). -/
theorem deleteW_eq (hashKey : Key → Nat) (m : Map) (key : Key)
    (hinv : MapInv hashKey m) (hlen : m.buckets.length ≤ 32768) :
    m.deleteW key (hashKey key) = m.delete key (hashKey key) := by
  simp only [Map.deleteW, Map.delete]
  rw [lookupW_eq m key (hashKey key) (by omega)]
  cases hlk : m.lookup key (hashKey key) with
  | none => rfl
  | some p =>
    obtain ⟨e, idx⟩ := p
    simp only
    obtain ⟨hekey, b, hb, hbe, hbh⟩ := lookupLoop_found (hashKey key) key m.buckets.length
      m.buckets (m.maskIdx (hashKey key)) 0 e idx hlk
    have hlt : idx < m.buckets.length := getD_some_lt m.buckets idx b hb
    have hn1 : 1 < m.buckets.length := by
      have := hinv.cap_ge16
      omega
    have hcard : Multiset.card (bucketEntries m.buckets) < m.buckets.length := by
      rw [← hinv.count_eq]
      exact hinv.count_lt
    obtain ⟨hSL, hSE, hST⟩ := hole_spec hashKey m.buckets idx b hn1 hlt hb hinv.table_ok
      hcard
    have hsplit := contents_split m.buckets idx b hlt hb
    have hcard0 : Multiset.card (bucketEntries (m.buckets.set idx none)) =
        m.numItems - 1 := by
      have h := congrArg Multiset.card hsplit
      rw [Multiset.card_cons] at h
      have hc1 := hinv.count_eq
      have hc2 := hinv.count_lt
      omega
    by_cases hc : m.numItems - 1 < m.shrinkAt ∧
        (shiftLoop (m.buckets.set idx none).length (m.buckets.set idx none) idx).length > 16
    · rw [if_pos hc, if_pos hc]
      have hns2 : 0 < (shiftLoop (m.buckets.set idx none).length (m.buckets.set idx none) idx).length / 2 := by
        rw [hSL]
        omega
      have hcard2 : Multiset.card (bucketEntries (shiftLoop (m.buckets.set idx none).length (m.buckets.set idx none) idx)) ≤ (shiftLoop (m.buckets.set idx none).length (m.buckets.set idx none) idx).length / 2 := by
        rw [hSE, hSL, hcard0]
        have hdiv : m.buckets.length / 10 ≤ m.buckets.length / 2 :=
          Nat.div_le_div_left (by omega) (by omega)
        have hshr := hinv.shrink_eq
        have hc1 := hc.1
        omega
      have hsm2 : (shiftLoop (m.buckets.set idx none).length (m.buckets.set idx none) idx).length / 2 ≤ 32768 := by
        rw [hSL]
        omega
      rw [resizeW_eq hashKey { m with buckets := shiftLoop (m.buckets.set idx none).length (m.buckets.set idx none) idx, numItems := m.numItems - 1 } ((shiftLoop (m.buckets.set idx none).length (m.buckets.set idx none) idx).length / 2) hns2 hST hcard2 hsm2]
    · rw [if_neg hc, if_neg hc]

theorem evictIfNeededW_noop (hashKey : Key → Nat) (sh : Shard) (rs now : Int)
    (coins : List Bool) (h : sh.maxMemory ≤ 0) :
    Cache.evictIfNeededW hashKey sh rs now coins = sh := by
  unfold Cache.evictIfNeededW
  rw [if_pos h]

/-- `Cache.StoreW = Cache.Store` on a zero-limit shard whose map is small. -/
theorem storeW_eq_c (hashKey : Key → Nat) (c : Cache) (key value : Key)
    (opts : Option StoreOptions) (now : Int) (coins : List Bool)
    (hmax : (c.shardAt (c.getShardIdx hashKey key)).maxMemory ≤ 0)
    (hMI : MapInv hashKey (c.shardAt (c.getShardIdx hashKey key)).m)
    (hlen : (c.shardAt (c.getShardIdx hashKey key)).m.buckets.length ≤ 32768)
    (hni : (c.shardAt (c.getShardIdx hashKey key)).m.numItems < 24576) :
    c.StoreW hashKey key value opts now coins = c.Store hashKey key value opts now coins := by
  simp only [Cache.StoreW, Cache.Store]
  rw [evictIfNeededW_noop]
  · rw [evictIfNeeded_noop]
    · rw [insertW_eq hashKey _ _ hMI hlen hni]
    · exact hmax
  · exact hmax

/-- `Cache.DeleteW = Cache.Delete` on a shard whose map is small. -/
theorem deleteW_eq_c (hashKey : Key → Nat) (c : Cache) (key : Key)
    (hMI : MapInv hashKey (c.shardAt (c.getShardIdx hashKey key)).m)
    (hlen : (c.shardAt (c.getShardIdx hashKey key)).m.buckets.length ≤ 32768) :
    c.DeleteW hashKey key = c.Delete hashKey key := by
  simp only [Cache.DeleteW, Cache.Delete]
  rw [deleteW_eq hashKey _ key hMI hlen]

/-- `Cache.LoadW = Cache.Load` on a shard whose map is small. -/
theorem loadW_eq_c (hashKey : Key → Nat) (c : Cache) (key : Key) (now : Int)
    (hi : c.getShardIdx hashKey key < c.shards.length)
    (hMI : MapInv hashKey (c.shardAt (c.getShardIdx hashKey key)).m)
    (hlen : (c.shardAt (c.getShardIdx hashKey key)).m.buckets.length ≤ 32768) :
    c.LoadW hashKey key now = c.Load hashKey key now := by
  have hMI1 : MapInv hashKey (((c.setShard (c.getShardIdx hashKey key)
      { c.shardAt (c.getShardIdx hashKey key) with
        numOps := (c.shardAt (c.getShardIdx hashKey key)).numOps + 1 }).shardAt
      ((c.setShard (c.getShardIdx hashKey key)
        { c.shardAt (c.getShardIdx hashKey key) with
          numOps := (c.shardAt (c.getShardIdx hashKey key)).numOps + 1 }).getShardIdx
        hashKey key)).m) := by
    rw [getShardIdx_setShard, shardAt_setShard _ _ _ _ hi, if_pos rfl]
    exact hMI
  have hlen1 : (((c.setShard (c.getShardIdx hashKey key)
      { c.shardAt (c.getShardIdx hashKey key) with
        numOps := (c.shardAt (c.getShardIdx hashKey key)).numOps + 1 }).shardAt
      ((c.setShard (c.getShardIdx hashKey key)
        { c.shardAt (c.getShardIdx hashKey key) with
          numOps := (c.shardAt (c.getShardIdx hashKey key)).numOps + 1 }).getShardIdx
        hashKey key)).m).buckets.length ≤ 32768 := by
    rw [getShardIdx_setShard, shardAt_setShard _ _ _ _ hi, if_pos rfl]
    exact hlen
  simp only [Cache.LoadW, Cache.Load]
  rw [getW_eq hashKey _ key (by omega)]
  cases hget : (c.shardAt (c.getShardIdx hashKey key)).m.get hashKey key with
  | none => rfl
  | some e =>
    simp only
    rw [deleteW_eq_c hashKey _ key hMI1 hlen1]

/-! ## Capacity bookkeeping for the uint16 agreement

The per-shard facts that keep every map's capacity within `2 ^ 15` along a
bounded operation sequence: Load and Delete never enlarge a shard map,
Store adds at most one item, and a Store below 24576 items cannot push the
capacity past `2 ^ 15`. -/

theorem store_shard_bounds (hashKey : Key → Nat) (c : Cache) (key value : Key)
    (opts : Option StoreOptions) (now : Int) (coins : List Bool)
    (hg : CacheGood hashKey c) :
    ∀ j, j < c.numShards →
      ((c.Store hashKey key value opts now coins).shardAt j).m.numItems ≤
        (c.shardAt j).m.numItems + 1 ∧
      ((c.shardAt j).m.buckets.length ≤ 32768 → (c.shardAt j).m.numItems < 24576 →
        ((c.Store hashKey key value opts now coins).shardAt j).m.buckets.length ≤ 32768) := by
  obtain ⟨hn, hlen, hall⟩ := hg
  have hilt : c.getShardIdx hashKey key < c.numShards := getShardIdx_lt hashKey c key hn
  obtain ⟨hMI, hmem, hmax, hnev, hnoev⟩ := hall _ hilt
  have hilt' : c.getShardIdx hashKey key < c.shards.length := by omega
  intro j hj
  cases hlk : (c.shardAt (c.getShardIdx hashKey key)).m.lookup key (hashKey key) with
  | none =>
    obtain ⟨hs2, hsE, hsI, hsN, hsL⟩ := insert_miss_spec hashKey
      (c.shardAt (c.getShardIdx hashKey key)).m
      ⟨key, value, optExpireAt opts now, optFlags opts, optCas opts, false⟩ hMI hlk
    rw [store_reduce_miss hashKey c key value opts now coins hmax hs2,
      shardAt_setShard c _ _ _ hilt']
    by_cases hji : j = c.getShardIdx hashKey key
    · rw [if_pos hji, hji]
      constructor
      · show ((c.shardAt (c.getShardIdx hashKey key)).m.insert hashKey
          ⟨key, value, optExpireAt opts now, optFlags opts, optCas opts,
            false⟩).1.numItems ≤ _
        rw [hsN]
      · intro hsm hni
        show ((c.shardAt (c.getShardIdx hashKey key)).m.insert hashKey
          ⟨key, value, optExpireAt opts now, optFlags opts, optCas opts,
            false⟩).1.buckets.length ≤ 32768
        rw [hsL]
        split
        · exact grow_target_small (c.shardAt (c.getShardIdx hashKey key)).m hMI.cap_pow2
            (by rw [← hMI.grow_eq]; omega) hni
        · exact hsm
    · rw [if_neg hji]
      exact ⟨by omega, fun h _ => h⟩
  | some p =>
    obtain ⟨e0, idx⟩ := p
    obtain ⟨hs2, hekey, hidxlt, hsplit, hsE, hsI, hsN, hsL⟩ := insert_hit_spec hashKey
      (c.shardAt (c.getShardIdx hashKey key)).m
      ⟨key, value, optExpireAt opts now, optFlags opts, optCas opts, false⟩ e0 idx hMI hlk
    rw [store_reduce_hit hashKey c key value opts now coins e0 hmax hs2,
      shardAt_setShard c _ _ _ hilt']
    by_cases hji : j = c.getShardIdx hashKey key
    · rw [if_pos hji, hji]
      refine ⟨?_, ?_⟩
      · show ((c.shardAt (c.getShardIdx hashKey key)).m.insert hashKey
          ⟨key, value, optExpireAt opts now, optFlags opts, optCas opts,
            false⟩).1.numItems ≤ _
        rw [hsN]
        omega
      · intro hsm _
        show ((c.shardAt (c.getShardIdx hashKey key)).m.insert hashKey
          ⟨key, value, optExpireAt opts now, optFlags opts, optCas opts,
            false⟩).1.buckets.length ≤ 32768
        rw [hsL]
        exact hsm
    · rw [if_neg hji]
      exact ⟨by omega, fun h _ => h⟩

theorem delete_shard_bounds (hashKey : Key → Nat) (c : Cache) (key : Key)
    (hg : CacheGood hashKey c) :
    ∀ j, j < c.numShards →
      (((c.Delete hashKey key).2).shardAt j).m.numItems ≤ (c.shardAt j).m.numItems ∧
      (((c.Delete hashKey key).2).shardAt j).m.buckets.length ≤
        (c.shardAt j).m.buckets.length := by
  obtain ⟨hn, hlen, hall⟩ := hg
  have hilt : c.getShardIdx hashKey key < c.numShards := getShardIdx_lt hashKey c key hn
  obtain ⟨hMI, hmem, hmax, hnev, hnoev⟩ := hall _ hilt
  have hilt' : c.getShardIdx hashKey key < c.shards.length := by omega
  intro j hj
  cases hlk : (c.shardAt (c.getShardIdx hashKey key)).m.lookup key (hashKey key) with
  | none =>
    rw [delete_reduce_miss hashKey c key hlk]
    show ((c.setShard _ _).shardAt j).m.numItems ≤ _ ∧
      ((c.setShard _ _).shardAt j).m.buckets.length ≤ _
    rw [shardAt_setShard c _ _ _ hilt']
    by_cases hji : j = c.getShardIdx hashKey key
    · rw [if_pos hji, hji]
      exact ⟨le_refl _, le_refl _⟩
    · rw [if_neg hji]
      exact ⟨le_refl _, le_refl _⟩
  | some p =>
    obtain ⟨e0, idx⟩ := p
    obtain ⟨hd2, hdsplit, hdI, hdN, hdL⟩ := delete_hit_spec hashKey
      (c.shardAt (c.getShardIdx hashKey key)).m key e0 idx hMI hlk
    rw [delete_reduce_hit hashKey c key e0 hd2]
    show ((c.setShard _ _).shardAt j).m.numItems ≤ _ ∧
      ((c.setShard _ _).shardAt j).m.buckets.length ≤ _
    rw [shardAt_setShard c _ _ _ hilt']
    by_cases hji : j = c.getShardIdx hashKey key
    · rw [if_pos hji, hji]
      constructor
      · show ((c.shardAt (c.getShardIdx hashKey key)).m.delete key
          (hashKey key)).1.numItems ≤ _
        rw [hdN]
        omega
      · exact hdL
    · rw [if_neg hji]
      exact ⟨le_refl _, le_refl _⟩

/-- A shard write seen through `shardAt`, on the map component. -/
theorem shardAt_m_setShard (X : Cache) (i j : Nat) (sh' : Shard)
    (hi : i < X.shards.length) :
    ((X.setShard i sh').shardAt j).m = if j = i then sh'.m else (X.shardAt j).m := by
  rw [shardAt_setShard X i j sh' hi]
  by_cases h : j = i
  · rw [if_pos h, if_pos h]
  · rw [if_neg h, if_neg h]

theorem load_shard_bounds (hashKey : Key → Nat) (c : Cache) (key : Key) (now : Int)
    (hg : CacheGood hashKey c) :
    ∀ j, j < c.numShards →
      ((c.Load hashKey key now).2.shardAt j).m.numItems ≤ (c.shardAt j).m.numItems ∧
      ((c.Load hashKey key now).2.shardAt j).m.buckets.length ≤
        (c.shardAt j).m.buckets.length := by
  obtain ⟨hn, hlen, hall⟩ := hg
  have hilt : c.getShardIdx hashKey key < c.numShards := getShardIdx_lt hashKey c key hn
  obtain ⟨hMI, hmem, hmax, hnev, hnoev⟩ := hall _ hilt
  have hilt' : c.getShardIdx hashKey key < c.shards.length := by omega
  intro j hj
  cases hget : (c.shardAt (c.getShardIdx hashKey key)).m.get hashKey key with
  | none =>
    simp only [Cache.Load, hget]
    rw [shardAt_setShard c _ _ _ hilt', if_pos rfl, setShard_setShard]
    rw [shardAt_m_setShard c _ j _ hilt']
    by_cases hji : j = c.getShardIdx hashKey key
    · rw [if_pos hji, hji]
      exact ⟨le_refl _, le_refl _⟩
    · rw [if_neg hji]
      exact ⟨le_refl _, le_refl _⟩
  | some e =>
    have hemem := (get_iff hashKey _ key e hMI.table_ok).mp hget
    have hev : e.evicted = false := hnoev e hemem.1
    by_cases hexp : e.IsExpired now = true
    · have hgC1 : CacheGood hashKey (c.setShard (c.getShardIdx hashKey key)
          { c.shardAt (c.getShardIdx hashKey key) with
            numOps := (c.shardAt (c.getShardIdx hashKey key)).numOps + 1 }) :=
        cacheGood_counter hashKey c (c.getShardIdx hashKey key)
          { c.shardAt (c.getShardIdx hashKey key) with
            numOps := (c.shardAt (c.getShardIdx hashKey key)).numOps + 1 }
          ⟨hn, hlen, hall⟩ hilt rfl rfl rfl rfl
      obtain ⟨hgD, hDkey, hDk, hDn⟩ := delete_spec_cache hashKey
        (c.setShard (c.getShardIdx hashKey key)
          { c.shardAt (c.getShardIdx hashKey key) with
            numOps := (c.shardAt (c.getShardIdx hashKey key)).numOps + 1 }) key hgC1
      have hbnd := delete_shard_bounds hashKey
        (c.setShard (c.getShardIdx hashKey key)
          { c.shardAt (c.getShardIdx hashKey key) with
            numOps := (c.shardAt (c.getShardIdx hashKey key)).numOps + 1 }) key hgC1 j hj
      rw [shardAt_m_setShard c (c.getShardIdx hashKey key) j
        { c.shardAt (c.getShardIdx hashKey key) with
          numOps := (c.shardAt (c.getShardIdx hashKey key)).numOps + 1 } hilt'] at hbnd
      have hDnum : ((c.setShard (c.getShardIdx hashKey key)
          { c.shardAt (c.getShardIdx hashKey key) with
            numOps := (c.shardAt (c.getShardIdx hashKey key)).numOps + 1 }).Delete
          hashKey key).2.numShards = c.numShards := by
        rw [hDn]
        rfl
      have hlenD : c.getShardIdx hashKey key < ((c.setShard (c.getShardIdx hashKey key)
          { c.shardAt (c.getShardIdx hashKey key) with
            numOps := (c.shardAt (c.getShardIdx hashKey key)).numOps + 1 }).Delete
          hashKey key).2.shards.length := by
        rw [hgD.2.1, hDnum]
        exact hilt
      simp only [Cache.Load, hget]
      rw [if_neg (by rw [hev]; exact Bool.false_ne_true), if_pos hexp]
      rw [shardAt_setShard ((c.setShard (c.getShardIdx hashKey key)
        { c.shardAt (c.getShardIdx hashKey key) with
          numOps := (c.shardAt (c.getShardIdx hashKey key)).numOps + 1 }).Delete
          hashKey key).2 _ _ _ hlenD, if_pos rfl, setShard_setShard]
      rw [shardAt_m_setShard ((c.setShard (c.getShardIdx hashKey key)
        { c.shardAt (c.getShardIdx hashKey key) with
          numOps := (c.shardAt (c.getShardIdx hashKey key)).numOps + 1 }).Delete
          hashKey key).2 _ j _ hlenD]
      by_cases hji : j = c.getShardIdx hashKey key
      · rw [if_pos hji, hji]
        rw [hji] at hbnd
        rw [if_pos rfl] at hbnd
        exact hbnd
      · rw [if_neg hji]
        rw [if_neg hji] at hbnd
        exact hbnd
    · simp only [Cache.Load, hget]
      rw [if_neg (by rw [hev]; exact Bool.false_ne_true), if_neg hexp]
      rw [shardAt_setShard c _ _ _ hilt', if_pos rfl, setShard_setShard]
      rw [shardAt_m_setShard c _ j _ hilt']
      by_cases hji : j = c.getShardIdx hashKey key
      · rw [if_pos hji, hji]
        exact ⟨le_refl _, le_refl _⟩
      · rw [if_neg hji]
        exact ⟨le_refl _, le_refl _⟩

/-! ## Claim C1 over the uint16 walk -/

/-- One Store/Load/Delete operation (the alphabet of claim C1). -/
inductive C1Op where
  | c1Store (key value : Key) (opts : Option StoreOptions) (now : Int) (coins : List Bool)
  | c1Load (key : Key) (now : Int)
  | c1Delete (key : Key)
deriving DecidableEq

/-- Run one C1 operation through the uint16-walk cache operations. -/
def runC1OpW (hashKey : Key → Nat) (c : Cache) : C1Op → Cache
  | .c1Store k v o now coins => c.StoreW hashKey k v o now coins
  | .c1Load k now => (c.LoadW hashKey k now).2
  | .c1Delete k => (c.DeleteW hashKey k).2

/-- Run a C1 operation sequence through the uint16-walk operations. -/
def runC1OpsW (hashKey : Key → Nat) (c : Cache) (ops : List C1Op) : Cache :=
  ops.foldl (runC1OpW hashKey) c

/-- The same operation in the general alphabet. -/
def toCacheOp : C1Op → CacheOp
  | .c1Store k v o now coins => .opStore k v o now coins
  | .c1Load k now => .opLoad k now
  | .c1Delete k => .opDelete k

/-- The TTL-free restriction of claim C1: Stores carry no options. -/
def c1NoTTL : C1Op → Bool
  | .c1Store _ _ opts _ _ => opts.isNone
  | _ => true

/-- Spec-side last-write value over C1 operations. -/
def specValC1 (ops : List C1Op) (k : Key) : Option Key := specVal (ops.map toCacheOp) k

/-- The smallness invariant of the agreement argument: a good cache whose
shard maps all have capacity at most `2 ^ 15` and room (against the 24576
threshold that could push a capacity past `2 ^ 15`) for `n` more
insertions. -/
def SmallGood (hashKey : Key → Nat) (c : Cache) (n : Nat) : Prop :=
  CacheGood hashKey c ∧ ∀ i, i < c.numShards →
    (c.shardAt i).m.buckets.length ≤ 32768 ∧ (c.shardAt i).m.numItems + n ≤ 24576

/-- One C1 step: the uint16 walk agrees with the unbounded walk, and the
smallness invariant survives with one unit of budget spent. -/
theorem smallGood_step (hashKey : Key → Nat) (c : Cache) (op : C1Op) (n : Nat)
    (hg : SmallGood hashKey c (n + 1)) :
    runC1OpW hashKey c op = Cache.runOp hashKey c (toCacheOp op) ∧
    SmallGood hashKey (Cache.runOp hashKey c (toCacheOp op)) n := by
  obtain ⟨hgc, hsm⟩ := hg
  have hn0 := hgc.1
  cases op with
  | c1Store k v o now coins =>
    have hilt : c.getShardIdx hashKey k < c.numShards := getShardIdx_lt hashKey c k hn0
    obtain ⟨hMI, _, hmax, _, _⟩ := hgc.2.2 _ hilt
    obtain ⟨hcap, hroom⟩ := hsm _ hilt
    refine ⟨storeW_eq_c hashKey c k v o now coins hmax hMI hcap (by omega),
      (runOp_good hashKey c _ hgc).1, ?_⟩
    show ∀ j, j < (c.Store hashKey k v o now coins).numShards →
      ((c.Store hashKey k v o now coins).shardAt j).m.buckets.length ≤ 32768 ∧
      ((c.Store hashKey k v o now coins).shardAt j).m.numItems + n ≤ 24576
    intro j hj
    have hns : (c.Store hashKey k v o now coins).numShards = c.numShards :=
      (runOp_good hashKey c (.opStore k v o now coins) hgc).2
    have hjn : j < c.numShards := by omega
    obtain ⟨hN, hL⟩ := store_shard_bounds hashKey c k v o now coins hgc j hjn
    obtain ⟨hcapj, hroomj⟩ := hsm _ hjn
    exact ⟨hL hcapj (by omega), by omega⟩
  | c1Load k now =>
    have hilt : c.getShardIdx hashKey k < c.numShards := getShardIdx_lt hashKey c k hn0
    obtain ⟨hMI, _, hmax, _, _⟩ := hgc.2.2 _ hilt
    obtain ⟨hcap, hroom⟩ := hsm _ hilt
    have hi' : c.getShardIdx hashKey k < c.shards.length := by
      rw [hgc.2.1]
      exact hilt
    have heq : runC1OpW hashKey c (.c1Load k now) =
        Cache.runOp hashKey c (.opLoad k now) := by
      show (c.LoadW hashKey k now).2 = (c.Load hashKey k now).2
      rw [loadW_eq_c hashKey c k now hi' hMI hcap]
    refine ⟨heq, (runOp_good hashKey c _ hgc).1, ?_⟩
    show ∀ j, j < (c.Load hashKey k now).2.numShards →
      ((c.Load hashKey k now).2.shardAt j).m.buckets.length ≤ 32768 ∧
      ((c.Load hashKey k now).2.shardAt j).m.numItems + n ≤ 24576
    intro j hj
    have hns : (c.Load hashKey k now).2.numShards = c.numShards :=
      (runOp_good hashKey c (.opLoad k now) hgc).2
    have hjn : j < c.numShards := by omega
    obtain ⟨hN, hL⟩ := load_shard_bounds hashKey c k now hgc j hjn
    obtain ⟨hcapj, hroomj⟩ := hsm _ hjn
    exact ⟨by omega, by omega⟩
  | c1Delete k =>
    have hilt : c.getShardIdx hashKey k < c.numShards := getShardIdx_lt hashKey c k hn0
    obtain ⟨hMI, _, hmax, _, _⟩ := hgc.2.2 _ hilt
    obtain ⟨hcap, hroom⟩ := hsm _ hilt
    have heq : runC1OpW hashKey c (.c1Delete k) =
        Cache.runOp hashKey c (.opDelete k) := by
      show (c.DeleteW hashKey k).2 = (c.Delete hashKey k).2
      rw [deleteW_eq_c hashKey c k hMI hcap]
    refine ⟨heq, (runOp_good hashKey c _ hgc).1, ?_⟩
    show ∀ j, j < (c.Delete hashKey k).2.numShards →
      ((c.Delete hashKey k).2.shardAt j).m.buckets.length ≤ 32768 ∧
      ((c.Delete hashKey k).2.shardAt j).m.numItems + n ≤ 24576
    intro j hj
    have hns : (c.Delete hashKey k).2.numShards = c.numShards :=
      (runOp_good hashKey c (.opDelete k) hgc).2
    have hjn : j < c.numShards := by omega
    obtain ⟨hN, hL⟩ := delete_shard_bounds hashKey c k hgc j hjn
    obtain ⟨hcapj, hroomj⟩ := hsm _ hjn
    exact ⟨by omega, by omega⟩

/-- A C1 sequence within the insertion budget runs identically through the
uint16 walk and the unbounded walk, ending in a small good cache. -/
theorem smallGood_run (hashKey : Key → Nat) : ∀ (ops : List C1Op) (c : Cache),
    SmallGood hashKey c ops.length →
    runC1OpsW hashKey c ops = Cache.runOps hashKey c (ops.map toCacheOp) ∧
    SmallGood hashKey (Cache.runOps hashKey c (ops.map toCacheOp)) 0 := by
  intro ops
  induction ops with
  | nil => intro c h; exact ⟨rfl, h⟩
  | cons op rest ih =>
    intro c h
    obtain ⟨heq, h2⟩ := smallGood_step hashKey c op rest.length h
    constructor
    · show runC1OpsW hashKey (runC1OpW hashKey c op) rest =
        Cache.runOps hashKey (Cache.runOp hashKey c (toCacheOp op)) (rest.map toCacheOp)
      rw [heq]
      exact (ih _ h2).1
    · exact (ih _ h2).2

/-- The fresh zero-limit cache satisfies the smallness invariant for any
budget within the threshold. -/
theorem smallGood_new (hashKey : Key → Nat) (nShards : Nat) (n : Nat) (hn : n ≤ 24576) :
    SmallGood hashKey (Cache.New nShards 0) n := by
  refine ⟨cacheGood_new hashKey nShards, ?_⟩
  intro i hi
  rw [shardAt_new_m nShards i]
  constructor
  · show (NewMap 16).buckets.length ≤ 32768
    rw [NewMap16_eq]
    simp
  · show 0 + n ≤ 24576
    omega

/-- Claim C1 (amended): for every sequence of at most 24575 TTL-free Store,
Load, and Delete operations on a zero-limit cache — run through the exact
uint16-distance operations — a final Load of any key returns exactly the
spec-side last-write value: the value of the most recent Store of that key
(a hit), or a miss if the most recent operation on it was a Delete or it
was never stored.  Within this budget every shard map's capacity stays at
most `2 ^ 15`, so no probe chain can reach the `2 ^ 16` wrap of the uint16
probe distance; past the wrap the guarantee fails (see the
counterexample). -/
theorem c1_last_write (hashKey : Key → Nat) (nShards : Nat) (ops : List C1Op)
    (k : Key) (now : Int)
    (hops : ∀ op ∈ ops, c1NoTTL op = true)
    (hcount : ops.length ≤ 24575) :
    ((runC1OpsW hashKey (Cache.New nShards 0) ops).LoadW hashKey k now).1.map
      Entry.value = specValC1 ops k := by
  obtain ⟨heq, hsg⟩ := smallGood_run hashKey ops (Cache.New nShards 0)
    (smallGood_new hashKey nShards ops.length (by omega))
  have hops2 : ∀ op ∈ ops.map toCacheOp, c1Op op = true := by
    intro op hop
    rw [List.mem_map] at hop
    obtain ⟨o, ho, rfl⟩ := hop
    cases o with
    | c1Store k2 v2 o2 n2 cs2 => exact hops _ ho
    | c1Load k2 n2 => rfl
    | c1Delete k2 => rfl
  have hplain := load_returns_last_write hashKey nShards (ops.map toCacheOp) k now hops2
  rw [heq]
  have hgF := hsg.1
  have hiltF : (Cache.runOps hashKey (Cache.New nShards 0)
      (ops.map toCacheOp)).getShardIdx hashKey k <
      (Cache.runOps hashKey (Cache.New nShards 0) (ops.map toCacheOp)).numShards :=
    getShardIdx_lt hashKey _ k hgF.1
  have hi' : (Cache.runOps hashKey (Cache.New nShards 0)
      (ops.map toCacheOp)).getShardIdx hashKey k <
      (Cache.runOps hashKey (Cache.New nShards 0) (ops.map toCacheOp)).shards.length := by
    rw [hgF.2.1]
    exact hiltF
  obtain ⟨hMIF, _, _, _, _⟩ := hgF.2.2 _ hiltF
  obtain ⟨hcapF, _⟩ := hsg.2 _ hiltF
  rw [loadW_eq_c hashKey _ k now hi' hMIF hcapF]
  exact hplain

/-- C1 at a concrete input within the budget: store two keys, delete one,
load the other through the uint16-walk operations. -/
theorem c1_witness :
    ((runC1OpsW hashHead (Cache.New 1 0)
        [C1Op.c1Store [1] [7] none 0 [], C1Op.c1Store [2] [9] none 0 [],
         C1Op.c1Delete [2]]).LoadW hashHead [1] 0).1.map Entry.value = some [7] :=
  (c1_last_write hashHead 1
      [C1Op.c1Store [1] [7] none 0 [], C1Op.c1Store [2] [9] none 0 [],
       C1Op.c1Delete [2]] [1] 0 (by decide) (by decide)).trans (by decide)

/-! ## Claim C2 over the uint16 walk -/

/-- Run one mutation through the uint16-walk map operations. -/
def runMapMutW (hashKey : Key → Nat) (m : Map) : MapMut → Map
  | .mut_insert e => (m.insertW hashKey e).1
  | .mut_delete k => (m.deleteW k (hashKey k)).1

/-- One uint16-walk mutation on a small invariant-satisfying map: it agrees
with the unbounded walk, preserves the invariants, and keeps the map
small. -/
theorem mapMutW_step (hashKey : Key → Nat) (m : Map) (mt : MapMut) (n : Nat)
    (hinv : MapInv hashKey m) (hcap : m.buckets.length ≤ 32768)
    (hni : m.numItems + (n + 1) ≤ 24576) :
    runMapMutW hashKey m mt = runMapMut hashKey m mt ∧
    MapInv hashKey (runMapMut hashKey m mt) ∧
    (runMapMut hashKey m mt).buckets.length ≤ 32768 ∧
    (runMapMut hashKey m mt).numItems + n ≤ 24576 := by
  cases mt with
  | mut_insert e =>
    have heq : runMapMutW hashKey m (.mut_insert e) = runMapMut hashKey m (.mut_insert e) := by
      show (m.insertW hashKey e).1 = (m.insert hashKey e).1
      rw [insertW_eq hashKey m e hinv hcap (by omega)]
    refine ⟨heq, mapMut_inv hashKey m hinv (.mut_insert e), ?_, ?_⟩
    · show (m.insert hashKey e).1.buckets.length ≤ 32768
      cases hlk : m.lookup e.key (hashKey e.key) with
      | none =>
        obtain ⟨_, _, _, _, hL⟩ := insert_miss_spec hashKey m e hinv hlk
        rw [hL]
        by_cases hg2 : m.numItems ≥ m.growAt
        · rw [if_pos hg2]
          refine grow_target_small m hinv.cap_pow2 ?_ (by omega)
          rw [hinv.grow_eq] at hg2
          omega
        · rw [if_neg hg2]
          exact hcap
      | some p =>
        obtain ⟨e0, idx⟩ := p
        obtain ⟨_, _, _, _, _, _, _, hL⟩ := insert_hit_spec hashKey m e e0 idx hinv hlk
        rw [hL]
        exact hcap
    · show (m.insert hashKey e).1.numItems + n ≤ 24576
      cases hlk : m.lookup e.key (hashKey e.key) with
      | none =>
        obtain ⟨_, _, _, hN, _⟩ := insert_miss_spec hashKey m e hinv hlk
        rw [hN]
        omega
      | some p =>
        obtain ⟨e0, idx⟩ := p
        obtain ⟨_, _, _, _, _, _, hN, _⟩ := insert_hit_spec hashKey m e e0 idx hinv hlk
        rw [hN]
        omega
  | mut_delete k =>
    have heq : runMapMutW hashKey m (.mut_delete k) = runMapMut hashKey m (.mut_delete k) := by
      show (m.deleteW k (hashKey k)).1 = (m.delete k (hashKey k)).1
      rw [deleteW_eq hashKey m k hinv hcap]
    refine ⟨heq, mapMut_inv hashKey m hinv (.mut_delete k), ?_, ?_⟩
    · show (m.delete k (hashKey k)).1.buckets.length ≤ 32768
      cases hlk : m.lookup k (hashKey k) with
      | none =>
        rw [delete_miss_spec m k (hashKey k) hlk]
        exact hcap
      | some p =>
        obtain ⟨e0, idx⟩ := p
        obtain ⟨_, _, _, _, hL⟩ := delete_hit_spec hashKey m k e0 idx hinv hlk
        omega
    · show (m.delete k (hashKey k)).1.numItems + n ≤ 24576
      cases hlk : m.lookup k (hashKey k) with
      | none =>
        rw [delete_miss_spec m k (hashKey k) hlk]
        show m.numItems + n ≤ 24576
        omega
      | some p =>
        obtain ⟨e0, idx⟩ := p
        obtain ⟨_, _, _, hN, _⟩ := delete_hit_spec hashKey m k e0 idx hinv hlk
        rw [hN]
        omega

/-- Claim C2 (amended): after every sequence of at most 24575 insert/delete
mutations run through the exact uint16-distance operations from the fresh
16-bucket map, the map invariants hold: unique keys; every occupied
bucket's stored distance is below the capacity and the offset from its
hash's home bucket; the local Robin-Hood chain ordering (each bucket at
positive distance follows a bucket at distance at least one less, giving
every stored entry an unbroken occupied run back to its home bucket, so a
scan can stop early only where absence is certain); the capacity is a power
of two, at least 16, and — within this budget — at most `2 ^ 15`, below
which the 16-bit probe distances never wrap.  The literal "distances are
non-decreasing along the scan" sentence is not an invariant (see the
counterexample), and past the capacity bound the uint16 wrap breaks the
distance equation itself (see the C1 counterexample). -/
theorem c2_map_invariants (hashKey : Key → Nat) (muts : List MapMut)
    (hcount : muts.length ≤ 24575) :
    MapInv hashKey (muts.foldl (runMapMutW hashKey) (NewMap 16)) ∧
    (muts.foldl (runMapMutW hashKey) (NewMap 16)).buckets.length ≤ 32768 := by
  suffices H : ∀ (l : List MapMut) (m : Map), MapInv hashKey m →
      m.buckets.length ≤ 32768 → m.numItems + l.length ≤ 24576 →
      MapInv hashKey (l.foldl (runMapMutW hashKey) m) ∧
      (l.foldl (runMapMutW hashKey) m).buckets.length ≤ 32768 by
    refine H muts (NewMap 16) (NewMap16_inv hashKey) ?_ ?_
    · rw [NewMap16_eq]
      simp
    · show 0 + muts.length ≤ 24576
      omega
  intro l
  induction l with
  | nil =>
    intro m hm hc _
    exact ⟨hm, hc⟩
  | cons x xs ih =>
    intro m hm hc hn
    simp only [List.length_cons] at hn
    obtain ⟨heq, hI, hC, hN⟩ := mapMutW_step hashKey m x xs.length hm hc (by omega)
    rw [List.foldl_cons, heq]
    exact ih _ hI hC hN

/-- C2 at a concrete input within the budget: one insert and one delete. -/
theorem c2_witness :
    MapInv hashC2 ([MapMut.mut_insert ⟨[0], [], 0, 0, 0, false⟩,
        MapMut.mut_delete [0]].foldl (runMapMutW hashC2) (NewMap 16)) ∧
    ([MapMut.mut_insert ⟨[0], [], 0, 0, 0, false⟩,
        MapMut.mut_delete [0]].foldl (runMapMutW hashC2) (NewMap 16)).buckets.length ≤
      32768 :=
  c2_map_invariants hashC2 [MapMut.mut_insert ⟨[0], [], 0, 0, 0, false⟩,
    MapMut.mut_delete [0]] (by decide)

/-! ## Claim C1 counterexample: a Delete strands a key past the uint16 wrap

With every key hashing to the same home bucket, 65537 Stores build one
probe run from bucket 0 whose stored uint16 distances wrap back to 0 at
offset 65536 (types.go declares the distance as `uint16`).  Deleting the
run's first key triggers the backward shift, which stops as soon as the
next bucket's stored distance is 0 — here at the wrapped distance of the
last key, whose true offset is 65536.  That key stays in the table one
slot beyond the hole the shift left, so the following Load walks into the
empty slot and misses, although the spec-side last-write value of the key
is the stored value.  Everything below is proved symbolically: the table
family `canonical`, the walk lemmas for the wrapped insert/lookup loops,
the capacity schedule `capA`, and the shifted table after the delete. -/

/-- Three-byte big-endian key for index `i` (distinct valid Go byte
slices for `i < 2 ^ 24`). -/
def keyOf (i : Nat) : Key := [i / 65536, i % 65536 / 256, i % 256]

/-- Distinct indices below `2 ^ 24` give distinct keys. -/
theorem keyOf_inj (i j : Nat) (hi : i < 16777216) (hj : j < 16777216)
    (h : keyOf i = keyOf j) : i = j := by
  simp only [keyOf, List.cons.injEq, and_true] at h
  omega

/-- The everything-collides hash function: claim C1 quantifies over the
hash function, and 64-bit hash collisions of distinct keys cannot be
excluded. -/
def hashZ : Key → Nat := fun _ => 0

theorem hashZ_app (k : Key) : hashZ k = 0 := rfl

/-- The entry the counterexample Store writes for `keyOf i`: empty value,
no options, so expireAt, flags and cas are all zero. -/
def EC (i : Nat) : Entry := { key := keyOf i, value := [], expireAt := 0, flags := 0, cas := 0, evicted := false }

/-- The occupied bucket holding entry `i` after the same-home inserts:
cached hash 0, stored distance the uint16 value `i % 2 ^ 16`. -/
def BCe (i : Nat) : BucketE := { entry := EC i, hash := 0, distance := i % 65536 }

/-- The bucket slot carrying `BCe i`. -/
def BC (i : Nat) : Bucket := some (BCe i)

/-- The table after `n` same-home inserts at capacity `cap`: entries
`0 .. n - 1` in one run from bucket 0, the rest empty. -/
def canonical (n cap : Nat) : List Bucket := (List.range n).map BC ++ List.replicate (cap - n) none

/-- The map state after `n` same-home inserts at capacity `cap`. -/
def MW (n cap : Nat) : Map := { buckets := canonical n cap, numItems := n, mask := cap - 1, growAt := cap * 3 / 4, shrinkAt := cap / 10 }

theorem length_canonical (n cap : Nat) (h : n ≤ cap) : (canonical n cap).length = cap := by
  simp only [canonical, List.length_append, List.length_map, List.length_range,
    List.length_replicate]
  omega

theorem getD_canonical_lt (n cap j : Nat) (hj : j < n) :
    (canonical n cap).getD j none = BC j := by
  rw [canonical, List.getD_eq_getElem?_getD, List.getElem?_append,
    if_pos (by rw [List.length_map, List.length_range]; exact hj),
    List.getElem?_map, List.getElem?_range hj]
  rfl

theorem getD_canonical_ge (n cap j : Nat) (hn : n ≤ j) :
    (canonical n cap).getD j none = none := by
  rw [canonical, List.getD_eq_getElem?_getD, List.getElem?_append,
    if_neg (by rw [List.length_map, List.length_range]; omega),
    List.length_map, List.length_range, List.getElem?_replicate]
  split
  · rfl
  · rfl

/-- Setting the slot just past a prefix writes into the suffix's head. -/
theorem set_append_left_len {α : Type} (l1 l2 : List α) (v : α) :
    (l1 ++ l2).set l1.length v = l1 ++ l2.set 0 v := by
  induction l1 with
  | nil => rfl
  | cons x xs ih =>
    show x :: (xs ++ l2).set xs.length v = x :: (xs ++ l2.set 0 v)
    rw [ih]

theorem canonical_set (n cap : Nat) (h : n < cap) :
    (canonical n cap).set n (BC n) = canonical (n + 1) cap := by
  have h1 := set_append_left_len ((List.range n).map BC)
    (List.replicate (cap - n) none) (BC n)
  rw [List.length_map, List.length_range] at h1
  rw [canonical, h1, show cap - n = (cap - (n + 1)) + 1 from by omega, List.replicate_succ,
    List.set_cons_zero]
  rw [canonical, List.range_succ, List.map_append, List.append_assoc]
  rfl

theorem lookupLoopW_step_none (hash : Nat) (key : Key) (fuel : Nat) (bs : List Bucket)
    (idx dist : Nat) (hb : bs.getD idx none = none) :
    lookupLoopW hash key (fuel + 1) bs idx dist = none := by
  rw [lookupLoopW, hb]

theorem lookupLoopW_step_some (hash : Nat) (key : Key) (fuel : Nat) (bs : List Bucket)
    (idx dist : Nat) (b : BucketE) (hb : bs.getD idx none = some b) :
    lookupLoopW hash key (fuel + 1) bs idx dist =
      if b.distance < dist then none
      else if b.hash = hash ∧ b.entry.key = key then some (b.entry, idx)
      else lookupLoopW hash key fuel bs ((idx + 1) % bs.length) (wrap16 (dist + 1)) := by
  rw [lookupLoopW, hb]

theorem insertLoopW_step_none (fuel : Nat) (bs : List Bucket) (entry : Entry)
    (hash dist idx : Nat) (hb : bs.getD idx none = none) :
    insertLoopW (fuel + 1) bs entry hash dist idx = bs.set idx (some ⟨entry, hash, dist⟩) := by
  rw [insertLoopW, hb]

theorem insertLoopW_step_next (fuel : Nat) (bs : List Bucket) (entry : Entry)
    (hash dist idx : Nat) (b : BucketE) (hb : bs.getD idx none = some b)
    (hd : ¬ b.distance < dist) :
    insertLoopW (fuel + 1) bs entry hash dist idx =
      insertLoopW fuel bs entry hash (wrap16 (dist + 1)) ((idx + 1) % bs.length) := by
  rw [insertLoopW]
  simp only [hb]
  rw [if_neg hd]

/-- The wrapped lookup of a key not in the canonical table walks the whole
run and stops at the first empty bucket: the carried distance always
equals the resident's stored distance, so the early-exit test never
fires. -/
theorem lookup_walk_miss (n cap : Nat) (key : Key)
    (hkey : ∀ j, j < n → keyOf j ≠ key) (hcap : n < cap) :
    ∀ (t idx fuel d : Nat), idx + t = n → t + 1 ≤ fuel → d = idx % 65536 →
      lookupLoopW 0 key fuel (canonical n cap) idx d = none := by
  intro t
  induction t with
  | zero =>
    intro idx fuel d h1 h2 _
    obtain ⟨f, rfl⟩ : ∃ f, fuel = f + 1 := ⟨fuel - 1, by omega⟩
    exact lookupLoopW_step_none 0 key f _ idx d (getD_canonical_ge n cap idx (by omega))
  | succ t ih =>
    intro idx fuel d h1 h2 h3
    obtain ⟨f, rfl⟩ : ∃ f, fuel = f + 1 := ⟨fuel - 1, by omega⟩
    rw [lookupLoopW_step_some 0 key f _ idx d (BCe idx)
      (getD_canonical_lt n cap idx (by omega))]
    rw [if_neg (show ¬ (BCe idx).distance < d from by rw [h3]; exact lt_irrefl _)]
    rw [if_neg (show ¬ ((BCe idx).hash = 0 ∧ (BCe idx).entry.key = key) from
      fun hc => hkey idx (by omega) hc.2)]
    rw [length_canonical n cap (by omega),
      Nat.mod_eq_of_lt (show idx + 1 < cap from by omega)]
    exact ih (idx + 1) f (wrap16 (d + 1)) (by omega) (by omega)
      (by rw [h3, wrap16]; exact Nat.mod_add_mod idx 65536 1)

theorem lookupW_MW_fresh (n cap : Nat) (key : Key)
    (hkey : ∀ j, j < n → keyOf j ≠ key) (hcap : n < cap) :
    (MW n cap).lookupW key 0 = none := by
  unfold Map.lookupW Map.maskIdx
  rw [show (MW n cap).buckets = canonical n cap from rfl,
    length_canonical n cap (le_of_lt hcap), Nat.zero_mod]
  exact lookup_walk_miss n cap key hkey hcap n 0 cap 0 (by omega) (by omega)
    (Nat.zero_mod 65536).symm

/-- The wrapped insert of the next same-home entry walks the run without
swapping (the carried distance always equals the resident's) and lands in
the first empty bucket with the wrapped distance `n % 2 ^ 16`. -/
theorem insert_walk (n cap : Nat) (hcap : n < cap) :
    ∀ (t idx fuel d : Nat), idx + t = n → t + 1 ≤ fuel → d = idx % 65536 →
      insertLoopW fuel (canonical n cap) (EC n) 0 d idx = canonical (n + 1) cap := by
  intro t
  induction t with
  | zero =>
    intro idx fuel d h1 h2 h3
    obtain ⟨f, rfl⟩ : ∃ f, fuel = f + 1 := ⟨fuel - 1, by omega⟩
    rw [insertLoopW_step_none f _ (EC n) 0 d idx (getD_canonical_ge n cap idx (by omega))]
    have hidx : idx = n := by omega
    subst hidx
    rw [h3]
    exact canonical_set idx cap hcap
  | succ t ih =>
    intro idx fuel d h1 h2 h3
    obtain ⟨f, rfl⟩ : ∃ f, fuel = f + 1 := ⟨fuel - 1, by omega⟩
    rw [insertLoopW_step_next f _ (EC n) 0 d idx (BCe idx)
      (getD_canonical_lt n cap idx (by omega))
      (show ¬ (BCe idx).distance < d from by rw [h3]; exact lt_irrefl _)]
    rw [length_canonical n cap (le_of_lt hcap),
      Nat.mod_eq_of_lt (show idx + 1 < cap from by omega)]
    exact ih (idx + 1) f (wrap16 (d + 1)) (by omega) (by omega)
      (by rw [h3, wrap16]; exact Nat.mod_add_mod idx 65536 1)

theorem insertInternalW_MW (n cap : Nat) (hcap : n < cap) :
    (MW n cap).insertInternalW (EC n) 0 = MW (n + 1) cap := by
  unfold Map.insertInternalW Map.maskIdx
  rw [show (MW n cap).buckets = canonical n cap from rfl,
    length_canonical n cap (le_of_lt hcap), Nat.zero_mod,
    insert_walk n cap hcap n 0 cap 0 (by omega) (by omega) (Nat.zero_mod 65536).symm]
  rfl

theorem foldl_resizeStepW_nones (k : Nat) : ∀ (a : Map),
    List.foldl resizeStepW a (List.replicate k none) = a := by
  induction k with
  | zero => intro a; rfl
  | succ k ih =>
    intro a
    rw [List.replicate_succ]
    exact ih a

theorem foldl_resizeStepW_range (S : Nat) : ∀ (n : Nat), n ≤ S →
    List.foldl resizeStepW (MW 0 S) ((List.range n).map BC) = MW n S := by
  intro n
  induction n with
  | zero => intro _; rfl
  | succ n ih =>
    intro hn
    rw [List.range_succ, List.map_append, List.foldl_append, ih (by omega)]
    exact insertInternalW_MW n S (by omega)

/-- The wrapped resize of a canonical table re-inserts the run in order and
rebuilds the canonical table at the new capacity (each re-insert carries
the cached hash 0 and a fresh distance). -/
theorem resizeW_MW (n cap S : Nat) (hnS : n ≤ S) :
    (MW n cap).resizeW S = MW n S := by
  show List.foldl resizeStepW (MW 0 S) (canonical n cap) = MW n S
  rw [canonical, List.foldl_append, foldl_resizeStepW_range S n hnS,
    foldl_resizeStepW_nones]

/-- The capacity step of one insert: double when the count has reached
`growAt = capacity * 3 / 4`. -/
def capStep (n cap : Nat) : Nat := if cap * 3 / 4 ≤ n then cap * 2 else cap

/-- One wrapped insert of the next same-home entry: a fresh-key miss, the
growth check, and the walk to the first empty bucket. -/
theorem insertW_MW (n cap : Nat) (hlt : n < cap) (hn : n < 16777216) :
    (MW n cap).insertW hashZ (EC n) = (MW (n + 1) (capStep n cap), none) := by
  have hfresh : (MW n cap).lookupW (EC n).key 0 = none :=
    lookupW_MW_fresh n cap ((EC n).key)
      (fun j hj hk => absurd (keyOf_inj j n (by omega) hn hk) (by omega)) hlt
  simp only [Map.insertW, hashZ_app, hfresh]
  by_cases hg : cap * 3 / 4 ≤ n
  · rw [if_pos (show (MW n cap).numItems ≥ (MW n cap).growAt from hg)]
    rw [show (MW n cap).buckets.length = cap from length_canonical n cap (le_of_lt hlt)]
    rw [resizeW_MW n cap (cap * 2) (by omega)]
    rw [insertInternalW_MW n (cap * 2) (by omega)]
    rw [capStep, if_pos hg]
  · rw [if_neg (show ¬ (MW n cap).numItems ≥ (MW n cap).growAt from hg)]
    rw [insertInternalW_MW n cap hlt]
    rw [capStep, if_neg hg]

/-- The shard state after `n` counterexample Stores: each entry occupies
`3 + 0 + 24 = 27` bytes. -/
def SH (n cap : Nat) : Shard := { m := MW n cap, memUsed := 27 * (n : Int), maxMemory := 0, numOps := n, numHits := 0, numMisses := 0, numEvicted := 0, numExpired := 0 }

/-- The one-shard zero-limit cache after `n` counterexample Stores. -/
def CW (n cap : Nat) : Cache := { shards := [SH n cap], numShards := 1, maxMemory := 0 }

/-- The i-th counterexample operation: store `keyOf i` with empty value
and no options. -/
def storeC1 (i : Nat) : C1Op := C1Op.c1Store (keyOf i) [] none 0 []

/-- The first `n` counterexample Stores. -/
def opsStores (n : Nat) : List C1Op := (List.range n).map storeC1

/-- The full counterexample sequence: 65537 Stores, then the Delete of the
run's first key. -/
def opsC1 : List C1Op := opsStores 65537 ++ [C1Op.c1Delete (keyOf 0)]

theorem runC1OpsW_append (hashKey : Key → Nat) (c : Cache) (l1 l2 : List C1Op) :
    runC1OpsW hashKey c (l1 ++ l2) = runC1OpsW hashKey (runC1OpsW hashKey c l1) l2 :=
  List.foldl_append (runC1OpW hashKey) c l1 l2

theorem EC_store_entry (i : Nat) :
    ({ key := keyOf i, value := [], expireAt := optExpireAt none 0, flags := optFlags none, cas := optCas none, evicted := false } : Entry) = EC i := rfl

/-- One counterexample Store on the canonical cache state: the map takes
the wrapped insert and the shard's accounting advances by one entry. -/
theorem storeC1_step (n cap : Nat) (hlt : n < cap) (hn : n < 16777216) :
    runC1OpW hashZ (CW n cap) (storeC1 n) = CW (n + 1) (capStep n cap) := by
  show Cache.StoreW hashZ (CW n cap) (keyOf n) [] none 0 [] = CW (n + 1) (capStep n cap)
  have hins : (MW n cap).insertW hashZ (EC n) = (MW (n + 1) (capStep n cap), none) :=
    insertW_MW n cap hlt hn
  simp only [Cache.StoreW, Cache.getShardIdx, Cache.shardAt, Cache.setShard, CW, SH,
    hashZ_app, Nat.zero_mod, List.getD_cons_zero]
  rw [evictIfNeededW_noop]
  · rw [EC_store_entry n]
    simp only [hins, List.set_cons_zero, Cache.mk.injEq, List.cons.injEq, Shard.mk.injEq,
      and_true, true_and]
    rw [show (EC n).Size = (27 : Int) from rfl]
    push_cast
    ring
  · exact le_refl 0

/-- Capacity of the counterexample map after `n` inserts, from NewMap 16. -/
def capA : Nat → Nat
  | 0 => 16
  | n + 1 => capStep n (capA n)

theorem capA_inv : ∀ (n : Nat), 16 ≤ capA n ∧ n < capA n := by
  intro n
  induction n with
  | zero => exact ⟨by decide, by decide⟩
  | succ n ih =>
    obtain ⟨h16, hlt⟩ := ih
    show 16 ≤ capStep n (capA n) ∧ n + 1 < capStep n (capA n)
    rw [capStep]
    by_cases h : capA n * 3 / 4 ≤ n
    · rw [if_pos h]
      exact ⟨by omega, by omega⟩
    · rw [if_neg h]
      exact ⟨h16, by omega⟩

/-- The cache trace of the counterexample Stores: after `n` of them the
single shard holds the canonical table at capacity `capA n`. -/
theorem stores_trace : ∀ (n : Nat), n ≤ 16777216 →
    runC1OpsW hashZ (CW 0 16) (opsStores n) = CW n (capA n) := by
  intro n
  induction n with
  | zero => intro _; rfl
  | succ n ih =>
    intro hn
    have hsplit : opsStores (n + 1) = opsStores n ++ [storeC1 n] := by
      simp only [opsStores, List.range_succ, List.map_append, List.map_cons, List.map_nil]
    rw [hsplit, runC1OpsW_append, ih (by omega)]
    show runC1OpW hashZ (CW n (capA n)) (storeC1 n) = CW (n + 1) (capA (n + 1))
    rw [storeC1_step n (capA n) (capA_inv n).2 (by omega)]
    rfl

theorem capA_const : ∀ (l a cap : Nat), capA a = cap → a + l ≤ cap * 3 / 4 →
    capA (a + l) = cap := by
  intro l
  induction l with
  | zero => intro a cap h _; exact h
  | succ l ih =>
    intro a cap h hle
    have h1 : capA (a + l) = cap := ih a cap h (by omega)
    show capStep (a + l) (capA (a + l)) = cap
    rw [h1, capStep, if_neg (by omega)]

theorem capA_grow (a cap : Nat) (h : capA a = cap) (hge : cap * 3 / 4 ≤ a) :
    capA (a + 1) = cap * 2 := by
  show capStep a (capA a) = cap * 2
  rw [h, capStep, if_pos hge]

/-- The counterexample's capacity schedule: growth events at
`12, 24, 48, ..., 49152`, ending at capacity `2 ^ 17` after 65537
inserts. -/
theorem capA_65537 : capA 65537 = 131072 := by
  have e0 : capA 12 = 16 := capA_const 12 0 16 rfl (by omega)
  have e1 : capA 13 = 32 := capA_grow 12 16 e0 (by omega)
  have e2 : capA 24 = 32 := capA_const 11 13 32 e1 (by omega)
  have e3 : capA 25 = 64 := capA_grow 24 32 e2 (by omega)
  have e4 : capA 48 = 64 := capA_const 23 25 64 e3 (by omega)
  have e5 : capA 49 = 128 := capA_grow 48 64 e4 (by omega)
  have e6 : capA 96 = 128 := capA_const 47 49 128 e5 (by omega)
  have e7 : capA 97 = 256 := capA_grow 96 128 e6 (by omega)
  have e8 : capA 192 = 256 := capA_const 95 97 256 e7 (by omega)
  have e9 : capA 193 = 512 := capA_grow 192 256 e8 (by omega)
  have e10 : capA 384 = 512 := capA_const 191 193 512 e9 (by omega)
  have e11 : capA 385 = 1024 := capA_grow 384 512 e10 (by omega)
  have e12 : capA 768 = 1024 := capA_const 383 385 1024 e11 (by omega)
  have e13 : capA 769 = 2048 := capA_grow 768 1024 e12 (by omega)
  have e14 : capA 1536 = 2048 := capA_const 767 769 2048 e13 (by omega)
  have e15 : capA 1537 = 4096 := capA_grow 1536 2048 e14 (by omega)
  have e16 : capA 3072 = 4096 := capA_const 1535 1537 4096 e15 (by omega)
  have e17 : capA 3073 = 8192 := capA_grow 3072 4096 e16 (by omega)
  have e18 : capA 6144 = 8192 := capA_const 3071 3073 8192 e17 (by omega)
  have e19 : capA 6145 = 16384 := capA_grow 6144 8192 e18 (by omega)
  have e20 : capA 12288 = 16384 := capA_const 6143 6145 16384 e19 (by omega)
  have e21 : capA 12289 = 32768 := capA_grow 12288 16384 e20 (by omega)
  have e22 : capA 24576 = 32768 := capA_const 12287 12289 32768 e21 (by omega)
  have e23 : capA 24577 = 65536 := capA_grow 24576 32768 e22 (by omega)
  have e24 : capA 49152 = 65536 := capA_const 24575 24577 65536 e23 (by omega)
  have e25 : capA 49153 = 131072 := capA_grow 49152 65536 e24 (by omega)
  exact capA_const 16384 49153 131072 e25 (by omega)

/-- Looking up the run's first key hits immediately at its home bucket. -/
theorem lookupW_MW_zero (n cap : Nat) (h0 : 0 < n) (hcap : n < cap) :
    (MW n cap).lookupW (keyOf 0) 0 = some (EC 0, 0) := by
  unfold Map.lookupW Map.maskIdx
  rw [show (MW n cap).buckets = canonical n cap from rfl,
    length_canonical n cap (le_of_lt hcap), Nat.zero_mod]
  obtain ⟨f, rfl⟩ : ∃ f, cap = f + 1 := ⟨cap - 1, by omega⟩
  rw [lookupLoopW_step_some 0 (keyOf 0) f _ 0 0 (BCe 0) (getD_canonical_lt n (f + 1) 0 h0)]
  rw [if_neg (show ¬ (BCe 0).distance < 0 from by omega)]
  rw [if_pos (show (BCe 0).hash = 0 ∧ (BCe 0).entry.key = keyOf 0 from ⟨rfl, rfl⟩)]
  rfl

/-- The bucket after the backward shift moved entry `j + 1` one slot back:
its stored distance dropped from `j + 1` to `j`. -/
def movedB (j : Nat) : Bucket := some { entry := EC (j + 1), hash := 0, distance := j }

/-- The table mid-shift with the hole at slot `p`: entries `1 .. p` moved
back one slot, entries `p + 1 .. 65536` still in place, on capacity
`2 ^ 17`. -/
def shiftState (p : Nat) : List Bucket := (List.range p).map movedB ++ none :: ((List.range' (p + 1) (65536 - p)).map BC ++ List.replicate 65535 none)

theorem length_shiftState (p : Nat) (hp : p ≤ 65535) :
    (shiftState p).length = 131072 := by
  simp only [shiftState, List.length_append, List.length_map, List.length_range,
    List.length_cons, List.length_range', List.length_replicate]
  omega

theorem getD_shiftState_lt (p j : Nat) (hj : j < p) :
    (shiftState p).getD j none = movedB j := by
  rw [shiftState, List.getD_eq_getElem?_getD, List.getElem?_append,
    if_pos (by rw [List.length_map, List.length_range]; exact hj),
    List.getElem?_map, List.getElem?_range hj]
  rfl

theorem getD_shiftState_hole (p : Nat) :
    (shiftState p).getD p none = none := by
  rw [shiftState, List.getD_eq_getElem?_getD, List.getElem?_append,
    if_neg (by rw [List.length_map, List.length_range]; omega),
    List.length_map, List.length_range, Nat.sub_self, List.getElem?_cons_zero]
  rfl

theorem getD_shiftState_next (p : Nat) (hp : p ≤ 65535) :
    (shiftState p).getD (p + 1) none = BC (p + 1) := by
  rw [shiftState, List.getD_eq_getElem?_getD, List.getElem?_append,
    if_neg (by rw [List.length_map, List.length_range]; omega),
    List.length_map, List.length_range, show p + 1 - p = 1 from by omega,
    List.getElem?_cons_succ, List.getElem?_append,
    if_pos (by rw [List.length_map, List.length_range']; omega),
    List.getElem?_map, show 65536 - p = (65535 - p) + 1 from by omega,
    show List.range' (p + 1) ((65535 - p) + 1) = (p + 1) :: List.range' (p + 2) (65535 - p) from rfl,
    List.getElem?_cons_zero]
  rfl

theorem movedB_of_BCe (p : Nat) (hp : p + 1 < 65536) :
    (some { BCe (p + 1) with distance := (BCe (p + 1)).distance - 1 } : Bucket) = movedB p := by
  show (some { entry := EC (p + 1), hash := 0, distance := (p + 1) % 65536 - 1 } : Bucket) = movedB p
  rw [Nat.mod_eq_of_lt hp, Nat.add_sub_cancel]
  rfl

/-- One move of the backward shift on the mid-shift table: the hole
advances one slot. -/
theorem shiftState_step (p : Nat) (hp : p + 1 ≤ 65535) :
    ((shiftState p).set p (movedB p)).set (p + 1) none = shiftState (p + 1) := by
  have h1 := set_append_left_len ((List.range p).map movedB)
    (none :: ((List.range' (p + 1) (65536 - p)).map BC ++ List.replicate 65535 none)) (movedB p)
  rw [List.length_map, List.length_range] at h1
  rw [shiftState, h1, List.set_cons_zero, List.append_cons]
  have h2 := set_append_left_len ((List.range p).map movedB ++ [movedB p])
    ((List.range' (p + 1) (65536 - p)).map BC ++ List.replicate 65535 none) none
  rw [List.length_append, List.length_map, List.length_range, List.length_cons,
    List.length_nil, Nat.zero_add] at h2
  rw [h2, show 65536 - p = (65535 - p) + 1 from by omega,
    show List.range' (p + 1) ((65535 - p) + 1) = (p + 1) :: List.range' (p + 2) (65535 - p) from rfl,
    List.map_cons, List.cons_append, List.set_cons_zero]
  rw [shiftState, List.range_succ, List.map_append,
    show 65536 - (p + 1) = 65535 - p from by omega,
    show p + 1 + 1 = p + 2 from rfl,
    show List.map movedB [p] = [movedB p] from rfl,
    List.append_assoc]

/-- The backward shift of deleting the run's first key advances the hole
slot by slot while the next stored distance is positive, and stops at slot
65535: the next resident's stored uint16 distance wrapped to 0, so the
loop takes it for a home-bucket entry and leaves it behind the hole. -/
theorem shift_walk : ∀ (t p fuel : Nat), p + t = 65535 → t + 1 ≤ fuel →
    shiftLoop fuel (shiftState p) p = shiftState 65535 := by
  intro t
  induction t with
  | zero =>
    intro p fuel h1 h2
    obtain ⟨f, rfl⟩ : ∃ f, fuel = f + 1 := ⟨fuel - 1, by omega⟩
    have hp : p = 65535 := by omega
    subst hp
    have hmod : (65535 + 1) % (shiftState 65535).length = 65536 := by
      rw [length_shiftState 65535 (by omega)]
    have hb : (shiftState 65535).getD ((65535 + 1) % (shiftState 65535).length) none =
        some (BCe 65536) := by
      rw [hmod]
      exact getD_shiftState_next 65535 (by omega)
    exact shiftLoop_step_zero f _ 65535 (BCe 65536) hb (by decide)
  | succ t ih =>
    intro p fuel h1 h2
    obtain ⟨f, rfl⟩ : ∃ f, fuel = f + 1 := ⟨fuel - 1, by omega⟩
    have hmod : (p + 1) % (shiftState p).length = p + 1 := by
      rw [length_shiftState p (by omega)]
      exact Nat.mod_eq_of_lt (by omega)
    have hb : (shiftState p).getD ((p + 1) % (shiftState p).length) none =
        some (BCe (p + 1)) := by
      rw [hmod]
      exact getD_shiftState_next p (by omega)
    rw [shiftLoop_step_move f _ p (BCe (p + 1)) hb
      (show (BCe (p + 1)).distance > 0 from by
        show (p + 1) % 65536 > 0
        rw [Nat.mod_eq_of_lt (show p + 1 < 65536 from by omega)]
        omega)]
    rw [hmod, movedB_of_BCe p (by omega), shiftState_step p (by omega)]
    exact ih (p + 1) f (by omega) (by omega)

/-- Clearing the home bucket of the deleted first key gives the mid-shift
table with the hole at slot 0. -/
theorem canonical_set_zero :
    (canonical 65537 131072).set 0 none = shiftState 0 := by
  rw [canonical, shiftState,
    show List.range 65537 = 0 :: List.range' 1 65536 from by rw [List.range_eq_range']; rfl,
    List.map_cons, List.cons_append, List.set_cons_zero]
  rfl

/-- The map left by the counterexample Delete: the shifted table with the
hole at slot 65535 and the stranded entry at slot 65536. -/
def Mdel : Map := { buckets := shiftState 65535, numItems := 65536, mask := 131071, growAt := 98304, shrinkAt := 13107 }

/-- A delete of the run's first key found at its home bucket, on a map
whose shift result and shrink test are given. -/
theorem deleteW_gen (m : Map) (bs2 : List Bucket)
    (hlook : m.lookupW (keyOf 0) 0 = some (EC 0, 0))
    (hshift : shiftLoop (m.buckets.set 0 none).length (m.buckets.set 0 none) 0 = bs2)
    (hcond : ¬ (m.numItems - 1 < m.shrinkAt ∧ bs2.length > 16)) :
    m.deleteW (keyOf 0) 0 =
      ({ m with buckets := bs2, numItems := m.numItems - 1 }, some (EC 0)) := by
  simp only [Map.deleteW, hlook, hshift]
  rw [if_neg hcond]

theorem deleteW_final :
    (MW 65537 131072).deleteW (keyOf 0) 0 = (Mdel, some (EC 0)) := by
  have hset : (MW 65537 131072).buckets.set 0 none = shiftState 0 := canonical_set_zero
  have hshift : shiftLoop ((MW 65537 131072).buckets.set 0 none).length
      ((MW 65537 131072).buckets.set 0 none) 0 = shiftState 65535 := by
    rw [hset, length_shiftState 0 (by omega)]
    exact shift_walk 65535 0 131072 (by omega) (by omega)
  rw [deleteW_gen (MW 65537 131072) (shiftState 65535)
    (lookupW_MW_zero 65537 131072 (by omega) (by omega)) hshift
    (fun h => absurd h.1 (by decide))]
  rfl

/-- The wrapped lookup of the stranded key walks the moved run (stored
distances again equal to the carried ones) and hits the hole the shift
left at slot 65535 — one slot short of the stranded entry — so it
misses. -/
theorem shifted_walk_miss : ∀ (t idx fuel d : Nat), idx + t = 65535 → t + 1 ≤ fuel →
    d = idx % 65536 →
    lookupLoopW 0 (keyOf 65536) fuel (shiftState 65535) idx d = none := by
  intro t
  induction t with
  | zero =>
    intro idx fuel d h1 h2 _
    obtain ⟨f, rfl⟩ : ∃ f, fuel = f + 1 := ⟨fuel - 1, by omega⟩
    have hidx : idx = 65535 := by omega
    subst hidx
    exact lookupLoopW_step_none 0 (keyOf 65536) f _ 65535 d (getD_shiftState_hole 65535)
  | succ t ih =>
    intro idx fuel d h1 h2 h3
    obtain ⟨f, rfl⟩ : ∃ f, fuel = f + 1 := ⟨fuel - 1, by omega⟩
    have hb : (shiftState 65535).getD idx none = some ⟨EC (idx + 1), 0, idx⟩ :=
      getD_shiftState_lt 65535 idx (by omega)
    rw [lookupLoopW_step_some 0 (keyOf 65536) f _ idx d ⟨EC (idx + 1), 0, idx⟩ hb]
    rw [if_neg (show ¬ (⟨EC (idx + 1), 0, idx⟩ : BucketE).distance < d from by
      rw [h3, Nat.mod_eq_of_lt (show idx < 65536 from by omega)]
      exact lt_irrefl idx)]
    rw [if_neg (show ¬ ((⟨EC (idx + 1), 0, idx⟩ : BucketE).hash = 0 ∧
        (⟨EC (idx + 1), 0, idx⟩ : BucketE).entry.key = keyOf 65536) from
      fun hc => absurd (keyOf_inj (idx + 1) 65536 (by omega) (by omega) hc.2) (by omega))]
    rw [length_shiftState 65535 (by omega),
      Nat.mod_eq_of_lt (show idx + 1 < 131072 from by omega)]
    exact ih (idx + 1) f (wrap16 (d + 1)) (by omega) (by omega)
      (by rw [h3, wrap16]; exact Nat.mod_add_mod idx 65536 1)

/-- A wrapped lookup at hash 0 through named buckets of a named length. -/
theorem lookupW_gen (m : Map) (bs : List Bucket) (L : Nat) (key : Key)
    (r : Option (Entry × Nat)) (hbs : m.buckets = bs) (hL : bs.length = L)
    (h : lookupLoopW 0 key L bs (0 % L) 0 = r) :
    m.lookupW key 0 = r := by
  unfold Map.lookupW Map.maskIdx
  rw [hbs, hL, h]

theorem mdel_lookup_miss : Mdel.lookupW (keyOf 65536) 0 = none :=
  lookupW_gen Mdel (shiftState 65535) 131072 (keyOf 65536) none rfl
    (length_shiftState 65535 (by omega))
    (by
      rw [Nat.zero_mod]
      exact shifted_walk_miss 65535 0 131072 0 (by omega) (by omega)
        (Nat.zero_mod 65536).symm)

/-- The shard after the counterexample Delete. -/
def SHdel : Shard := { m := Mdel, memUsed := 1769472, maxMemory := 0, numOps := 65538, numHits := 0, numMisses := 0, numEvicted := 0, numExpired := 0 }

/-- The cache after the counterexample Delete. -/
def Cdel : Cache := { shards := [SHdel], numShards := 1, maxMemory := 0 }

/-- One counterexample Delete on the canonical cache state, generically in
the map-level delete result. -/
theorem deleteC1_gen (n cap : Nat) (m2 : Map) (e : Entry)
    (hdel : (MW n cap).deleteW (keyOf 0) 0 = (m2, some e)) :
    runC1OpW hashZ (CW n cap) (C1Op.c1Delete (keyOf 0)) =
      { shards := [{ m := m2, memUsed := 27 * (n : Int) - e.Size, maxMemory := 0, numOps := n + 1, numHits := 0, numMisses := 0, numEvicted := 0, numExpired := 0 }], numShards := 1, maxMemory := 0 } := by
  show (Cache.DeleteW hashZ (CW n cap) (keyOf 0)).2 = _
  simp only [Cache.DeleteW, Cache.getShardIdx, Cache.shardAt, Cache.setShard, CW, SH,
    hashZ_app, Nat.zero_mod, List.getD_cons_zero, hdel, List.set_cons_zero]

theorem delete_step :
    runC1OpW hashZ (CW 65537 131072) (C1Op.c1Delete (keyOf 0)) = Cdel := by
  rw [deleteC1_gen 65537 131072 Mdel (EC 0) deleteW_final]
  rfl

/-- A Load through the wrapped walk on a one-shard cache whose map misses
the key returns no entry. -/
theorem loadW_miss_gen (c : Cache) (sh : Shard) (key : Key) (now : Int)
    (hc : c.shards = [sh]) (hns : c.numShards = 1)
    (hmiss : sh.m.lookupW key 0 = none) :
    (c.LoadW hashZ key now).1 = none := by
  simp only [Cache.LoadW, Cache.getShardIdx, Cache.shardAt, hashZ_app, hns, Nat.zero_mod,
    hc, List.getD_cons_zero, Map.getW, hmiss, Option.map_none']

theorem load_final : (Cdel.LoadW hashZ (keyOf 65536) 0).1 = none :=
  loadW_miss_gen Cdel SHdel (keyOf 65536) 0 rfl rfl mdel_lookup_miss

theorem runC1OpsW_one (hashKey : Key → Nat) (c : Cache) (op : C1Op) :
    runC1OpsW hashKey c [op] = runC1OpW hashKey c op := rfl

theorem stores_map_toCacheOp (n : Nat) :
    (opsStores n).map toCacheOp =
      (List.range' 0 n).map (fun i => CacheOp.opStore (keyOf i) [] none 0 []) := by
  rw [opsStores, List.map_map, List.range_eq_range']
  rfl

/-- The counterexample Stores only ever write the empty value, so a
last-write entry of `some []` survives any further Stores. -/
theorem specStores_keep (q : Key) : ∀ (l a : Nat) (f : Key → Option Key), f q = some [] →
    (((List.range' a l).map (fun i => CacheOp.opStore (keyOf i) [] none 0 [])).foldl
      specStep f) q = some [] := by
  intro l
  induction l with
  | zero => intro a f hf; exact hf
  | succ l ih =>
    intro a f hf
    show (((List.range' (a + 1) l).map (fun i => CacheOp.opStore (keyOf i) [] none 0 [])).foldl
      specStep (specStep f (CacheOp.opStore (keyOf a) [] none 0 []))) q = some []
    refine ih (a + 1) _ ?_
    show (if q = keyOf a then some [] else f q) = some []
    split
    · rfl
    · exact hf

/-- Any key stored by the counterexample Stores has spec-side last-write
value `some []` after them. -/
theorem specStores_hit (m : Nat) : ∀ (l a : Nat) (f : Key → Option Key), a ≤ m → m < a + l →
    (((List.range' a l).map (fun i => CacheOp.opStore (keyOf i) [] none 0 [])).foldl
      specStep f) (keyOf m) = some [] := by
  intro l
  induction l with
  | zero => intro a f h1 h2; omega
  | succ l ih =>
    intro a f h1 h2
    show (((List.range' (a + 1) l).map (fun i => CacheOp.opStore (keyOf i) [] none 0 [])).foldl
      specStep (specStep f (CacheOp.opStore (keyOf a) [] none 0 []))) (keyOf m) = some []
    by_cases hma : m = a
    · refine specStores_keep (keyOf m) l (a + 1) _ ?_
      show (if keyOf m = keyOf a then some [] else f (keyOf m)) = some []
      rw [if_pos (by rw [hma])]
    · exact ih (a + 1) _ (by omega) (by omega)

theorem c1_spec_value : specValC1 opsC1 (keyOf 65536) = some [] := by
  rw [specValC1, opsC1, List.map_append, specVal, List.foldl_append]
  rw [show List.map toCacheOp [C1Op.c1Delete (keyOf 0)] = [CacheOp.opDelete (keyOf 0)] from rfl]
  rw [show ∀ (F : Key → Option Key), List.foldl specStep F [CacheOp.opDelete (keyOf 0)] =
    specStep F (CacheOp.opDelete (keyOf 0)) from fun F => rfl]
  rw [show ∀ (F : Key → Option Key), specStep F (CacheOp.opDelete (keyOf 0)) (keyOf 65536) =
    if keyOf 65536 = keyOf 0 then none else F (keyOf 65536) from fun F => rfl]
  rw [if_neg (show ¬ keyOf 65536 = keyOf 0 from by decide)]
  rw [stores_map_toCacheOp 65537]
  exact specStores_hit 65536 65537 0 (fun _ => none) (by omega) (by omega)

theorem c1_ops_nottl : ∀ op ∈ opsC1, c1NoTTL op = true := by
  intro op hop
  rw [opsC1] at hop
  rcases List.mem_append.mp hop with h1 | h2
  · rw [opsStores] at h1
    obtain ⟨i, _, rfl⟩ := List.mem_map.mp h1
    rfl
  · rw [List.mem_singleton] at h2
    subst h2
    rfl

/-- Claim C1 (original, refuted): the counterexample run is TTL-free on a
zero-limit cache, its spec-side last-write value for `keyOf 65536` is a
hit with the stored (empty) value, yet the final Load through the exact
uint16-distance operations misses: the 65537 same-home Stores build a
probe run whose stored uint16 distance wraps to 0 at offset 65536, the
Delete's backward shift stops at that wrapped distance, and the stranded
key sits unreachable behind the hole. -/
theorem c1_counterexample :
    (∀ op ∈ opsC1, c1NoTTL op = true) ∧
    specValC1 opsC1 (keyOf 65536) = some [] ∧
    ((runC1OpsW hashZ (Cache.New 1 0) opsC1).LoadW hashZ (keyOf 65536) 0).1.map
      Entry.value = none := by
  refine ⟨c1_ops_nottl, c1_spec_value, ?_⟩
  have h1 : runC1OpsW hashZ (Cache.New 1 0) opsC1 = Cdel := by
    rw [show Cache.New 1 0 = CW 0 16 from by decide, opsC1, runC1OpsW_append,
      stores_trace 65537 (by omega), capA_65537, runC1OpsW_one]
    exact delete_step
  rw [h1, load_final]
  rfl
